import Mathlib

/-! # mameCOBS: encoder and decoder state machines

A shallow embedding of `src/mameCOBS.hpp` (namespace `mamecobs`).

* `std::byte` is `Fin 256`; a `static_cast<std::byte>` of a `std::size_t` is
  reduction modulo `2^8`, written out in `size_to_byte`.
* An iterator/sentinel pair over a range is the list of elements that are still
  to be read (`frames_`, `current_frame_`, `input_`).
* `std::array<std::byte, N>` is a list of `N` bytes updated with `List.set`.
* The `std::size_t` counters never exceed `255` (encoder) or
  `max 255 MaxFrameSize` (decoder), so they are plain naturals.
* The `while (true)` drivers are iterated with explicit fuel and return `none`
  when the fuel runs out; the theorems show that the fuel supplied by the
  top-level functions is always enough.
-/

namespace mamecobs

/-! ## Shared primitives -/

/-- One `std::byte`. -/
abbrev Byte := Fin 256

/-- The reserved delimiter, `inline constexpr std::byte frame_delim{ 0x00 }`. -/
def frame_delim : Byte := 0

/-- The byte normalisation `to_byte`; the embedding reads ranges of `std::byte`,
for which the source returns its argument. -/
def to_byte (v : Byte) : Byte := v

/-- The conversion `static_cast<std::byte>(n)` of a `std::size_t`. -/
def size_to_byte (n : Nat) : Byte := ⟨n % 256, Nat.mod_lt n (by decide)⟩

/-- Error kinds of the decoder, `enum class decode_error`. -/
inductive decode_error
  | oversized
  | invalid_cobs
  | incomplete
  deriving DecidableEq

/-! ## Encoder (`views::encode<R>::iterator`) -/

/-- States of the encoder, `enum class encode_state`. -/
inductive encode_state
  | start_of_frame
  | start_of_chunk
  | on_byte
  | end_of_chunk
  | end_of_last_chunk
  | end_of_frame
  | finished
  deriving DecidableEq

/-- Data members of `views::encode<R>::iterator`. -/
structure EncodeIterator where
  /-- the frames from `frames_it_` up to `frames_end_` -/
  frames_ : List (List Byte)
  append_delim_ : Bool
  /-- the bytes from `current_frame_it_` up to `current_frame_end_` -/
  current_frame_ : List Byte
  /-- the 255 entries of `unit_buffer_` -/
  unit_buffer_ : List Byte
  unit_size_ : Nat
  unit_pos_ : Nat
  state_ : encode_state
  deriving DecidableEq

/-- Source `can_start_next_frame`: `frames_it_ != frames_end_`. -/
def can_start_next_frame (s : EncodeIterator) : Bool :=
  !s.frames_.isEmpty

/-- Source `setup_next_frame`: point the frame cursor at `*frames_it_` and
advance `frames_it_`. Only called when a frame remains. -/
def setup_next_frame (s : EncodeIterator) : EncodeIterator :=
  match s.frames_ with
  | [] => s
  | frame :: rest => { s with current_frame_ := frame, frames_ := rest }

/-- Source `process_start_of_frame`. -/
def process_start_of_frame (s : EncodeIterator) : encode_state × EncodeIterator :=
  if !can_start_next_frame s then
    (encode_state.finished, s)
  else
    (encode_state.start_of_chunk, setup_next_frame s)

/-- Source `process_start_of_chunk`. -/
def process_start_of_chunk (s : EncodeIterator) : encode_state × EncodeIterator :=
  (encode_state.on_byte, { s with unit_size_ := 1 })

/-- Source `process_on_byte`: end of frame first, then the 255 cap, then the
delimiter test on the byte just consumed. -/
def process_on_byte (s : EncodeIterator) : encode_state × EncodeIterator :=
  match s.current_frame_ with
  | [] => (encode_state.end_of_last_chunk, s)
  | v :: rest =>
    if 255 ≤ s.unit_size_ then
      (encode_state.end_of_chunk, s)
    else
      let b := to_byte v
      let s1 := { s with current_frame_ := rest }
      if b = frame_delim then
        (encode_state.end_of_chunk, s1)
      else
        (encode_state.on_byte,
          { s1 with unit_buffer_ := s1.unit_buffer_.set s1.unit_size_ b,
                    unit_size_ := s1.unit_size_ + 1 })

/-- Source `process_end_of_chunk`. -/
def process_end_of_chunk (s : EncodeIterator) : encode_state × EncodeIterator :=
  (encode_state.start_of_chunk,
    { s with unit_buffer_ := s.unit_buffer_.set 0 (size_to_byte s.unit_size_) })

/-- Source `process_end_of_last_chunk`. -/
def process_end_of_last_chunk (s : EncodeIterator) : encode_state × EncodeIterator :=
  (encode_state.end_of_frame,
    { s with unit_buffer_ := s.unit_buffer_.set 0 (size_to_byte s.unit_size_) })

/-- Source `process_end_of_frame`. -/
def process_end_of_frame (s : EncodeIterator) : encode_state × EncodeIterator :=
  if s.append_delim_ || can_start_next_frame s then
    (encode_state.start_of_frame,
      { s with unit_buffer_ := s.unit_buffer_.set 0 frame_delim, unit_size_ := 1 })
  else
    (encode_state.finished, { s with unit_size_ := 0 })

/-- The `while (true)` of `build_next_unit`, one `switch` per unit of fuel.
The result is the returned flag and the iterator; `none` is out of fuel. -/
def build_next_unit_loop : Nat → EncodeIterator → Option (Bool × EncodeIterator)
  | 0, _ => none
  | fuel + 1, s =>
    match s.state_ with
    | encode_state.start_of_frame =>
      let r := process_start_of_frame s
      build_next_unit_loop fuel { r.2 with state_ := r.1 }
    | encode_state.start_of_chunk =>
      let r := process_start_of_chunk s
      build_next_unit_loop fuel { r.2 with state_ := r.1 }
    | encode_state.on_byte =>
      let r := process_on_byte s
      build_next_unit_loop fuel { r.2 with state_ := r.1 }
    | encode_state.end_of_chunk =>
      let r := process_end_of_chunk s
      some (true, { r.2 with state_ := r.1 })
    | encode_state.end_of_last_chunk =>
      let r := process_end_of_last_chunk s
      some (true, { r.2 with state_ := r.1 })
    | encode_state.end_of_frame =>
      let r := process_end_of_frame s
      some (true, { r.2 with state_ := r.1 })
    | encode_state.finished =>
      some (false, { s with unit_size_ := 0 })

/-- Source `build_next_unit`. A call passes through `start_of_frame` and
`start_of_chunk` at most once, through `on_byte` at most 256 times (the cap
`255 <= unit_size_` stops it) and through one returning state, so 260 rounds of
the loop are enough from every state. -/
def build_next_unit (s : EncodeIterator) : Option (Bool × EncodeIterator) :=
  build_next_unit_loop 260 { s with unit_pos_ := 0 }

/-- The constructor `iterator(it, end, append_delim)`: the members take their
default initialisers and `build_next_unit()` is called once. The entries of
`unit_buffer_` are indeterminate in the source and written before they are
read; here they start as zero. -/
def EncodeIterator.begin (frames : List (List Byte)) (append_delim : Bool) :
    Option EncodeIterator :=
  (build_next_unit
    { frames_ := frames, append_delim_ := append_delim, current_frame_ := [],
      unit_buffer_ := List.replicate 255 0, unit_size_ := 0, unit_pos_ := 0,
      state_ := encode_state.start_of_frame }).map Prod.snd

/-- Source `operator*`: `unit_buffer_[unit_pos_]`. -/
def EncodeIterator.deref (s : EncodeIterator) : Byte :=
  s.unit_buffer_.getD s.unit_pos_ 0

/-- Source `operator++`. -/
def EncodeIterator.next (s : EncodeIterator) : Option EncodeIterator :=
  let s1 := { s with unit_pos_ := s.unit_pos_ + 1 }
  if s1.unit_pos_ ≥ s1.unit_size_ then
    (build_next_unit s1).map Prod.snd
  else
    some s1

/-- Source `operator==(it, std::default_sentinel)`. -/
def EncodeIterator.at_end (s : EncodeIterator) : Bool :=
  s.state_ = encode_state.finished && decide (s.unit_pos_ ≥ s.unit_size_)

/-- The range-for loop of a consumer, `for (auto b : encoded) out.push_back(b)`:
until the iterator equals the sentinel, read `*it` and advance. -/
def encode_collect : Nat → EncodeIterator → Option (List Byte)
  | 0, _ => none
  | fuel + 1, it =>
    if it.at_end then
      some []
    else
      match it.next with
      | none => none
      | some it1 => (encode_collect fuel it1).map (fun out => it.deref :: out)

/-- An upper bound on the number of bytes the encoder emits for `frames`, plus
one for the final sentinel test: a frame of `n` bytes gives at most `2 * n + 1`
unit bytes and one delimiter. -/
def encode_fuel (frames : List (List Byte)) : Nat :=
  (frames.map (fun f => 2 * f.length + 2)).sum + 1

/-- The bytes produced by `frames | encode(append_delim)`. -/
def encode (frames : List (List Byte)) (append_delim : Bool) : Option (List Byte) :=
  (EncodeIterator.begin frames append_delim).bind (encode_collect (encode_fuel frames))

/-! ## Decoder (`views::decode<MaxFrameSize, R>::iterator`) -/

/-- States of the decoder, `enum class decode_state`. -/
inductive decode_state
  | wait_for_code
  | read_data_bytes
  | handle_zero
  | frame_complete
  | error_state
  | finished
  deriving DecidableEq

/-- Data members of `views::decode<MaxFrameSize, R>::iterator`. -/
structure DecodeIterator where
  /-- the bytes from `it_` up to `end_` -/
  input_ : List Byte
  /-- the `MaxFrameSize` entries of `frame_buffer_` -/
  frame_buffer_ : List Byte
  frame_size_ : Nat
  current_error_ : Option decode_error
  frame_ready_ : Bool
  finished_ : Bool
  state_ : decode_state
  code_ : Nat
  bytes_read_ : Nat
  deriving DecidableEq

/-- What `operator*` of the decoder returns,
`std::expected<std::span<const std::byte>, decode_error>`. -/
inductive value_type
  | frame (bytes : List Byte)
  | unexpected (e : decode_error)
  deriving DecidableEq

/-- The `while (it_ != end_)` of `skip_to_delimiter`, on the unread input:
drop bytes up to and including the first delimiter. -/
def skip_input : List Byte → List Byte
  | [] => []
  | v :: rest => if to_byte v = frame_delim then rest else skip_input rest

/-- Source `skip_to_delimiter`. -/
def skip_to_delimiter (s : DecodeIterator) : DecodeIterator :=
  { s with input_ := skip_input s.input_, current_error_ := none,
           frame_ready_ := false, state_ := decode_state.wait_for_code }

/-- Source `process_wait_for_code`. -/
def process_wait_for_code (s : DecodeIterator) : decode_state × DecodeIterator :=
  match s.input_ with
  | [] => (decode_state.finished, s)
  | v :: rest =>
    let code_byte := to_byte v
    let s1 := { s with input_ := rest }
    if code_byte = frame_delim then
      (decode_state.frame_complete, s1)
    else
      let s2 := { s1 with code_ := code_byte.val }
      if s2.code_ = 0 then
        (decode_state.error_state,
          { s2 with current_error_ := some decode_error.invalid_cobs })
      else
        (decode_state.read_data_bytes, { s2 with bytes_read_ := 0 })

/-- The `while (bytes_read_ < code_ - 1 && it_ != end_)` of
`process_read_data_bytes`, one iteration per unit of fuel. The first component
is `some st` when the body returned `st`, and `none` when the loop condition
failed; the whole result is `none` when the fuel ran out. The state is entered
from `process_wait_for_code` only, which stores a non-zero code byte, so
`code_ - 1` does not wrap. -/
def read_data_loop (MaxFrameSize : Nat) :
    Nat → DecodeIterator → Option (Option decode_state × DecodeIterator)
  | 0, _ => none
  | fuel + 1, s =>
    match s.input_ with
    | [] => some (none, s)
    | v :: rest =>
      if s.bytes_read_ < s.code_ - 1 then
        if MaxFrameSize ≤ s.frame_size_ then
          some (some decode_state.error_state,
            { s with current_error_ := some decode_error.oversized })
        else
          let b := to_byte v
          if b = frame_delim then
            some (some decode_state.error_state,
              { s with current_error_ := some decode_error.invalid_cobs })
          else
            read_data_loop MaxFrameSize fuel
              { s with frame_buffer_ := s.frame_buffer_.set s.frame_size_ b,
                       frame_size_ := s.frame_size_ + 1,
                       input_ := rest,
                       bytes_read_ := s.bytes_read_ + 1 }
      else
        some (none, s)

/-- Source `process_read_data_bytes`. Every iteration of its loop that does not
return consumes one input byte, so `input_.length + 1` rounds are enough. -/
def process_read_data_bytes (MaxFrameSize : Nat) (s : DecodeIterator) :
    Option (decode_state × DecodeIterator) :=
  if s.code_ = 1 then
    some (decode_state.handle_zero, s)
  else
    match read_data_loop MaxFrameSize (s.input_.length + 1) s with
    | none => none
    | some (some st, s1) => some (st, s1)
    | some (none, s1) =>
      if s1.bytes_read_ = s1.code_ - 1 then
        some (decode_state.handle_zero, s1)
      else
        some (decode_state.error_state,
          { s1 with current_error_ := some decode_error.incomplete })

/-- Source `process_handle_zero`. -/
def process_handle_zero (MaxFrameSize : Nat) (s : DecodeIterator) :
    decode_state × DecodeIterator :=
  if 255 ≤ s.code_ then
    (decode_state.wait_for_code, s)
  else
    match s.input_ with
    | [] =>
      (decode_state.error_state, { s with current_error_ := some decode_error.incomplete })
    | v :: rest =>
      let next := to_byte v
      if next = frame_delim then
        (decode_state.frame_complete, { s with input_ := rest })
      else if s.frame_size_ ≥ MaxFrameSize then
        (decode_state.error_state, { s with current_error_ := some decode_error.oversized })
      else
        (decode_state.wait_for_code,
          { s with frame_buffer_ := s.frame_buffer_.set s.frame_size_ 0,
                   frame_size_ := s.frame_size_ + 1 })

/-- Source `process_frame_complete`. -/
def process_frame_complete (s : DecodeIterator) : decode_state × DecodeIterator :=
  (decode_state.wait_for_code, { s with frame_ready_ := true })

/-- Source `process_error_state`. -/
def process_error_state (s : DecodeIterator) : decode_state × DecodeIterator :=
  (decode_state.error_state, s)

/-- The `while (true)` of `decode_next_frame`, one `switch` per unit of fuel.
The result is the returned flag and the iterator; `none` is out of fuel. -/
def decode_next_frame_loop (MaxFrameSize : Nat) :
    Nat → DecodeIterator → Option (Bool × DecodeIterator)
  | 0, _ => none
  | fuel + 1, s =>
    match s.state_ with
    | decode_state.wait_for_code =>
      let r := process_wait_for_code s
      decode_next_frame_loop MaxFrameSize fuel { r.2 with state_ := r.1 }
    | decode_state.read_data_bytes =>
      match process_read_data_bytes MaxFrameSize s with
      | none => none
      | some r => decode_next_frame_loop MaxFrameSize fuel { r.2 with state_ := r.1 }
    | decode_state.handle_zero =>
      let r := process_handle_zero MaxFrameSize s
      decode_next_frame_loop MaxFrameSize fuel { r.2 with state_ := r.1 }
    | decode_state.frame_complete =>
      let r := process_frame_complete s
      some (true, { r.2 with state_ := r.1 })
    | decode_state.error_state =>
      some (false, s)
    | decode_state.finished =>
      some (false, { s with finished_ := true })

/-- Source `decode_next_frame`. Between two visits of `wait_for_code` the loop
passes through at most two other states, and every visit of `wait_for_code`
that does not end the call consumes one input byte, so
`3 * input_.length + 4` rounds are enough. -/
def decode_next_frame (MaxFrameSize : Nat) (s : DecodeIterator) :
    Option (Bool × DecodeIterator) :=
  decode_next_frame_loop MaxFrameSize (3 * s.input_.length + 4)
    { s with frame_size_ := 0, frame_ready_ := false, current_error_ := none,
             state_ := decode_state.wait_for_code }

/-- The assignment `finished_ = !decode_next_frame() && !current_error_`. -/
def decode_advance (MaxFrameSize : Nat) (s : DecodeIterator) : Option DecodeIterator :=
  match decode_next_frame MaxFrameSize s with
  | none => none
  | some (r, s1) => some { s1 with finished_ := !r && s1.current_error_.isNone }

/-- The constructor `iterator(it, end)`: the members take their default
initialisers and the first frame is decoded. The entries of `frame_buffer_` are
indeterminate in the source and written before they are read; here they start
as zero. -/
def DecodeIterator.begin (MaxFrameSize : Nat) (input : List Byte) : Option DecodeIterator :=
  decode_advance MaxFrameSize
    { input_ := input, frame_buffer_ := List.replicate MaxFrameSize 0, frame_size_ := 0,
      current_error_ := none, frame_ready_ := false, finished_ := false,
      state_ := decode_state.wait_for_code, code_ := 0, bytes_read_ := 0 }

/-- Source `operator*` of the decoder. -/
def DecodeIterator.deref (s : DecodeIterator) : value_type :=
  match s.current_error_ with
  | some e => value_type.unexpected e
  | none => value_type.frame (s.frame_buffer_.take s.frame_size_)

/-- Source `operator++` of the decoder. -/
def DecodeIterator.next (MaxFrameSize : Nat) (s : DecodeIterator) : Option DecodeIterator :=
  let s1 := if s.current_error_.isSome then skip_to_delimiter s else s
  if !s1.finished_ then
    decode_advance MaxFrameSize s1
  else
    some s1

/-- Source `operator==(it, std::default_sentinel)` of the decoder. -/
def DecodeIterator.at_end (s : DecodeIterator) : Bool :=
  s.finished_

/-- The range-for loop of a consumer, `for (auto r : decoded) out.push_back(r)`,
where a pushed frame is a copy of the span's bytes. -/
def decode_collect (MaxFrameSize : Nat) : Nat → DecodeIterator → Option (List value_type)
  | 0, _ => none
  | fuel + 1, it =>
    if it.at_end then
      some []
    else
      match it.next MaxFrameSize with
      | none => none
      | some it1 => (decode_collect MaxFrameSize fuel it1).map (fun out => it.deref :: out)

/-- The outcomes of `input | decode<MaxFrameSize>()`. Every outcome consumes at
least one input byte, so `input.length + 1` rounds are enough. -/
def decode (MaxFrameSize : Nat) (input : List Byte) : Option (List value_type) :=
  (DecodeIterator.begin MaxFrameSize input).bind
    (decode_collect MaxFrameSize (input.length + 1))

/-! ## Reference segmentation -/

/-- The longest zero-free initial segment of `B` that has at most `k` bytes. -/
def zero_free_run (k : Nat) (B : List Byte) : List Byte :=
  (B.takeWhile (fun b => b ≠ 0)).take k

/-- The reference encoding of one frame, as the specification words it: with
`P` the longest zero-free initial segment of `B` of at most 254 bytes, the
frame is `[|P|+1] ++ P` when `P` is all of `B`; a full run `[0xFF] ++ P` followed
by the encoding of the rest when `|P| = 254`; and otherwise `[|P|+1] ++ P`
followed by the encoding of what comes after the zero byte that ends `P`. -/
def enc (B : List Byte) : List Byte :=
  if _h1 : zero_free_run 254 B = B then
    size_to_byte ((zero_free_run 254 B).length + 1) :: zero_free_run 254 B
  else if _h2 : (zero_free_run 254 B).length = 254 then
    (0xFF : Byte) :: zero_free_run 254 B ++ enc (B.drop 254)
  else
    size_to_byte ((zero_free_run 254 B).length + 1) :: zero_free_run 254 B
      ++ enc (B.drop ((zero_free_run 254 B).length + 1))
termination_by B.length
decreasing_by
  all_goals simp_wf
  · have h3 : (zero_free_run 254 B).length ≤ B.length := by
      unfold zero_free_run
      exact (List.take_sublist _ _).length_le.trans (List.takeWhile_sublist _).length_le
    omega
  · cases B with
    | nil => exact absurd rfl _h1
    | cons b t => simp

/-- The number of units of the reference segmentation of `B` that are closed at
the 254-byte cap while bytes of the frame remain (the rollover units): the
recursion is that of `enc`, counting its second case. -/
def rollover_count (B : List Byte) : Nat :=
  if _h1 : zero_free_run 254 B = B then
    0
  else if _h2 : (zero_free_run 254 B).length = 254 then
    rollover_count (B.drop 254) + 1
  else
    rollover_count (B.drop ((zero_free_run 254 B).length + 1))
termination_by B.length
decreasing_by
  all_goals simp_wf
  · have h3 : (zero_free_run 254 B).length ≤ B.length := by
      unfold zero_free_run
      exact (List.take_sublist _ _).length_le.trans (List.takeWhile_sublist _).length_le
    omega
  · cases B with
    | nil => exact absurd rfl _h1
    | cons b t => simp

/-- The reference encoding of a list of frames: each frame is followed by one
delimiter when another frame follows or the trailing-delimiter flag is set. -/
def encode_frames : List (List Byte) → Bool → List Byte
  | [], _ => []
  | F :: rest, f =>
    enc F ++ (if f || !rest.isEmpty then [frame_delim] else []) ++ encode_frames rest f

/-- The encoder iterator as `build_next_unit` leaves it after building the first
unit of the frame remainder `B`: the unit is pending in full, and the state and
frame cursor say how the frame goes on. -/
def AfterUnit (it : EncodeIterator) (B : List Byte) (fs : List (List Byte)) (f : Bool) : Prop :=
  it.frames_ = fs ∧ it.append_delim_ = f ∧
  it.unit_pos_ = 0 ∧ it.unit_buffer_.length = 255 ∧
  it.unit_size_ = (zero_free_run 254 B).length + 1 ∧
  it.unit_buffer_.take it.unit_size_
    = size_to_byte ((zero_free_run 254 B).length + 1) :: zero_free_run 254 B ∧
  it.state_ = (if zero_free_run 254 B = B
    then encode_state.end_of_frame else encode_state.start_of_chunk) ∧
  it.current_frame_ = (if (zero_free_run 254 B).length = 254
    then B.drop 254 else B.drop ((zero_free_run 254 B).length + 1))

/-! ## Input-shape adapters (`adapters::encode::operator()`) -/

/-- The overload of `adapters::encode::operator()` for a range of byte ranges:
the frames are encoded as they are. -/
def adapters_encode_frames (append_delim : Bool) (r : List (List Byte)) : Option (List Byte) :=
  encode r append_delim

/-- The overload of `adapters::encode::operator()` for a flat byte range: the
range is wrapped by `std::views::single` into a range of one frame. -/
def adapters_encode_range (append_delim : Bool) (r : List Byte) : Option (List Byte) :=
  let single_frame := r
  let frames := [single_frame]
  encode frames append_delim

/-- The overload of `adapters::encode::operator()` for one byte-like value: the
byte is wrapped by `std::views::single` twice, into one frame of one byte. -/
def adapters_encode_byte (append_delim : Bool) (b : Byte) : Option (List Byte) :=
  let single_byte := [to_byte b]
  let frames := [single_byte]
  encode frames append_delim

/-! ## Functional description of the decoder -/

/-- How a call of `decode_next_frame` ends: with a complete frame, with an
error, or at the end of the input. -/
inductive frame_exit
  | complete (bytes : List Byte)
  | error (e : decode_error)
  | finished
  deriving DecidableEq

/-- The course of `decode_next_frame` from the state `read_data_bytes`, as a
function of the unread input: `code` is `code_`, `k` is the number of data bytes
of the unit still to copy and `acc` holds the frame bytes copied so far. The
result is how the call ends and the input it leaves unread. With `k = 0` the unit
is complete and the cases are those of `process_handle_zero` followed by
`process_wait_for_code`. -/
def decode_run_data (M : Nat) : List Byte → Nat → Nat → List Byte → frame_exit × List Byte
  | [], code, 0, _ =>
    if 255 ≤ code then (frame_exit.finished, [])
    else (frame_exit.error decode_error.incomplete, [])
  | [], _, _ + 1, _ => (frame_exit.error decode_error.incomplete, [])
  | b :: rest, code, 0, acc =>
    if b = frame_delim then (frame_exit.complete acc, rest)
    else if 255 ≤ code then decode_run_data M rest b.val (b.val - 1) acc
    else if M ≤ acc.length then (frame_exit.error decode_error.oversized, b :: rest)
    else decode_run_data M rest b.val (b.val - 1) (acc ++ [0])
  | b :: rest, code, k + 1, acc =>
    if M ≤ acc.length then (frame_exit.error decode_error.oversized, b :: rest)
    else if b = frame_delim then (frame_exit.error decode_error.invalid_cobs, b :: rest)
    else decode_run_data M rest code k (acc ++ [b])

/-- The course of `decode_next_frame` from the state `wait_for_code`, with `acc`
the frame bytes so far. -/
def decode_run_code (M : Nat) (acc : List Byte) : List Byte → frame_exit × List Byte
  | [] => (frame_exit.finished, [])
  | b :: rest =>
    if b = frame_delim then (frame_exit.complete acc, rest)
    else decode_run_data M rest b.val (b.val - 1) acc

/-- The outcomes the consumer loop collects from the unread input, as a
function: one call of `decode_next_frame` per outcome, and after an error the
input is first skipped up to and including the next delimiter. Every outcome
consumes input, so `n` rounds with `n` at least the length of the input reach
the end of the input. -/
def decode_outcomes (M : Nat) : Nat → List Byte → List value_type
  | 0, _ => []
  | n + 1, input =>
    match decode_run_code M [] input with
    | (frame_exit.finished, _) => []
    | (frame_exit.complete bytes, rest) => value_type.frame bytes :: decode_outcomes M n rest
    | (frame_exit.error e, rest) =>
      value_type.unexpected e :: decode_outcomes M n (skip_input rest)

/-- The iterator left by a call of `decode_next_frame` agrees with the exit `x`
of the functional description. -/
def ExitMatches (M : Nat) (r : Bool × DecodeIterator) (x : frame_exit × List Byte) : Prop :=
  r.2.input_ = x.2 ∧ r.2.frame_buffer_.length = M ∧
  match x.1 with
  | frame_exit.complete bytes =>
    r.1 = true ∧ r.2.current_error_ = none ∧ r.2.frame_buffer_.take r.2.frame_size_ = bytes
  | frame_exit.error e => r.1 = false ∧ r.2.current_error_ = some e
  | frame_exit.finished => r.1 = false ∧ r.2.current_error_ = none

/-- The byte stream of a list of units, each a code byte with its data bytes. -/
def units_stream : List (Byte × List Byte) → List Byte
  | [] => []
  | (c, d) :: rest => c :: d ++ units_stream rest

/-- The frame a list of units stands for: the data of the units, with one zero
byte after every unit whose code is below 255, except after the last unit. -/
def units_frame : List (Byte × List Byte) → List Byte
  | [] => []
  | [(_, d)] => d
  | (c, d) :: u :: rest =>
    d ++ (if c.val < 255 then [0] else []) ++ units_frame (u :: rest)

/-- A well-formed unit: a code byte `c` with `1 ≤ c ≤ 255`, exactly `c - 1`
data bytes, none of them zero. -/
def unit_ok (u : Byte × List Byte) : Prop :=
  1 ≤ u.1.val ∧ u.1.val ≤ 255 ∧ u.2.length = u.1.val - 1 ∧ ∀ b ∈ u.2, b ≠ 0

/-! ## Reachable states of the encoder -/

/-- The members of the encoder iterator as the constructor initialises them,
before its call of `build_next_unit`. -/
def encode_constructed (frames : List (List Byte)) (append_delim : Bool) : EncodeIterator :=
  { frames_ := frames, append_delim_ := append_delim, current_frame_ := [],
    unit_buffer_ := List.replicate 255 0, unit_size_ := 0, unit_pos_ := 0,
    state_ := encode_state.start_of_frame }

/-- One round of the `switch` of `build_next_unit`: the iterator after the state
function of the current state has run and its result is assigned to `state_`. -/
def encode_round (s : EncodeIterator) : EncodeIterator :=
  match s.state_ with
  | encode_state.start_of_frame =>
    let r := process_start_of_frame s
    { r.2 with state_ := r.1 }
  | encode_state.start_of_chunk =>
    let r := process_start_of_chunk s
    { r.2 with state_ := r.1 }
  | encode_state.on_byte =>
    let r := process_on_byte s
    { r.2 with state_ := r.1 }
  | encode_state.end_of_chunk =>
    let r := process_end_of_chunk s
    { r.2 with state_ := r.1 }
  | encode_state.end_of_last_chunk =>
    let r := process_end_of_last_chunk s
    { r.2 with state_ := r.1 }
  | encode_state.end_of_frame =>
    let r := process_end_of_frame s
    { r.2 with state_ := r.1 }
  | encode_state.finished =>
    { s with unit_size_ := 0 }

/-- The index of `unit_buffer_` that the round of the `switch` in state `s`
writes, `none` when the round writes nothing: `unit_buffer_[unit_size_] = b` in
`process_on_byte` on a data byte below the cap, and `unit_buffer_[0] = ...` in
`process_end_of_chunk`, `process_end_of_last_chunk` and `process_end_of_frame`. -/
def encode_write_index (s : EncodeIterator) : Option Nat :=
  match s.state_ with
  | encode_state.on_byte =>
    match s.current_frame_ with
    | [] => none
    | v :: _ =>
      if 255 ≤ s.unit_size_ then none
      else if to_byte v = frame_delim then none
      else some s.unit_size_
  | encode_state.end_of_chunk => some 0
  | encode_state.end_of_last_chunk => some 0
  | encode_state.end_of_frame =>
    if s.append_delim_ || can_start_next_frame s then some 0 else none
  | _ => none

/-- The encoder states a run over `frames` can pass through: the constructed
iterator, every state after one more round of the `switch`, and every such state
with another value of `unit_pos_` (`build_next_unit` and `operator++` assign
it). This contains every state of every call of `build_next_unit`. -/
inductive EncodeReachable (frames : List (List Byte)) (append_delim : Bool) :
    EncodeIterator → Prop
  | constructed : EncodeReachable frames append_delim (encode_constructed frames append_delim)
  | round (s : EncodeIterator) :
    EncodeReachable frames append_delim s → EncodeReachable frames append_delim (encode_round s)
  | position (s : EncodeIterator) (p : Nat) :
    EncodeReachable frames append_delim s →
    EncodeReachable frames append_delim { s with unit_pos_ := p }

/-- The iterator values a consumer of the encoder sees: the one `begin()`
returns, and the one `operator++` leaves from one that is not the sentinel. -/
inductive EncodeVisited (frames : List (List Byte)) (append_delim : Bool) :
    EncodeIterator → Prop
  | begin (it : EncodeIterator) :
    EncodeIterator.begin frames append_delim = some it → EncodeVisited frames append_delim it
  | next (it it2 : EncodeIterator) :
    EncodeVisited frames append_delim it → it.at_end = false → it.next = some it2 →
    EncodeVisited frames append_delim it2

/-- The encoder iterator between two calls of its operators: a unit is pending
with `unit_pos_` inside it, or the encoder is finished with an empty unit. -/
def EncodeAtRest (it : EncodeIterator) : Prop :=
  it.unit_buffer_.length = 255 ∧ it.unit_size_ ≤ 255 ∧
  (((it.state_ = encode_state.start_of_chunk ∨ it.state_ = encode_state.end_of_frame ∨
      it.state_ = encode_state.start_of_frame) ∧ it.unit_pos_ < it.unit_size_) ∨
   (it.state_ = encode_state.finished ∧ it.unit_size_ = 0))

/-! ## Reachable states of the decoder -/

/-- The members of the decoder iterator as the constructor initialises them,
before its call of `decode_next_frame`. -/
def decode_constructed (MaxFrameSize : Nat) (input : List Byte) : DecodeIterator :=
  { input_ := input, frame_buffer_ := List.replicate MaxFrameSize 0, frame_size_ := 0,
    current_error_ := none, frame_ready_ := false, finished_ := false,
    state_ := decode_state.wait_for_code, code_ := 0, bytes_read_ := 0 }

/-- The four assignments at the head of `decode_next_frame`. -/
def decode_reset (s : DecodeIterator) : DecodeIterator :=
  { s with frame_size_ := 0, frame_ready_ := false, current_error_ := none,
           state_ := decode_state.wait_for_code }

/-- The end of `process_read_data_bytes`, after its `while`, with the result
assigned to `state_`. -/
def read_data_after (s : DecodeIterator) : DecodeIterator :=
  if s.bytes_read_ = s.code_ - 1 then
    { s with state_ := decode_state.handle_zero }
  else
    { s with current_error_ := some decode_error.incomplete,
             state_ := decode_state.error_state }

/-- One step of the decoder. It is one round of the `switch` of
`decode_next_frame`, with the state function's result assigned to `state_`,
except in `process_read_data_bytes`, where one step is one iteration of the
`while`: the iterator stays in `read_data_bytes` after an iteration that stores
a byte, and the step that finds the loop condition false runs the end of the
function. The test `code_ == 1` at the head of the function is repeated by
every step; `code_` does not change inside the function. -/
def decode_step (MaxFrameSize : Nat) (s : DecodeIterator) : DecodeIterator :=
  match s.state_ with
  | decode_state.wait_for_code =>
    let r := process_wait_for_code s
    { r.2 with state_ := r.1 }
  | decode_state.read_data_bytes =>
    if s.code_ = 1 then
      { s with state_ := decode_state.handle_zero }
    else
      match s.input_ with
      | [] => read_data_after s
      | v :: rest =>
        if s.bytes_read_ < s.code_ - 1 then
          if MaxFrameSize ≤ s.frame_size_ then
            { s with current_error_ := some decode_error.oversized,
                     state_ := decode_state.error_state }
          else if to_byte v = frame_delim then
            { s with current_error_ := some decode_error.invalid_cobs,
                     state_ := decode_state.error_state }
          else
            { s with frame_buffer_ := s.frame_buffer_.set s.frame_size_ (to_byte v),
                     frame_size_ := s.frame_size_ + 1,
                     input_ := rest,
                     bytes_read_ := s.bytes_read_ + 1 }
        else
          read_data_after s
  | decode_state.handle_zero =>
    let r := process_handle_zero MaxFrameSize s
    { r.2 with state_ := r.1 }
  | decode_state.frame_complete =>
    let r := process_frame_complete s
    { r.2 with state_ := r.1 }
  | decode_state.error_state => s
  | decode_state.finished => { s with finished_ := true }

/-- The index of `frame_buffer_` that the step in state `s` writes, `none` when
the step writes nothing: `frame_buffer_[frame_size_] = b` in the `while` of
`process_read_data_bytes`, and `frame_buffer_[frame_size_++] = std::byte{ 0 }`
in `process_handle_zero`. -/
def decode_write_index (MaxFrameSize : Nat) (s : DecodeIterator) : Option Nat :=
  match s.state_ with
  | decode_state.read_data_bytes =>
    if s.code_ = 1 then none
    else
      match s.input_ with
      | [] => none
      | v :: _ =>
        if s.bytes_read_ < s.code_ - 1 then
          if MaxFrameSize ≤ s.frame_size_ then none
          else if to_byte v = frame_delim then none
          else some s.frame_size_
        else none
  | decode_state.handle_zero =>
    if 255 ≤ s.code_ then none
    else
      match s.input_ with
      | [] => none
      | v :: _ =>
        if to_byte v = frame_delim then none
        else if s.frame_size_ ≥ MaxFrameSize then none
        else some s.frame_size_
  | _ => none

/-- The decoder states a run over `input` can pass through: the constructed
iterator, and from a state of the run the state after one more step, after the
assignments at the head of `decode_next_frame`, after `skip_to_delimiter`, and
with another value of `finished_` (the constructor and `operator++` assign it).
This contains every state of every call of `decode_next_frame`. -/
inductive DecodeReachable (MaxFrameSize : Nat) (input : List Byte) : DecodeIterator → Prop
  | constructed : DecodeReachable MaxFrameSize input (decode_constructed MaxFrameSize input)
  | step (s : DecodeIterator) :
    DecodeReachable MaxFrameSize input s →
    DecodeReachable MaxFrameSize input (decode_step MaxFrameSize s)
  | reset (s : DecodeIterator) :
    DecodeReachable MaxFrameSize input s → DecodeReachable MaxFrameSize input (decode_reset s)
  | skip (s : DecodeIterator) :
    DecodeReachable MaxFrameSize input s →
    DecodeReachable MaxFrameSize input (skip_to_delimiter s)
  | flag (s : DecodeIterator) (b : Bool) :
    DecodeReachable MaxFrameSize input s →
    DecodeReachable MaxFrameSize input { s with finished_ := b }

/-- The iterator values a consumer of the decoder sees: the one `begin()`
returns, and the one `operator++` leaves from one that is not the sentinel. -/
inductive DecodeVisited (MaxFrameSize : Nat) (input : List Byte) : DecodeIterator → Prop
  | begin (it : DecodeIterator) :
    DecodeIterator.begin MaxFrameSize input = some it → DecodeVisited MaxFrameSize input it
  | next (it it2 : DecodeIterator) :
    DecodeVisited MaxFrameSize input it → it.at_end = false →
    it.next MaxFrameSize = some it2 → DecodeVisited MaxFrameSize input it2

/-- A frame segment cut inside a declared run: `input` is zero-free bytes `pre`
(the complete units before), a code byte `c` of at least 2, fewer than `c - 1`
non-zero data bytes `d`, and then a byte 0x00; `r` is `input` from that 0x00
on. -/
def RunCutByDelimiter (input r : List Byte) : Prop :=
  ∃ (pre : List Byte) (c : Byte) (d tail : List Byte),
    input = (pre ++ c :: d) ++ 0 :: tail ∧ r = 0 :: tail ∧
    2 ≤ c.val ∧ d.length < c.val - 1 ∧ ∀ b ∈ pre ++ c :: d, b ≠ 0

/-! ## Byte normalisation of integral elements -/

/-- The `else` branch of `to_byte`, taken for an integral element type of size
one (`char`, `signed char`, `unsigned char`, ...):
`static_cast<std::byte>(static_cast<unsigned char>(v))`. The argument is the
value of `v`, in `-128 .. 127` for a signed type and in `0 .. 255` for an
unsigned one; the conversion to `unsigned char` is reduction modulo `2^8` and
the conversion to `std::byte` keeps the value. -/
def to_byte_integral (v : Int) : Byte :=
  ⟨(v % 256).toNat, by
    have h1 : 0 ≤ v % 256 := Int.emod_nonneg v (by decide)
    have h2 : v % 256 < 256 := Int.emod_lt_of_pos v (by decide)
    omega⟩

/-! ## Lemmas on the reference segmentation -/

theorem zero_free_run_nil (k : Nat) : zero_free_run k [] = [] := by
  simp [zero_free_run]

theorem zero_free_run_zero (B : List Byte) : zero_free_run 0 B = [] := by
  simp [zero_free_run]

theorem zero_free_run_cons_zero (k : Nat) (t : List Byte) :
    zero_free_run k ((0 : Byte) :: t) = [] := by
  simp [zero_free_run]

theorem zero_free_run_cons_succ (k : Nat) (b : Byte) (t : List Byte) (hb : b ≠ 0) :
    zero_free_run (k + 1) (b :: t) = b :: zero_free_run k t := by
  simp [zero_free_run, hb]

theorem zero_free_run_length_le (k : Nat) (B : List Byte) :
    (zero_free_run k B).length ≤ k := by
  unfold zero_free_run
  exact List.length_take_le _ _

theorem zero_free_run_length_le_length (k : Nat) (B : List Byte) :
    (zero_free_run k B).length ≤ B.length := by
  unfold zero_free_run
  exact (List.take_sublist _ _).length_le.trans (List.takeWhile_sublist _).length_le

theorem zero_free_run_ne_zero (k : Nat) (B : List Byte) :
    ∀ b ∈ zero_free_run k B, b ≠ 0 := by
  intro b hb
  unfold zero_free_run at hb
  have h1 := List.mem_takeWhile_imp (List.mem_of_mem_take hb)
  simpa using h1

/-- The run is an initial segment of the list. -/
theorem zero_free_run_append_drop (k : Nat) (B : List Byte) :
    zero_free_run k B ++ B.drop (zero_free_run k B).length = B := by
  induction B generalizing k with
  | nil => simp [zero_free_run_nil]
  | cons b t ih =>
    cases k with
    | zero => simp [zero_free_run_zero]
    | succ k =>
      by_cases hb : b = 0
      · subst hb
        simp [zero_free_run_cons_zero]
      · simp [zero_free_run_cons_succ k b t hb, ih k]

/-- When the run stops short of both the cap and the end of the list, the next
byte is a zero. -/
theorem zero_free_run_next_zero (k : Nat) (B : List Byte)
    (h1 : zero_free_run k B ≠ B) (h2 : (zero_free_run k B).length < k) :
    B.drop (zero_free_run k B).length
      = (0 : Byte) :: B.drop ((zero_free_run k B).length + 1) := by
  induction B generalizing k with
  | nil => simp [zero_free_run_nil] at h1
  | cons b t ih =>
    cases k with
    | zero => simp at h2
    | succ k =>
      by_cases hb : b = 0
      · subst hb
        simp [zero_free_run_cons_zero]
      · rw [zero_free_run_cons_succ k b t hb] at h1 h2 ⊢
        have h3 : zero_free_run k t ≠ t := by
          intro h
          apply h1
          rw [h]
        have h4 : (zero_free_run k t).length < k := by
          simpa using h2
        simpa using ih k h3 h4

/-! ## Lemmas on the encoder -/

theorem take_set_zero (buf : List Byte) (c : Byte) (n : Nat) (hn : 1 ≤ n) (hb : buf ≠ []) :
    (buf.set 0 c).take n = c :: (buf.take n).tail := by
  cases buf with
  | nil => exact absurd rfl hb
  | cons a t =>
    cases n with
    | zero => omega
    | succ n => simp

theorem take_set_succ (buf : List Byte) (v : Byte) (n : Nat) (hn : n < buf.length) :
    (buf.set n v).take (n + 1) = buf.take n ++ [v] := by
  induction buf generalizing n with
  | nil => simp at hn
  | cons a t ih =>
    cases n with
    | zero => simp
    | succ n =>
      have h1 : n < t.length := by simpa using hn
      simp [ih n h1]

theorem tail_take_set_succ (buf : List Byte) (v : Byte) (n : Nat) (h1 : 1 ≤ n)
    (hn : n < buf.length) :
    ((buf.set n v).take (n + 1)).tail = (buf.take n).tail ++ [v] := by
  rw [take_set_succ buf v n hn]
  cases buf with
  | nil => simp at hn
  | cons a t =>
    cases n with
    | zero => omega
    | succ n => simp

theorem build_loop_on_byte (fuel : Nat) (s : EncodeIterator)
    (h : s.state_ = encode_state.on_byte) :
    build_next_unit_loop (fuel + 1) s
      = build_next_unit_loop fuel
          { (process_on_byte s).2 with state_ := (process_on_byte s).1 } := by
  simp [build_next_unit_loop, h]

theorem build_loop_end_of_chunk (fuel : Nat) (s : EncodeIterator)
    (h : s.state_ = encode_state.end_of_chunk) :
    build_next_unit_loop (fuel + 1) s
      = some (true, { (process_end_of_chunk s).2 with state_ := (process_end_of_chunk s).1 }) := by
  simp [build_next_unit_loop, h]

theorem build_loop_end_of_last_chunk (fuel : Nat) (s : EncodeIterator)
    (h : s.state_ = encode_state.end_of_last_chunk) :
    build_next_unit_loop (fuel + 1) s
      = some (true,
          { (process_end_of_last_chunk s).2 with state_ := (process_end_of_last_chunk s).1 }) := by
  simp [build_next_unit_loop, h]

theorem build_loop_start_of_chunk (fuel : Nat) (s : EncodeIterator)
    (h : s.state_ = encode_state.start_of_chunk) :
    build_next_unit_loop (fuel + 1) s
      = build_next_unit_loop fuel
          { (process_start_of_chunk s).2 with state_ := (process_start_of_chunk s).1 } := by
  simp [build_next_unit_loop, h]

theorem build_loop_start_of_frame (fuel : Nat) (s : EncodeIterator)
    (h : s.state_ = encode_state.start_of_frame) :
    build_next_unit_loop (fuel + 1) s
      = build_next_unit_loop fuel
          { (process_start_of_frame s).2 with state_ := (process_start_of_frame s).1 } := by
  simp [build_next_unit_loop, h]

theorem build_loop_end_of_frame (fuel : Nat) (s : EncodeIterator)
    (h : s.state_ = encode_state.end_of_frame) :
    build_next_unit_loop (fuel + 1) s
      = some (true, { (process_end_of_frame s).2 with state_ := (process_end_of_frame s).1 }) := by
  simp [build_next_unit_loop, h]

theorem build_loop_finished (fuel : Nat) (s : EncodeIterator)
    (h : s.state_ = encode_state.finished) :
    build_next_unit_loop (fuel + 1) s = some (false, { s with unit_size_ := 0 }) := by
  simp [build_next_unit_loop, h]

/-- One unit: from `on_byte` the loop copies the longest zero-free run that still
fits, stamps the code byte and returns. -/
theorem on_byte_run (cur : List Byte) : ∀ (s : EncodeIterator) (fuel : Nat),
    s.state_ = encode_state.on_byte → s.current_frame_ = cur →
    1 ≤ s.unit_size_ → s.unit_size_ ≤ 255 → s.unit_buffer_.length = 255 →
    257 - s.unit_size_ ≤ fuel →
    ∃ it, build_next_unit_loop fuel s = some (true, it) ∧
      it.frames_ = s.frames_ ∧ it.append_delim_ = s.append_delim_ ∧
      it.unit_pos_ = s.unit_pos_ ∧ it.unit_buffer_.length = 255 ∧
      it.unit_size_ = s.unit_size_ + (zero_free_run (255 - s.unit_size_) cur).length ∧
      it.unit_buffer_.take it.unit_size_
        = size_to_byte it.unit_size_ :: (s.unit_buffer_.take s.unit_size_).tail
            ++ zero_free_run (255 - s.unit_size_) cur ∧
      it.state_ = (if zero_free_run (255 - s.unit_size_) cur = cur
        then encode_state.end_of_frame else encode_state.start_of_chunk) ∧
      it.current_frame_ = (if s.unit_size_ + (zero_free_run (255 - s.unit_size_) cur).length = 255
        then cur.drop (zero_free_run (255 - s.unit_size_) cur).length
        else cur.drop ((zero_free_run (255 - s.unit_size_) cur).length + 1)) := by
  induction cur with
  | nil =>
    intro s fuel hst hcur h1 h255 hlen hfuel
    obtain ⟨f, rfl⟩ : ∃ f, fuel = f + 2 := ⟨fuel - 2, by omega⟩
    have hne : s.unit_buffer_ ≠ [] := by
      intro h
      rw [h] at hlen
      simp at hlen
    rw [build_loop_on_byte _ _ hst]
    simp only [process_on_byte, hcur]
    rw [build_loop_end_of_last_chunk _ _ rfl]
    refine ⟨_, rfl, ?_⟩
    simp [process_end_of_last_chunk, zero_free_run_nil, hlen, hcur,
      take_set_zero _ _ _ h1 hne]
  | cons v rest ih =>
    intro s fuel hst hcur h1 h255 hlen hfuel
    obtain ⟨f, rfl⟩ : ∃ f, fuel = f + 2 := ⟨fuel - 2, by omega⟩
    have hne : s.unit_buffer_ ≠ [] := by
      intro h
      rw [h] at hlen
      simp at hlen
    rw [build_loop_on_byte _ _ hst]
    by_cases hcap : 255 ≤ s.unit_size_
    · have hus : s.unit_size_ = 255 := by omega
      simp only [process_on_byte, hcur, hcap, if_true]
      rw [build_loop_end_of_chunk _ _ rfl]
      refine ⟨_, rfl, ?_⟩
      have h3 := take_set_zero s.unit_buffer_ (size_to_byte 255) 255 (by omega) hne
      simp [process_end_of_chunk, hus, zero_free_run_zero, hlen, hcur, h3]
    · by_cases hv : v = 0
      · subst hv
        simp only [process_on_byte, hcur, hcap, if_false, to_byte, frame_delim, if_true]
        rw [build_loop_end_of_chunk _ _ rfl]
        refine ⟨_, rfl, ?_⟩
        have h2 : s.unit_size_ ≠ 255 := by omega
        simp [process_end_of_chunk, zero_free_run_cons_zero, hlen, hcur,
          take_set_zero _ _ _ h1 hne, h2]
      · simp only [process_on_byte, hcur, hcap, if_false, to_byte, frame_delim, hv]
        have hlt : s.unit_size_ < s.unit_buffer_.length := by omega
        obtain ⟨it, hrun, hfr, hap, hpos, hbl, hsz, htk, hstate, hcf⟩ :=
          ih { s with current_frame_ := rest,
                      unit_buffer_ := s.unit_buffer_.set s.unit_size_ v,
                      unit_size_ := s.unit_size_ + 1,
                      state_ := encode_state.on_byte } (f + 1) rfl rfl
            (by simp) (by simp; omega) (by simp [hlen]) (by simp; omega)
        have hk : 255 - s.unit_size_ = (255 - (s.unit_size_ + 1)) + 1 := by omega
        have hz : zero_free_run (255 - s.unit_size_) (v :: rest)
            = v :: zero_free_run (255 - (s.unit_size_ + 1)) rest := by
          rw [hk, zero_free_run_cons_succ _ v rest hv]
        dsimp only at hsz htk hstate hcf
        rw [tail_take_set_succ _ _ _ h1 hlt] at htk
        rw [hz]
        refine ⟨it, hrun, hfr, hap, hpos, hbl, ?_, ?_, ?_, ?_⟩
        · rw [hsz, List.length_cons]
          omega
        · rw [htk]
          simp
        · rw [hstate]
          simp
        · rw [hcf, List.length_cons]
          have h5 : s.unit_size_ + 1 + (zero_free_run (255 - (s.unit_size_ + 1)) rest).length
              = s.unit_size_ + ((zero_free_run (255 - (s.unit_size_ + 1)) rest).length + 1) := by
            omega
          rw [h5]
          simp

theorem build_next_unit_pos (s : EncodeIterator) (p : Nat) :
    build_next_unit { s with unit_pos_ := p } = build_next_unit s := rfl

/-- A call of `build_next_unit` in state `start_of_chunk` builds the next unit of
the current frame. -/
theorem build_from_chunk (s : EncodeIterator)
    (hst : s.state_ = encode_state.start_of_chunk) (hlen : s.unit_buffer_.length = 255) :
    ∃ it, build_next_unit s = some (true, it) ∧
      it.frames_ = s.frames_ ∧ it.append_delim_ = s.append_delim_ ∧
      it.unit_pos_ = 0 ∧ it.unit_buffer_.length = 255 ∧
      it.unit_size_ = (zero_free_run 254 s.current_frame_).length + 1 ∧
      it.unit_buffer_.take it.unit_size_
        = size_to_byte ((zero_free_run 254 s.current_frame_).length + 1)
            :: zero_free_run 254 s.current_frame_ ∧
      it.state_ = (if zero_free_run 254 s.current_frame_ = s.current_frame_
        then encode_state.end_of_frame else encode_state.start_of_chunk) ∧
      it.current_frame_ = (if (zero_free_run 254 s.current_frame_).length = 254
        then s.current_frame_.drop 254
        else s.current_frame_.drop ((zero_free_run 254 s.current_frame_).length + 1)) := by
  obtain ⟨it, hrun, hfr, hap, hpos, hbl, hsz, htk, hstate, hcf⟩ :=
    on_byte_run s.current_frame_
      { s with unit_pos_ := 0, unit_size_ := 1, state_ := encode_state.on_byte } 259
      rfl rfl (by simp) (by simp) (by simp [hlen]) (by simp)
  dsimp only at hfr hap hpos hsz htk hstate hcf
  have h254 : 255 - 1 = 254 := rfl
  rw [h254] at hsz htk hstate hcf
  refine ⟨it, ?_, hfr, hap, hpos, hbl, by omega, ?_, hstate, ?_⟩
  · rw [← hrun]
    show build_next_unit_loop (259 + 1) { s with unit_pos_ := 0 } = _
    rw [build_loop_start_of_chunk 259 { s with unit_pos_ := 0 } hst]
    rfl
  · rw [htk, hsz]
    have h2 : (s.unit_buffer_.take 1).tail = [] := by
      cases s.unit_buffer_ <;> simp
    rw [h2, Nat.add_comm]
    simp
  · rw [hcf]
    by_cases h : (zero_free_run 254 s.current_frame_).length = 254
    · simp [h]
    · have h3 : ¬ (1 + (zero_free_run 254 s.current_frame_).length = 255) := by omega
      simp [h, h3]

/-- A call of `build_next_unit` in state `start_of_frame` with a frame left
builds the first unit of that frame. -/
theorem build_from_frame (s : EncodeIterator) (F : List Byte) (rest : List (List Byte))
    (hst : s.state_ = encode_state.start_of_frame) (hfs : s.frames_ = F :: rest)
    (hlen : s.unit_buffer_.length = 255) :
    ∃ it, build_next_unit s = some (true, it) ∧
      it.frames_ = rest ∧ it.append_delim_ = s.append_delim_ ∧
      it.unit_pos_ = 0 ∧ it.unit_buffer_.length = 255 ∧
      it.unit_size_ = (zero_free_run 254 F).length + 1 ∧
      it.unit_buffer_.take it.unit_size_
        = size_to_byte ((zero_free_run 254 F).length + 1) :: zero_free_run 254 F ∧
      it.state_ = (if zero_free_run 254 F = F
        then encode_state.end_of_frame else encode_state.start_of_chunk) ∧
      it.current_frame_ = (if (zero_free_run 254 F).length = 254
        then F.drop 254 else F.drop ((zero_free_run 254 F).length + 1)) := by
  obtain ⟨it, hrun, hfr, hap, hpos, hbl, hsz, htk, hstate, hcf⟩ :=
    on_byte_run F
      { s with unit_pos_ := 0, unit_size_ := 1, state_ := encode_state.on_byte,
               current_frame_ := F, frames_ := rest } 258
      rfl rfl (by simp) (by simp) (by simp [hlen]) (by simp)
  dsimp only at hfr hap hpos hsz htk hstate hcf
  have h254 : 255 - 1 = 254 := rfl
  rw [h254] at hsz htk hstate hcf
  refine ⟨it, ?_, hfr, hap, hpos, hbl, by omega, ?_, hstate, ?_⟩
  · rw [← hrun]
    show build_next_unit_loop (259 + 1) { s with unit_pos_ := 0 } = _
    rw [build_loop_start_of_frame 259 { s with unit_pos_ := 0 } hst]
    have h6 : process_start_of_frame { s with unit_pos_ := 0 }
        = (encode_state.start_of_chunk,
            { s with unit_pos_ := 0, current_frame_ := F, frames_ := rest }) := by
      simp [process_start_of_frame, can_start_next_frame, setup_next_frame, hfs]
    rw [h6]
    show build_next_unit_loop (258 + 1) _ = _
    rw [build_loop_start_of_chunk _ _ rfl]
    rfl
  · rw [htk, hsz]
    have h2 : (s.unit_buffer_.take 1).tail = [] := by
      cases s.unit_buffer_ <;> simp
    rw [h2, Nat.add_comm]
    simp
  · rw [hcf]
    by_cases h : (zero_free_run 254 F).length = 254
    · simp [h]
    · have h3 : ¬ (1 + (zero_free_run 254 F).length = 255) := by omega
      simp [h, h3]

theorem drop_take_getD (buf : List Byte) (pos size : Nat) (h1 : pos < size)
    (h2 : size ≤ buf.length) :
    (buf.take size).drop pos = buf.getD pos 0 :: (buf.take size).drop (pos + 1) := by
  have h3 : pos < (buf.take size).length := by
    rw [List.length_take]
    omega
  rw [List.drop_eq_getElem_cons h3]
  congr 1
  rw [List.getElem_take]
  have h4 : pos < buf.length := by omega
  simp [List.getD_eq_getElem?_getD, List.getElem?_eq_getElem h4]

/-- The consumer loop first reads the pending bytes of the current unit and then
goes on with the iterator that the next `build_next_unit` leaves. -/
theorem encode_collect_drain (out : List Byte) (r : Bool) (it2 : EncodeIterator)
    (hq : ∀ fuel, out.length + 1 ≤ fuel → encode_collect fuel it2 = some out) :
    ∀ (k : Nat) (it : EncodeIterator), it.unit_pos_ + k + 1 = it.unit_size_ →
      it.unit_size_ ≤ it.unit_buffer_.length →
      build_next_unit it = some (r, it2) →
      ∀ fuel, ((it.unit_buffer_.take it.unit_size_).drop it.unit_pos_ ++ out).length + 1 ≤ fuel →
        encode_collect fuel it
          = some ((it.unit_buffer_.take it.unit_size_).drop it.unit_pos_ ++ out) := by
  intro k
  induction k with
  | zero =>
    intro it hk hsz hb fuel hfuel
    rw [drop_take_getD _ _ _ (by omega) hsz] at hfuel ⊢
    obtain ⟨f, rfl⟩ : ∃ f, fuel = f + 1 := ⟨fuel - 1, by simp at hfuel; omega⟩
    have h1 : it.at_end = false := by
      simp [EncodeIterator.at_end]
      intro _
      omega
    have h2 : it.next = some it2 := by
      have h3 : it.unit_pos_ + 1 ≥ it.unit_size_ := by omega
      simp only [EncodeIterator.next, h3, if_true]
      rw [build_next_unit_pos, hb]
      rfl
    have h4 : (it.unit_buffer_.take it.unit_size_).drop (it.unit_pos_ + 1) = [] := by
      apply List.drop_eq_nil_of_le
      rw [List.length_take]
      omega
    rw [h4] at hfuel ⊢
    simp only [encode_collect, h1, h2]
    rw [hq f (by simp at hfuel; omega)]
    simp [EncodeIterator.deref]
  | succ k ih =>
    intro it hk hsz hb fuel hfuel
    rw [drop_take_getD _ _ _ (by omega) hsz] at hfuel ⊢
    obtain ⟨f, rfl⟩ : ∃ f, fuel = f + 1 := ⟨fuel - 1, by simp at hfuel; omega⟩
    have h1 : it.at_end = false := by
      simp [EncodeIterator.at_end]
      intro _
      omega
    have h2 : it.next = some { it with unit_pos_ := it.unit_pos_ + 1 } := by
      have h3 : ¬ (it.unit_pos_ + 1 ≥ it.unit_size_) := by omega
      simp only [EncodeIterator.next, h3, if_false]
    simp only [encode_collect, h1, h2]
    have h5 := ih { it with unit_pos_ := it.unit_pos_ + 1 } (by simp; omega) hsz
      (by rw [build_next_unit_pos]; exact hb) f (by simp at hfuel ⊢; omega)
    dsimp only at h5
    rw [h5]
    simp [EncodeIterator.deref]

theorem enc_of_whole (B : List Byte) (h : zero_free_run 254 B = B) :
    enc B = size_to_byte ((zero_free_run 254 B).length + 1) :: zero_free_run 254 B := by
  rw [enc]
  simp [h]

theorem enc_of_full (B : List Byte) (h1 : zero_free_run 254 B ≠ B)
    (h2 : (zero_free_run 254 B).length = 254) :
    enc B = (0xFF : Byte) :: zero_free_run 254 B ++ enc (B.drop 254) := by
  rw [enc]
  simp [h1, h2]

theorem enc_of_zero (B : List Byte) (h1 : zero_free_run 254 B ≠ B)
    (h2 : (zero_free_run 254 B).length ≠ 254) :
    enc B = size_to_byte ((zero_free_run 254 B).length + 1) :: zero_free_run 254 B
      ++ enc (B.drop ((zero_free_run 254 B).length + 1)) := by
  rw [enc]
  simp [h1, h2]

theorem zero_free_run_ne_nil_of_ne (B : List Byte) (h1 : zero_free_run 254 B ≠ B) :
    1 ≤ B.length := by
  cases B with
  | nil => simp [zero_free_run_nil] at h1
  | cons b t => simp

/-- The units of one frame: once the first unit of `B` is built, the consumer
reads `enc B` and then whatever follows the frame. -/
theorem encode_collect_frame (fs : List (List Byte)) (f : Bool) (tail_out : List Byte)
    (HE : ∀ s : EncodeIterator, s.state_ = encode_state.end_of_frame → s.frames_ = fs →
      s.append_delim_ = f → s.unit_buffer_.length = 255 →
      ∃ r it, build_next_unit s = some (r, it) ∧
        ∀ fuel, tail_out.length + 1 ≤ fuel → encode_collect fuel it = some tail_out) :
    ∀ (n : Nat) (B : List Byte), B.length ≤ n → ∀ it : EncodeIterator, AfterUnit it B fs f →
      ∀ fuel, (enc B ++ tail_out).length + 1 ≤ fuel →
        encode_collect fuel it = some (enc B ++ tail_out) := by
  intro n
  induction n with
  | zero =>
    intro B hB it hit fuel hfuel
    have hnil : B = [] := List.eq_nil_of_length_eq_zero (by omega)
    subst hnil
    obtain ⟨hfr, hap, hpos, hbl, hsz, htk, hstate, hcf⟩ := hit
    simp only [zero_free_run_nil, if_true] at hstate
    obtain ⟨r, it2, hb, hq⟩ := HE it hstate hfr hap hbl
    have h1 := encode_collect_drain tail_out r it2 hq (zero_free_run 254 []).length it
      (by rw [hpos, hsz]; omega) (by rw [hsz, hbl, zero_free_run_nil]; simp) hb fuel
    rw [hpos, htk, List.drop_zero, ← enc_of_whole [] (zero_free_run_nil 254)] at h1
    exact h1 hfuel
  | succ n ih =>
    intro B hB it hit fuel hfuel
    obtain ⟨hfr, hap, hpos, hbl, hsz, htk, hstate, hcf⟩ := hit
    have hle := zero_free_run_length_le 254 B
    by_cases hw : zero_free_run 254 B = B
    · simp only [hw, if_true] at hstate
      obtain ⟨r, it2, hb, hq⟩ := HE it hstate hfr hap hbl
      have h1 := encode_collect_drain tail_out r it2 hq (zero_free_run 254 B).length it
        (by rw [hpos, hsz]; omega) (by rw [hsz, hbl]; omega) hb fuel
      rw [hpos, htk, List.drop_zero, ← enc_of_whole B hw] at h1
      exact h1 hfuel
    · simp only [hw, if_false] at hstate
      have hB1 := zero_free_run_ne_nil_of_ne B hw
      obtain ⟨it2, hb, hit2⟩ := build_from_chunk it hstate hbl
      rw [hfr, hap] at hit2
      by_cases hfull : (zero_free_run 254 B).length = 254
      · simp only [hfull, if_true] at hcf
        rw [hcf] at hit2
        have hq := ih (B.drop 254) (by rw [List.length_drop]; omega) it2 hit2
        have h1 := encode_collect_drain (enc (B.drop 254) ++ tail_out) true it2 hq
          (zero_free_run 254 B).length it
          (by rw [hpos, hsz]; omega) (by rw [hsz, hbl]; omega) hb fuel
        rw [hpos, htk, List.drop_zero] at h1
        have h2 : enc B ++ tail_out
            = (size_to_byte ((zero_free_run 254 B).length + 1) :: zero_free_run 254 B)
              ++ (enc (B.drop 254) ++ tail_out) := by
          rw [enc_of_full B hw hfull, hfull]
          simp [size_to_byte]
        rw [h2]
        rw [h2] at hfuel
        exact h1 hfuel
      · simp only [hfull, if_false] at hcf
        rw [hcf] at hit2
        have hq := ih (B.drop ((zero_free_run 254 B).length + 1))
          (by rw [List.length_drop]; omega) it2 hit2
        have h1 := encode_collect_drain
          (enc (B.drop ((zero_free_run 254 B).length + 1)) ++ tail_out) true it2 hq
          (zero_free_run 254 B).length it
          (by rw [hpos, hsz]; omega) (by rw [hsz, hbl]; omega) hb fuel
        rw [hpos, htk, List.drop_zero] at h1
        have h2 : enc B ++ tail_out
            = (size_to_byte ((zero_free_run 254 B).length + 1) :: zero_free_run 254 B)
              ++ (enc (B.drop ((zero_free_run 254 B).length + 1)) ++ tail_out) := by
          rw [enc_of_zero B hw hfull]
          simp
        rw [h2]
        rw [h2] at hfuel
        exact h1 hfuel

theorem encode_collect_at_end (it : EncodeIterator) (h : it.at_end = true) :
    ∀ fuel, ([] : List Byte).length + 1 ≤ fuel → encode_collect fuel it = some [] := by
  intro fuel hfuel
  obtain ⟨f, rfl⟩ : ∃ f, fuel = f + 1 := ⟨fuel - 1, by simp at hfuel; omega⟩
  simp [encode_collect, h]

/-- What follows a frame: in state `end_of_frame` the encoder emits one delimiter
when another frame remains or the flag is set, then goes on with the remaining
frames. -/
theorem encode_collect_frames (f : Bool) : ∀ (fs : List (List Byte)) (s : EncodeIterator),
    s.state_ = encode_state.start_of_frame → s.frames_ = fs → s.append_delim_ = f →
    s.unit_buffer_.length = 255 →
    ∃ r it, build_next_unit s = some (r, it) ∧
      ∀ fuel, (encode_frames fs f).length + 1 ≤ fuel →
        encode_collect fuel it = some (encode_frames fs f) := by
  intro fs
  induction fs with
  | nil =>
    intro s hst hfs hap hbl
    refine ⟨false, { s with unit_pos_ := 0, unit_size_ := 0, state_ := encode_state.finished },
      ?_, ?_⟩
    · show build_next_unit_loop (259 + 1) { s with unit_pos_ := 0 } = _
      rw [build_loop_start_of_frame 259 { s with unit_pos_ := 0 } hst]
      have h6 : process_start_of_frame { s with unit_pos_ := 0 }
          = (encode_state.finished, { s with unit_pos_ := 0 }) := by
        simp [process_start_of_frame, can_start_next_frame, hfs]
      rw [h6]
      show build_next_unit_loop (258 + 1) _ = _
      rw [build_loop_finished _ _ rfl]
    · exact encode_collect_at_end _ (by simp [EncodeIterator.at_end])
  | cons F rest ih =>
    intro s hst hfs hap hbl
    obtain ⟨it, hb, hit⟩ := build_from_frame s F rest hst hfs hbl
    rw [hap] at hit
    refine ⟨true, it, hb, ?_⟩
    have HE : ∀ s : EncodeIterator, s.state_ = encode_state.end_of_frame → s.frames_ = rest →
        s.append_delim_ = f → s.unit_buffer_.length = 255 →
        ∃ r it, build_next_unit s = some (r, it) ∧
          ∀ fuel, ((if f || !rest.isEmpty then [frame_delim] else [])
              ++ encode_frames rest f).length + 1 ≤ fuel →
            encode_collect fuel it
              = some ((if f || !rest.isEmpty then [frame_delim] else [])
                  ++ encode_frames rest f) := by
      intro s2 hst2 hfs2 hap2 hbl2
      by_cases hd : (f || !rest.isEmpty) = true
      · refine ⟨true, { s2 with unit_pos_ := 0,
                                unit_buffer_ := s2.unit_buffer_.set 0 frame_delim,
                                unit_size_ := 1,
                                state_ := encode_state.start_of_frame }, ?_, ?_⟩
        · show build_next_unit_loop (259 + 1) { s2 with unit_pos_ := 0 } = _
          rw [build_loop_end_of_frame 259 { s2 with unit_pos_ := 0 } hst2]
          simp [process_end_of_frame, can_start_next_frame, hap2, hfs2, hd]
        · obtain ⟨r3, it3, hb3, hq3⟩ := ih
            { s2 with unit_pos_ := 0,
                      unit_buffer_ := s2.unit_buffer_.set 0 frame_delim,
                      unit_size_ := 1,
                      state_ := encode_state.start_of_frame } rfl hfs2 hap2 (by simp [hbl2])
          have h1 := encode_collect_drain (encode_frames rest f) r3 it3 hq3 0 _
            (by simp) (by simp [hbl2]) hb3
          have hne : s2.unit_buffer_ ≠ [] := by
            intro h
            rw [h] at hbl2
            simp at hbl2
          have h4 : (s2.unit_buffer_.set 0 frame_delim).take 1 = [frame_delim] := by
            rw [take_set_zero _ _ _ (le_refl 1) hne]
            cases s2.unit_buffer_ <;> simp
          dsimp only at h1
          rw [h4, List.drop_zero] at h1
          simpa [hd] using h1
      · refine ⟨true, { s2 with unit_pos_ := 0,
                                unit_size_ := 0,
                                state_ := encode_state.finished }, ?_, ?_⟩
        · show build_next_unit_loop (259 + 1) { s2 with unit_pos_ := 0 } = _
          rw [build_loop_end_of_frame 259 { s2 with unit_pos_ := 0 } hst2]
          simp [process_end_of_frame, can_start_next_frame, hap2, hfs2, hd]
        · have hf : f = false := by
            cases f
            · rfl
            · simp at hd
          have hr : rest = [] := by
            cases rest
            · rfl
            · simp at hd
          subst hf
          subst hr
          simpa [encode_frames] using
            encode_collect_at_end
              { s2 with unit_pos_ := 0, unit_size_ := 0, state_ := encode_state.finished }
              (by simp [EncodeIterator.at_end])
    have h5 := encode_collect_frame rest f _ HE F.length F (le_refl _) it hit
    simpa [encode_frames] using h5

theorem enc_length_le : ∀ (n : Nat) (B : List Byte), B.length ≤ n →
    (enc B).length ≤ 2 * B.length + 1 := by
  intro n
  induction n with
  | zero =>
    intro B hB
    have hnil : B = [] := List.eq_nil_of_length_eq_zero (by omega)
    subst hnil
    rw [enc_of_whole [] (zero_free_run_nil 254)]
    simp [zero_free_run_nil]
  | succ n ih =>
    intro B hB
    have hle := zero_free_run_length_le_length 254 B
    by_cases hw : zero_free_run 254 B = B
    · rw [enc_of_whole B hw, hw]
      simp
      omega
    · have hB1 := zero_free_run_ne_nil_of_ne B hw
      by_cases hfull : (zero_free_run 254 B).length = 254
      · have h1 := ih (B.drop 254) (by rw [List.length_drop]; omega)
        rw [List.length_drop] at h1
        rw [enc_of_full B hw hfull]
        simp only [List.length_cons, List.length_append, List.cons_append, hfull]
        omega
      · have h2 : (zero_free_run 254 B).length < B.length := by
          rcases Nat.lt_or_ge (zero_free_run 254 B).length B.length with h | h
          · exact h
          · exfalso
            apply hw
            have h3 := zero_free_run_append_drop 254 B
            rw [List.drop_eq_nil_of_le h, List.append_nil] at h3
            exact h3
        have h1 := ih (B.drop ((zero_free_run 254 B).length + 1))
          (by rw [List.length_drop]; omega)
        rw [List.length_drop] at h1
        rw [enc_of_zero B hw hfull]
        simp only [List.length_cons, List.length_append, List.cons_append]
        omega

theorem encode_frames_length_lt (f : Bool) : ∀ fs : List (List Byte),
    (encode_frames fs f).length + 1 ≤ encode_fuel fs := by
  intro fs
  induction fs with
  | nil => simp [encode_frames, encode_fuel]
  | cons F rest ih =>
    have h1 := enc_length_le F.length F (le_refl _)
    have h2 : (if (f || !rest.isEmpty) = true then [frame_delim] else []).length ≤ 1 := by
      split <;> simp
    simp only [encode_frames, encode_fuel, List.length_append, List.map_cons,
      List.sum_cons] at ih ⊢
    omega

/-- The encoder computes the reference encoding: the driver loops never run out
of fuel and the emitted bytes are those of `encode_frames`. -/
theorem encode_eq_encode_frames (frames : List (List Byte)) (f : Bool) :
    encode frames f = some (encode_frames frames f) := by
  obtain ⟨r, it, hb, hq⟩ := encode_collect_frames f frames
    { frames_ := frames, append_delim_ := f, current_frame_ := [],
      unit_buffer_ := List.replicate 255 0, unit_size_ := 0, unit_pos_ := 0,
      state_ := encode_state.start_of_frame } rfl rfl rfl (List.length_replicate _ _)
  unfold encode EncodeIterator.begin
  rw [hb]
  exact hq _ (encode_frames_length_lt f frames)

/-! ## Lemmas on the decoder -/

/-- The copy loop of `process_read_data_bytes` on a zero-free run that fits the
frame buffer: it copies the run and leaves the loop by its condition. -/
theorem read_data_loop_copy (M : Nat) (tl : List Byte) :
    ∀ (P : List Byte) (s : DecodeIterator) (fuel : Nat), (∀ b ∈ P, b ≠ 0) →
      s.input_ = P ++ tl → s.bytes_read_ + P.length = s.code_ - 1 →
      s.frame_size_ + P.length ≤ M → s.frame_buffer_.length = M → P.length + 1 ≤ fuel →
      ∃ s2, read_data_loop M fuel s = some (none, s2) ∧
        s2.input_ = tl ∧ s2.frame_size_ = s.frame_size_ + P.length ∧
        s2.frame_buffer_.length = M ∧
        s2.frame_buffer_.take s2.frame_size_ = s.frame_buffer_.take s.frame_size_ ++ P ∧
        s2.current_error_ = s.current_error_ ∧ s2.finished_ = s.finished_ ∧
        s2.code_ = s.code_ ∧ s2.bytes_read_ = s.bytes_read_ + P.length := by
  intro P
  induction P with
  | nil =>
    intro s fuel _ hin hbr hfs hbl hfuel
    obtain ⟨f, rfl⟩ : ∃ f, fuel = f + 1 := ⟨fuel - 1, by simp at hfuel; omega⟩
    refine ⟨s, ?_, by simpa using hin, by simp, hbl, by simp, rfl, rfl, rfl, by simp⟩
    have h1 : ¬ (s.bytes_read_ < s.code_ - 1) := by
      simp at hbr
      omega
    cases htl : s.input_ with
    | nil => simp [read_data_loop, htl]
    | cons v r => simp [read_data_loop, htl, h1]
  | cons b P ih =>
    intro s fuel hz hin hbr hfs hbl hfuel
    obtain ⟨f, rfl⟩ : ∃ f, fuel = f + 1 := ⟨fuel - 1, by simp at hfuel; omega⟩
    have hb0 : b ≠ 0 := hz b (List.mem_cons_self _ _)
    have hin2 : s.input_ = b :: (P ++ tl) := by simpa using hin
    have h1 : s.bytes_read_ < s.code_ - 1 := by
      simp at hbr
      omega
    have h2 : ¬ (M ≤ s.frame_size_) := by
      simp at hfs
      omega
    have hlt : s.frame_size_ < s.frame_buffer_.length := by omega
    obtain ⟨s2, hrun, h3, h4, h5, h6, h7, h8, h9, h10⟩ :=
      ih { s with frame_buffer_ := s.frame_buffer_.set s.frame_size_ b,
                  frame_size_ := s.frame_size_ + 1,
                  input_ := P ++ tl,
                  bytes_read_ := s.bytes_read_ + 1 } f
        (fun x hx => hz x (List.mem_cons_of_mem _ hx)) rfl
        (by simp at hbr ⊢; omega) (by simp at hfs ⊢; omega) (by simp [hbl])
        (by simp at hfuel ⊢; omega)
    dsimp only at h4 h6 h7 h8 h9 h10
    refine ⟨s2, ?_, h3, ?_, h5, ?_, h7, h8, h9, ?_⟩
    · rw [← hrun]
      simp [read_data_loop, hin2, h1, h2, to_byte, frame_delim, hb0]
    · rw [h4, List.length_cons]
      omega
    · rw [h6, take_set_succ _ _ _ hlt]
      simp
    · rw [h10, List.length_cons]
      omega

/-- The state `read_data_bytes` on a well-formed unit: the `code_ - 1` data bytes
are appended to the frame and the next state is `handle_zero`. -/
theorem process_read_data_bytes_copy (M : Nat) (P tl : List Byte) (s : DecodeIterator)
    (hz : ∀ b ∈ P, b ≠ 0) (hin : s.input_ = P ++ tl) (hbr : s.bytes_read_ = 0)
    (hcode : s.code_ = P.length + 1) (hfs : s.frame_size_ + P.length ≤ M)
    (hbl : s.frame_buffer_.length = M) :
    ∃ s2, process_read_data_bytes M s = some (decode_state.handle_zero, s2) ∧
      s2.input_ = tl ∧ s2.frame_size_ = s.frame_size_ + P.length ∧
      s2.frame_buffer_.length = M ∧
      s2.frame_buffer_.take s2.frame_size_ = s.frame_buffer_.take s.frame_size_ ++ P ∧
      s2.current_error_ = s.current_error_ ∧ s2.finished_ = s.finished_ ∧
      s2.code_ = s.code_ := by
  by_cases h1 : s.code_ = 1
  · have hP : P = [] := List.eq_nil_of_length_eq_zero (by omega)
    subst hP
    exact ⟨s, by simp [process_read_data_bytes, h1], by simpa using hin, by simp, hbl,
      by simp, rfl, rfl, rfl⟩
  · obtain ⟨s2, hrun, h3, h4, h5, h6, h7, h8, h9, h10⟩ :=
      read_data_loop_copy M tl P s (s.input_.length + 1) hz hin (by omega) hfs hbl
        (by rw [hin, List.length_append]; omega)
    refine ⟨s2, ?_, h3, h4, h5, h6, h7, h8, h9⟩
    have h11 : s2.bytes_read_ = s2.code_ - 1 := by omega
    simp [process_read_data_bytes, h1, hrun, h11]

theorem decode_loop_wait_for_code (M fuel : Nat) (s : DecodeIterator)
    (h : s.state_ = decode_state.wait_for_code) :
    decode_next_frame_loop M (fuel + 1) s
      = decode_next_frame_loop M fuel
          { (process_wait_for_code s).2 with state_ := (process_wait_for_code s).1 } := by
  simp [decode_next_frame_loop, h]

theorem decode_loop_read_data_bytes (M fuel : Nat) (s : DecodeIterator)
    (r : decode_state × DecodeIterator)
    (h : s.state_ = decode_state.read_data_bytes)
    (hr : process_read_data_bytes M s = some r) :
    decode_next_frame_loop M (fuel + 1) s
      = decode_next_frame_loop M fuel { r.2 with state_ := r.1 } := by
  simp [decode_next_frame_loop, h, hr]

theorem decode_loop_handle_zero (M fuel : Nat) (s : DecodeIterator)
    (h : s.state_ = decode_state.handle_zero) :
    decode_next_frame_loop M (fuel + 1) s
      = decode_next_frame_loop M fuel
          { (process_handle_zero M s).2 with state_ := (process_handle_zero M s).1 } := by
  simp [decode_next_frame_loop, h]

theorem decode_loop_frame_complete (M fuel : Nat) (s : DecodeIterator)
    (h : s.state_ = decode_state.frame_complete) :
    decode_next_frame_loop M (fuel + 1) s
      = some (true, { (process_frame_complete s).2 with
                        state_ := (process_frame_complete s).1 }) := by
  simp [decode_next_frame_loop, h]

theorem size_to_byte_val (n : Nat) (h : n < 256) : (size_to_byte n).val = n := by
  simp [size_to_byte, Nat.mod_eq_of_lt h]

theorem size_to_byte_succ_ne_zero (n : Nat) (h : n ≤ 254) : size_to_byte (n + 1) ≠ 0 := by
  intro h0
  have h1 := congrArg Fin.val h0
  rw [size_to_byte_val _ (by omega)] at h1
  simp at h1

/-- One well-formed unit read by the decoder: the code byte, then the run; the
loop arrives in `handle_zero` with the run appended to the frame. -/
theorem decode_loop_unit (M : Nat) (P X : List Byte) (s : DecodeIterator)
    (hst : s.state_ = decode_state.wait_for_code)
    (hz : ∀ b ∈ P, b ≠ 0) (hP : P.length ≤ 254)
    (hin : s.input_ = size_to_byte (P.length + 1) :: P ++ X)
    (hfs : s.frame_size_ + P.length ≤ M) (hbl : s.frame_buffer_.length = M) :
    ∃ s2, (∀ fuel, decode_next_frame_loop M (fuel + 2) s = decode_next_frame_loop M fuel s2) ∧
      s2.state_ = decode_state.handle_zero ∧
      s2.input_ = X ∧ s2.frame_size_ = s.frame_size_ + P.length ∧
      s2.frame_buffer_.length = M ∧
      s2.frame_buffer_.take s2.frame_size_ = s.frame_buffer_.take s.frame_size_ ++ P ∧
      s2.current_error_ = s.current_error_ ∧ s2.finished_ = s.finished_ ∧
      s2.code_ = P.length + 1 := by
  have hc0 := size_to_byte_succ_ne_zero P.length hP
  have hcv := size_to_byte_val (P.length + 1) (by omega)
  have hw : process_wait_for_code s
      = (decode_state.read_data_bytes,
          { s with input_ := P ++ X, code_ := P.length + 1, bytes_read_ := 0 }) := by
    have hin2 : s.input_ = size_to_byte (P.length + 1) :: (P ++ X) := by simpa using hin
    simp [process_wait_for_code, hin2, to_byte, frame_delim, hc0, hcv]
  obtain ⟨s2, hrun, h3, h4, h5, h6, h7, h8, h9⟩ :=
    process_read_data_bytes_copy M P X
      { s with input_ := P ++ X, code_ := P.length + 1, bytes_read_ := 0,
               state_ := decode_state.read_data_bytes }
      hz rfl rfl rfl hfs hbl
  refine ⟨{ s2 with state_ := decode_state.handle_zero }, ?_, rfl, h3, h4, h5, h6, h7, h8, h9⟩
  intro fuel
  rw [decode_loop_wait_for_code M (fuel + 1) s hst, hw]
  rw [decode_loop_read_data_bytes M fuel _ _ rfl hrun]

theorem enc_head (B : List Byte) : ∃ c t, enc B = c :: t ∧ c ≠ 0 := by
  have hle := zero_free_run_length_le 254 B
  by_cases hw : zero_free_run 254 B = B
  · exact ⟨_, _, enc_of_whole B hw, size_to_byte_succ_ne_zero _ hle⟩
  · by_cases hfull : (zero_free_run 254 B).length = 254
    · exact ⟨_, _, by rw [enc_of_full B hw hfull]; rfl, by decide⟩
    · exact ⟨_, _, by rw [enc_of_zero B hw hfull]; rfl, size_to_byte_succ_ne_zero _ hle⟩

/-- Decoding one encoded frame: from `wait_for_code` on `enc B` followed by a
delimiter, with room for `B` in the frame buffer, `decode_next_frame` returns
`true` with `B` appended to the frame and the delimiter consumed. -/
theorem decode_loop_frame (M : Nat) (rest : List Byte) :
    ∀ (n : Nat) (B : List Byte), B.length ≤ n → ∀ (s : DecodeIterator) (fuel : Nat),
      s.state_ = decode_state.wait_for_code →
      s.input_ = enc B ++ frame_delim :: rest →
      s.frame_size_ + B.length ≤ M → s.frame_buffer_.length = M →
      3 * (enc B).length + 2 ≤ fuel →
      ∃ s2, decode_next_frame_loop M fuel s = some (true, s2) ∧
        s2.input_ = rest ∧ s2.frame_size_ = s.frame_size_ + B.length ∧
        s2.frame_buffer_.length = M ∧
        s2.frame_buffer_.take s2.frame_size_ = s.frame_buffer_.take s.frame_size_ ++ B ∧
        s2.current_error_ = s.current_error_ ∧ s2.finished_ = s.finished_ := by
  intro n
  induction n using Nat.strong_induction_on with
  | _ n ih =>
    intro B hB s fuel hst hin hfs hbl hfuel
    have hle := zero_free_run_length_le 254 B
    have hnz := zero_free_run_ne_zero 254 B
    by_cases hw : zero_free_run 254 B = B
    · -- the frame is a single unit
      rw [enc_of_whole B hw] at hin hfuel
      rw [hw] at hin hfuel
      have hB254 : B.length ≤ 254 := by rw [← hw]; exact hle
      have hnzB : ∀ b ∈ B, b ≠ 0 := by rw [← hw]; exact hnz
      obtain ⟨s2, hrun, h2, h3, h4, h5, h6, h7, h8, h9⟩ :=
        decode_loop_unit M B (frame_delim :: rest) s hst hnzB hB254 hin hfs hbl
      obtain ⟨f, rfl⟩ : ∃ f, fuel = f + 3 + 2 := ⟨fuel - 5, by simp at hfuel; omega⟩
      rw [hrun]
      rw [decode_loop_handle_zero M (f + 2) s2 h2]
      by_cases hc : 255 ≤ s2.code_
      · have hz : process_handle_zero M s2 = (decode_state.wait_for_code, s2) := by
          simp [process_handle_zero, hc]
        rw [hz, decode_loop_wait_for_code M (f + 1) _ rfl]
        have hw2 : process_wait_for_code { s2 with state_ := decode_state.wait_for_code }
            = (decode_state.frame_complete,
                { s2 with state_ := decode_state.wait_for_code, input_ := rest }) := by
          simp [process_wait_for_code, h3, to_byte]
        rw [hw2, decode_loop_frame_complete M f _ rfl]
        exact ⟨_, rfl, rfl, h4, h5, h6, h7, h8⟩
      · have hz : process_handle_zero M s2
            = (decode_state.frame_complete, { s2 with input_ := rest }) := by
          simp [process_handle_zero, hc, h3, to_byte]
        rw [hz, decode_loop_frame_complete M (f + 1) _ rfl]
        exact ⟨_, rfl, rfl, h4, h5, h6, h7, h8⟩
    · have hB1 := zero_free_run_ne_nil_of_ne B hw
      have hsplit := zero_free_run_append_drop 254 B
      by_cases hfull : (zero_free_run 254 B).length = 254
      · -- a full run, the frame goes on without a zero
        have hin2 : s.input_ = size_to_byte ((zero_free_run 254 B).length + 1)
            :: zero_free_run 254 B ++ (enc (B.drop 254) ++ frame_delim :: rest) := by
          rw [hin, enc_of_full B hw hfull, hfull]
          simp [size_to_byte]
        have hlenB : 254 ≤ B.length := by
          have := zero_free_run_length_le_length 254 B
          omega
        obtain ⟨s2, hrun, h2, h3, h4, h5, h6, h7, h8, h9⟩ :=
          decode_loop_unit M (zero_free_run 254 B) _ s hst hnz hle hin2 (by omega) hbl
        rw [enc_of_full B hw hfull] at hfuel
        obtain ⟨f, rfl⟩ : ∃ f, fuel = f + 1 + 2 := ⟨fuel - 3, by simp at hfuel; omega⟩
        rw [hrun, decode_loop_handle_zero M f s2 h2]
        have hz : process_handle_zero M s2 = (decode_state.wait_for_code, s2) := by
          simp [process_handle_zero, h9, hfull]
        rw [hz]
        obtain ⟨s3, hrun3, k3, k4, k5, k6, k7, k8⟩ :=
          ih (B.length - 254) (by omega) (B.drop 254) (by rw [List.length_drop])
            { s2 with state_ := decode_state.wait_for_code } f rfl h3
            (by simp only [List.length_drop]; omega) h5
            (by simp at hfuel ⊢; omega)
        refine ⟨s3, hrun3, k3, ?_, k5, ?_, k7.trans h7, k8.trans h8⟩
        · rw [k4]
          simp only [List.length_drop]
          omega
        · rw [k6]
          dsimp only
          rw [h6, List.append_assoc]
          rw [hfull] at hsplit
          rw [hsplit]
      · -- the run ends at a zero byte of the frame
        have hlt : (zero_free_run 254 B).length < 254 := by omega
        have hnext := zero_free_run_next_zero 254 B hw hlt
        rw [hnext] at hsplit
        have hlenB : (zero_free_run 254 B).length + 1 ≤ B.length := by
          have h := congrArg List.length hsplit
          simp at h
          omega
        have hin2 : s.input_ = size_to_byte ((zero_free_run 254 B).length + 1)
            :: zero_free_run 254 B
              ++ (enc (B.drop ((zero_free_run 254 B).length + 1)) ++ frame_delim :: rest) := by
          rw [hin, enc_of_zero B hw hfull]
          simp
        obtain ⟨s2, hrun, h2, h3, h4, h5, h6, h7, h8, h9⟩ :=
          decode_loop_unit M (zero_free_run 254 B) _ s hst hnz hle hin2 (by omega) hbl
        rw [enc_of_zero B hw hfull] at hfuel
        obtain ⟨f, rfl⟩ : ∃ f, fuel = f + 1 + 2 := ⟨fuel - 3, by simp at hfuel; omega⟩
        rw [hrun, decode_loop_handle_zero M f s2 h2]
        obtain ⟨c, t, hct, hc0⟩ := enc_head (B.drop ((zero_free_run 254 B).length + 1))
        have hlt2 : s2.frame_size_ < s2.frame_buffer_.length := by omega
        have hz : process_handle_zero M s2
            = (decode_state.wait_for_code,
                { s2 with frame_buffer_ := s2.frame_buffer_.set s2.frame_size_ 0,
                          frame_size_ := s2.frame_size_ + 1 }) := by
          have h10 : ¬ (255 ≤ s2.code_) := by omega
          have h11 : ¬ (M ≤ s2.frame_size_) := by omega
          simp [process_handle_zero, h10, h3, hct, to_byte, frame_delim, hc0, h11]
        rw [hz]
        obtain ⟨s3, hrun3, k3, k4, k5, k6, k7, k8⟩ :=
          ih (B.length - ((zero_free_run 254 B).length + 1)) (by omega)
            (B.drop ((zero_free_run 254 B).length + 1)) (by rw [List.length_drop])
            { s2 with frame_buffer_ := s2.frame_buffer_.set s2.frame_size_ 0,
                      frame_size_ := s2.frame_size_ + 1,
                      state_ := decode_state.wait_for_code } f rfl h3
            (by simp only [List.length_drop]; omega) (by simp [h5])
            (by simp at hfuel ⊢; omega)
        refine ⟨s3, hrun3, k3, ?_, k5, ?_, k7.trans h7, k8.trans h8⟩
        · rw [k4]
          simp only [List.length_drop]
          omega
        · rw [k6]
          dsimp only
          rw [take_set_succ _ _ _ hlt2, h6]
          simp only [List.append_assoc, List.singleton_append]
          rw [hsplit]

/-- One step of the decoder iterator on an encoded frame that fits the buffer:
the iterator holds the frame, without error and not finished. -/
theorem decode_advance_frame (M : Nat) (B rest : List Byte) (s : DecodeIterator)
    (hin : s.input_ = enc B ++ frame_delim :: rest) (hB : B.length ≤ M)
    (hbl : s.frame_buffer_.length = M) :
    ∃ it, decode_advance M s = some it ∧ it.input_ = rest ∧
      it.frame_buffer_.length = M ∧ it.deref = value_type.frame B ∧
      it.current_error_ = none ∧ it.finished_ = false := by
  obtain ⟨s2, hrun, h3, h4, h5, h6, h7, h8⟩ :=
    decode_loop_frame M rest B.length B (le_refl _)
      { s with frame_size_ := 0, frame_ready_ := false, current_error_ := none,
               state_ := decode_state.wait_for_code }
      (3 * s.input_.length + 4) rfl hin (by simp; exact hB) hbl
      (by rw [hin, List.length_append]; omega)
  dsimp only at h4 h6 h7 h8
  refine ⟨{ s2 with finished_ := false }, ?_, h3, h5, ?_, h7, rfl⟩
  · simp [decode_advance, decode_next_frame, hrun]
  · simp only [DecodeIterator.deref, h7]
    rw [h6]
    simp

/-- One step of the decoder iterator at the end of the input: it is finished. -/
theorem decode_advance_end (M : Nat) (s : DecodeIterator) (hin : s.input_ = []) :
    ∃ it, decode_advance M s = some it ∧ it.at_end = true := by
  refine ⟨{ s with frame_size_ := 0, frame_ready_ := false, current_error_ := none,
                   state_ := decode_state.finished, finished_ := true }, ?_, rfl⟩
  simp [decode_advance, decode_next_frame, hin, decode_next_frame_loop,
    process_wait_for_code]

/-- The consumer loop of the decoder on a stream of encoded frames, each of
which fits the buffer: one successful outcome per frame, in order. -/
theorem decode_collect_frames (M : Nat) : ∀ (fs : List (List Byte)) (s : DecodeIterator),
    (∀ F ∈ fs, F.length ≤ M) → s.input_ = encode_frames fs true →
    s.frame_buffer_.length = M →
    ∃ it, decode_advance M s = some it ∧
      ∀ fuel, fs.length + 1 ≤ fuel →
        decode_collect M fuel it = some (fs.map value_type.frame) := by
  intro fs
  induction fs with
  | nil =>
    intro s _ hin hbl
    obtain ⟨it, hadv, hend⟩ := decode_advance_end M s (by simpa [encode_frames] using hin)
    refine ⟨it, hadv, ?_⟩
    intro fuel hfuel
    obtain ⟨f, rfl⟩ : ∃ f, fuel = f + 1 := ⟨fuel - 1, by simp at hfuel; omega⟩
    simp [decode_collect, hend]
  | cons F rest ih =>
    intro s hall hin hbl
    have hin2 : s.input_ = enc F ++ frame_delim :: encode_frames rest true := by
      rw [hin]
      simp [encode_frames]
    obtain ⟨it, hadv, h3, h4, h5, h6, h7⟩ :=
      decode_advance_frame M F (encode_frames rest true) s hin2
        (hall F (List.mem_cons_self _ _)) hbl
    obtain ⟨it2, hadv2, hq⟩ := ih it (fun G hG => hall G (List.mem_cons_of_mem _ hG)) h3 h4
    refine ⟨it, hadv, ?_⟩
    intro fuel hfuel
    obtain ⟨f, rfl⟩ : ∃ f, fuel = f + 1 := ⟨fuel - 1, by simp at hfuel; omega⟩
    have hne : it.at_end = false := by simp [DecodeIterator.at_end, h7]
    have hnext : it.next M = some it2 := by
      simp [DecodeIterator.next, h6, h7, hadv2]
    simp only [decode_collect, hne, hnext]
    rw [hq f (by simp at hfuel; omega), h5]
    simp

theorem encode_frames_length_ge (f : Bool) : ∀ fs : List (List Byte),
    fs.length ≤ (encode_frames fs f).length := by
  intro fs
  induction fs with
  | nil => simp
  | cons F rest ih =>
    obtain ⟨c, t, hct, _⟩ := enc_head F
    simp only [encode_frames, List.length_append, List.length_cons, hct]
    omega

/-- Decoding the reference encoding of frames that fit the buffer gives the
frames back. -/
theorem decode_encode_frames (M : Nat) (fs : List (List Byte))
    (hall : ∀ F ∈ fs, F.length ≤ M) :
    decode M (encode_frames fs true) = some (fs.map value_type.frame) := by
  obtain ⟨it, hadv, hq⟩ := decode_collect_frames M fs
    { input_ := encode_frames fs true, frame_buffer_ := List.replicate M 0, frame_size_ := 0,
      current_error_ := none, frame_ready_ := false, finished_ := false,
      state_ := decode_state.wait_for_code, code_ := 0, bytes_read_ := 0 }
    hall rfl (List.length_replicate _ _)
  unfold decode DecodeIterator.begin
  rw [hadv]
  exact hq _ (by have := encode_frames_length_ge true fs; omega)

/-! ## Further facts on the reference segmentation -/

theorem enc_ne_zero : ∀ (n : Nat) (B : List Byte), B.length ≤ n → ∀ b ∈ enc B, b ≠ 0 := by
  intro n
  induction n using Nat.strong_induction_on with
  | _ n ih =>
    intro B hB b hb
    have hle := zero_free_run_length_le 254 B
    have hnz := zero_free_run_ne_zero 254 B
    have hc := size_to_byte_succ_ne_zero _ hle
    by_cases hw : zero_free_run 254 B = B
    · rw [enc_of_whole B hw] at hb
      rcases List.mem_cons.mp hb with h | h
      · rw [h]; exact hc
      · exact hnz b h
    · have hB1 := zero_free_run_ne_nil_of_ne B hw
      by_cases hfull : (zero_free_run 254 B).length = 254
      · rw [enc_of_full B hw hfull] at hb
        simp only [List.cons_append, List.mem_cons, List.mem_append] at hb
        rcases hb with h | h | h
        · rw [h]; decide
        · exact hnz b h
        · exact ih (B.length - 254) (by omega) (B.drop 254) (by rw [List.length_drop]) b h
      · rw [enc_of_zero B hw hfull] at hb
        simp only [List.cons_append, List.mem_cons, List.mem_append] at hb
        rcases hb with h | h | h
        · rw [h]; exact hc
        · exact hnz b h
        · exact ih (B.length - ((zero_free_run 254 B).length + 1)) (by omega)
            (B.drop ((zero_free_run 254 B).length + 1)) (by rw [List.length_drop]) b h

theorem enc_units : ∀ (n : Nat) (B : List Byte), B.length ≤ n →
    ∃ units : List (List Byte), units ≠ [] ∧ enc B = units.flatten ∧
      ∀ u ∈ units, ∃ (c : Byte) (d : List Byte), u = c :: d ∧ 1 ≤ c.val ∧ c.val ≤ 255 ∧
        d.length = c.val - 1 ∧ (∀ b ∈ d, b ≠ 0) ∧ d.length ≤ 254 := by
  intro n
  induction n using Nat.strong_induction_on with
  | _ n ih =>
    intro B hB
    have hle := zero_free_run_length_le 254 B
    have hnz := zero_free_run_ne_zero 254 B
    have hcv := size_to_byte_val ((zero_free_run 254 B).length + 1) (by omega)
    have hunit : ∃ (c : Byte) (d : List Byte),
        size_to_byte ((zero_free_run 254 B).length + 1) :: zero_free_run 254 B = c :: d ∧
        1 ≤ c.val ∧ c.val ≤ 255 ∧ d.length = c.val - 1 ∧ (∀ b ∈ d, b ≠ 0) ∧ d.length ≤ 254 :=
      ⟨_, _, rfl, by omega, by omega, by omega, hnz, hle⟩
    by_cases hw : zero_free_run 254 B = B
    · refine ⟨[size_to_byte ((zero_free_run 254 B).length + 1) :: zero_free_run 254 B],
        by simp, ?_, ?_⟩
      · rw [enc_of_whole B hw]
        simp
      · intro u hu
        rw [List.mem_singleton] at hu
        rw [hu]
        exact hunit
    · have hB1 := zero_free_run_ne_nil_of_ne B hw
      by_cases hfull : (zero_free_run 254 B).length = 254
      · obtain ⟨units, _, h2, h3⟩ :=
          ih (B.length - 254) (by omega) (B.drop 254) (by rw [List.length_drop])
        refine ⟨(size_to_byte ((zero_free_run 254 B).length + 1) :: zero_free_run 254 B)
          :: units, by simp, ?_, ?_⟩
        · rw [enc_of_full B hw hfull, h2, hfull]
          simp [size_to_byte]
        · intro u hu
          rcases List.mem_cons.mp hu with h | h
          · rw [h]
            exact hunit
          · exact h3 u h
      · obtain ⟨units, _, h2, h3⟩ :=
          ih (B.length - ((zero_free_run 254 B).length + 1)) (by omega)
            (B.drop ((zero_free_run 254 B).length + 1)) (by rw [List.length_drop])
        refine ⟨(size_to_byte ((zero_free_run 254 B).length + 1) :: zero_free_run 254 B)
          :: units, by simp, ?_, ?_⟩
        · rw [enc_of_zero B hw hfull, h2]
          simp
        · intro u hu
          rcases List.mem_cons.mp hu with h | h
          · rw [h]
            exact hunit
          · exact h3 u h

theorem encode_frames_single (B : List Byte) (f : Bool) :
    encode_frames [B] f = enc B ++ (if f then [frame_delim] else []) := by
  simp [encode_frames]

theorem enc_count_zero (B : List Byte) : (enc B).count 0 = 0 :=
  List.count_eq_zero.mpr (fun h => enc_ne_zero B.length B (le_refl _) 0 h rfl)

theorem enc_getLast (B : List Byte) : ∃ b, (enc B).getLast? = some b ∧ b ≠ 0 := by
  obtain ⟨c, t, hct, _⟩ := enc_head B
  have hne : enc B ≠ [] := by rw [hct]; simp
  refine ⟨(enc B).getLast hne, List.getLast?_eq_getLast _ hne, ?_⟩
  exact enc_ne_zero B.length B (le_refl _) _ (List.getLast_mem hne)

theorem zero_free_run_of_zero_free (k : Nat) (D : List Byte) (hz : ∀ b ∈ D, b ≠ 0)
    (hk : D.length ≤ k) : zero_free_run k D = D := by
  unfold zero_free_run
  have h1 : D.takeWhile (fun b => decide (b ≠ 0)) = D := by
    rw [List.takeWhile_eq_self_iff]
    intro x hx
    simpa using hz x hx
  rw [h1]
  exact List.take_of_length_le hk

theorem zero_free_run_append_of_zero_free (D tl : List Byte) (hz : ∀ b ∈ D, b ≠ 0) :
    zero_free_run D.length (D ++ tl) = D := by
  induction D with
  | nil => simp [zero_free_run_zero]
  | cons b t ih =>
    have hb : b ≠ 0 := hz b (List.mem_cons_self _ _)
    rw [List.cons_append, List.length_cons, zero_free_run_cons_succ _ b _ hb,
      ih (fun x hx => hz x (List.mem_cons_of_mem _ hx))]

theorem encode_frames_append_single (f : Bool) (last : List Byte) :
    ∀ init : List (List Byte),
      encode_frames (init ++ [last]) f
        = (init.map (fun F => enc F ++ [frame_delim])).flatten ++ encode_frames [last] f := by
  intro init
  induction init with
  | nil => simp
  | cons F rest ih =>
    have h1 : (rest ++ [last]).isEmpty = false := by
      cases rest <;> rfl
    rw [List.cons_append, encode_frames, ih, h1]
    simp

theorem encode_frames_count_true : ∀ fs : List (List Byte),
    (encode_frames fs true).count 0 = fs.length := by
  intro fs
  induction fs with
  | nil => simp [encode_frames]
  | cons F rest ih =>
    simp only [encode_frames, List.count_append, enc_count_zero, ih, Bool.true_or, if_true,
      List.length_cons, frame_delim]
    simp
    omega

theorem encode_frames_count_false : ∀ fs : List (List Byte),
    (encode_frames fs false).count 0 = fs.length - 1 := by
  intro fs
  induction fs with
  | nil => simp [encode_frames]
  | cons F rest ih =>
    cases rest with
    | nil => simp [encode_frames, enc_count_zero]
    | cons G rest2 =>
      simp only [encode_frames, List.count_append, enc_count_zero, List.length_cons,
        frame_delim] at ih ⊢
      simp at ih ⊢
      omega

theorem encode_frames_getLast_true : ∀ fs : List (List Byte), fs ≠ [] →
    (encode_frames fs true).getLast? = some 0 := by
  intro fs
  induction fs with
  | nil => intro h; exact absurd rfl h
  | cons F rest ih =>
    intro _
    cases rest with
    | nil => simp [encode_frames, frame_delim]
    | cons G rest2 =>
      have h1 := ih (by simp)
      rw [encode_frames, List.getLast?_append, h1]
      rfl

theorem encode_frames_getLast_false : ∀ fs : List (List Byte), fs ≠ [] →
    ∃ b, (encode_frames fs false).getLast? = some b ∧ b ≠ 0 := by
  intro fs
  induction fs with
  | nil => intro h; exact absurd rfl h
  | cons F rest ih =>
    intro _
    cases rest with
    | nil =>
      obtain ⟨b, hb, hb0⟩ := enc_getLast F
      exact ⟨b, by simpa [encode_frames] using hb, hb0⟩
    | cons G rest2 =>
      obtain ⟨b, hb, hb0⟩ := ih (by simp)
      refine ⟨b, ?_, hb0⟩
      rw [encode_frames, List.getLast?_append, hb]
      rfl

/-! ## The claims -/

/-- C1. Single-frame round trip: for every `MaxFrameSize` `M` and every byte
sequence `B` of length at most `M`, the encoder applied to the single frame `B`
with the trailing delimiter produces a stream, and the decoder with limit `M`
applied to that stream yields exactly one outcome, the successful frame `B`. -/
theorem C1_single_frame_round_trip (M : Nat) (B : List Byte) (hB : B.length ≤ M) :
    ∃ out, encode [B] true = some out ∧ decode M out = some [value_type.frame B] := by
  refine ⟨encode_frames [B] true, encode_eq_encode_frames [B] true, ?_⟩
  have h := decode_encode_frames M [B] (by simpa using hB)
  simpa using h

theorem C1_single_frame_round_trip_witness :
    ([0x11, 0x22, 0x00, 0xFF] : List Byte).length ≤ 4 ∧
    ∃ out, encode [[0x11, 0x22, 0x00, 0xFF]] true = some out ∧
      decode 4 out = some [value_type.frame [0x11, 0x22, 0x00, 0xFF]] :=
  ⟨by decide, C1_single_frame_round_trip 4 [0x11, 0x22, 0x00, 0xFF] (by decide)⟩

/-- C2. Multi-frame round trip: for every `MaxFrameSize` `M` and every list of
frames (possibly empty, empty frames allowed) each of length at most `M`, the
encoder with the trailing delimiter produces a stream on which the decoder
yields exactly one successful outcome per frame, equal to it, in the original
order. -/
theorem C2_multi_frame_round_trip (M : Nat) (Fs : List (List Byte))
    (hFs : ∀ F ∈ Fs, F.length ≤ M) :
    ∃ out, encode Fs true = some out ∧ decode M out = some (Fs.map value_type.frame) :=
  ⟨encode_frames Fs true, encode_eq_encode_frames Fs true, decode_encode_frames M Fs hFs⟩

theorem C2_multi_frame_round_trip_witness :
    (∀ F ∈ ([[0x01], [], [0x00, 0x02]] : List (List Byte)), F.length ≤ 2) ∧
    ∃ out, encode [[0x01], [], [0x00, 0x02]] true = some out ∧
      decode 2 out
        = some (([[0x01], [], [0x00, 0x02]] : List (List Byte)).map value_type.frame) :=
  ⟨by decide, C2_multi_frame_round_trip 2 [[0x01], [], [0x00, 0x02]] (by decide)⟩

/-- C3. Delimiter removal: for every byte sequence `B`, the encoder applied to
the single frame `B` without trailing delimiter produces a stream that contains
no byte equal to `0x00`. -/
theorem C3_no_delimiter_in_encoded_frame (B : List Byte) :
    ∃ out, encode [B] false = some out ∧ ∀ b ∈ out, b ≠ frame_delim := by
  refine ⟨encode_frames [B] false, encode_eq_encode_frames [B] false, ?_⟩
  intro b hb
  rw [encode_frames_single] at hb
  exact enc_ne_zero B.length B (le_refl _) b (by simpa using hb)

/-- C4. Wire-format conformance of the encoder: for every byte sequence `B`, the
output of encoding the single frame `B` without trailing delimiter is the
concatenation of one or more units, each a code byte `c` with `1 ≤ c ≤ 255`
followed by exactly `c - 1` data bytes, none of them `0x00`, and at most 254 of
them. -/
theorem C4_encoder_output_is_units (B : List Byte) :
    ∃ units : List (List Byte), units ≠ [] ∧ encode [B] false = some units.flatten ∧
      ∀ u ∈ units, ∃ (c : Byte) (d : List Byte), u = c :: d ∧ 1 ≤ c.val ∧ c.val ≤ 255 ∧
        d.length = c.val - 1 ∧ (∀ b ∈ d, b ≠ 0) ∧ d.length ≤ 254 := by
  obtain ⟨units, h1, h2, h3⟩ := enc_units B.length B (le_refl _)
  refine ⟨units, h1, ?_, h3⟩
  rw [encode_eq_encode_frames, encode_frames_single, ← h2]
  simp

/-- C5. The encoder equals the reference segmentation: for every byte sequence
`B`, encoding the single frame `B` without trailing delimiter gives `enc B`,
where `enc` is the recursion on the longest zero-free initial segment of at most
254 bytes; and `[0x11, 0x22, 0x00, 0x33]` encodes to
`[0x03, 0x11, 0x22, 0x02, 0x33]`. -/
theorem C5_encoder_refines_reference :
    (∀ B : List Byte, encode [B] false = some (enc B)) ∧
    encode [[0x11, 0x22, 0x00, 0x33]] false = some [0x03, 0x11, 0x22, 0x02, 0x33] := by
  refine ⟨?_, by decide⟩
  intro B
  rw [encode_eq_encode_frames, encode_frames_single]
  simp

/-- C6. Frame delimiting by the encoder: for every non-empty list of frames
`init ++ [last]` and every flag `f`, the encoding is the concatenation of the
encodings of the frames of `init`, each on its own with the trailing delimiter,
followed by the encoding of `last` on its own with flag `f`; and the encoding of
one frame with the trailing delimiter is its encoding without it followed by
`0x00`. -/
theorem C6_frame_delimiting :
    (∀ (init : List (List Byte)) (last : List Byte) (f : Bool),
      ∃ (pieces : List (List Byte)) (tail : List Byte),
        List.Forall₂ (fun F piece => encode [F] true = some piece) init pieces ∧
        encode [last] f = some tail ∧
        encode (init ++ [last]) f = some (pieces.flatten ++ tail)) ∧
    (∀ F : List Byte, ∃ out, encode [F] false = some out ∧
      encode [F] true = some (out ++ [0x00])) := by
  constructor
  · intro init last f
    refine ⟨init.map (fun F => enc F ++ [frame_delim]), encode_frames [last] f, ?_,
      encode_eq_encode_frames [last] f, ?_⟩
    · rw [List.forall₂_map_right_iff]
      apply List.forall₂_same.mpr
      intro F _
      rw [encode_eq_encode_frames, encode_frames_single]
      simp
    · rw [encode_eq_encode_frames, encode_frames_append_single]
  · intro F
    refine ⟨enc F, ?_, ?_⟩
    · rw [encode_eq_encode_frames, encode_frames_single]
      simp
    · rw [encode_eq_encode_frames, encode_frames_single]
      simp [frame_delim]

/-- C7. Delimiter count: for every list of `N ≥ 1` frames, the encoded stream
contains exactly `N` bytes `0x00` and ends with `0x00` when the trailing
delimiter is enabled, and contains exactly `N - 1` bytes `0x00` and ends with a
non-zero byte when it is disabled. -/
theorem C7_delimiter_count (Fs : List (List Byte)) (hFs : Fs ≠ []) :
    (∃ out, encode Fs true = some out ∧ out.count 0 = Fs.length ∧
      out.getLast? = some 0) ∧
    (∃ out, encode Fs false = some out ∧ out.count 0 = Fs.length - 1 ∧
      ∃ b, out.getLast? = some b ∧ b ≠ 0) :=
  ⟨⟨encode_frames Fs true, encode_eq_encode_frames Fs true, encode_frames_count_true Fs,
      encode_frames_getLast_true Fs hFs⟩,
   ⟨encode_frames Fs false, encode_eq_encode_frames Fs false, encode_frames_count_false Fs,
      encode_frames_getLast_false Fs hFs⟩⟩

theorem C7_delimiter_count_witness :
    ([[0x11], [], [0x00]] : List (List Byte)) ≠ [] ∧
    (∃ out, encode [[0x11], [], [0x00]] true = some out ∧
      out.count 0 = ([[0x11], [], [0x00]] : List (List Byte)).length ∧
      out.getLast? = some 0) ∧
    (∃ out, encode [[0x11], [], [0x00]] false = some out ∧
      out.count 0 = ([[0x11], [], [0x00]] : List (List Byte)).length - 1 ∧
      ∃ b, out.getLast? = some b ∧ b ≠ 0) :=
  ⟨by decide, C7_delimiter_count [[0x11], [], [0x00]] (by decide)⟩

theorem encode_frames_eq_of_encode (fs : List (List Byte)) (f : Bool) (out : List Byte)
    (h : encode fs f = some out) : encode_frames fs f = out :=
  Option.some.inj ((encode_eq_encode_frames fs f).symm.trans h)

/-- C8. Empty frame: encoding the single empty frame gives exactly `[0x01]`
without trailing delimiter and `[0x01, 0x00]` with it; and for every
`MaxFrameSize`, decoding `[0x01, 0x00]` yields exactly one outcome, a successful
frame of length 0. -/
theorem C8_empty_frame :
    encode [[]] false = some [0x01] ∧
    encode [[]] true = some [0x01, 0x00] ∧
    ∀ M : Nat, decode M [0x01, 0x00] = some [value_type.frame []] := by
  refine ⟨by decide, by decide, ?_⟩
  intro M
  have h := decode_encode_frames M [[]] (by simp)
  rw [encode_frames_eq_of_encode [[]] true [0x01, 0x00] (by decide)] at h
  simpa using h

/-- C9. The 254-byte boundary: for every sequence `D` of exactly 254 non-zero
bytes, encoding the frame `D` without trailing delimiter gives exactly
`[0xFF] ++ D`, and for every non-zero byte `x`, encoding the 255-byte frame
`D ++ [x]` gives exactly `[0xFF] ++ D ++ [0x02, x]`. -/
theorem C9_boundary_254 (D : List Byte) (hlen : D.length = 254) (hz : ∀ b ∈ D, b ≠ 0) :
    encode [D] false = some (0xFF :: D) ∧
    ∀ x : Byte, x ≠ 0 → encode [D ++ [x]] false = some (0xFF :: D ++ [0x02, x]) := by
  constructor
  · have hw := zero_free_run_of_zero_free 254 D hz (by omega)
    rw [encode_eq_encode_frames, encode_frames_single, enc_of_whole D hw, hw, hlen]
    simp [size_to_byte]
  · intro x hx
    have hrun : zero_free_run 254 (D ++ [x]) = D := by
      have h := zero_free_run_append_of_zero_free D [x] hz
      rw [hlen] at h
      exact h
    have hne : zero_free_run 254 (D ++ [x]) ≠ D ++ [x] := by
      rw [hrun]
      intro h
      have h2 := congrArg List.length h
      simp at h2
    have hdrop : (D ++ [x]).drop 254 = [x] := by
      rw [← hlen]
      simp
    have hx1 : zero_free_run 254 [x] = [x] :=
      zero_free_run_of_zero_free 254 [x] (by simpa using hx) (by simp)
    have hencx : enc [x] = [0x02, x] := by
      rw [enc_of_whole [x] hx1, hx1]
      simp [size_to_byte]
    rw [encode_eq_encode_frames, encode_frames_single,
      enc_of_full (D ++ [x]) hne (by rw [hrun]; exact hlen), hrun, hdrop, hencx]
    simp

theorem C9_boundary_254_witness :
    (List.replicate 254 (1 : Byte)).length = 254 ∧
    (∀ b ∈ List.replicate 254 (1 : Byte), b ≠ 0) ∧
    encode [List.replicate 254 (1 : Byte)] false = some (0xFF :: List.replicate 254 (1 : Byte)) ∧
    ∀ x : Byte, x ≠ 0 →
      encode [List.replicate 254 (1 : Byte) ++ [x]] false
        = some (0xFF :: List.replicate 254 (1 : Byte) ++ [0x02, x]) :=
  ⟨List.length_replicate _ _,
   fun b hb => by rw [List.eq_of_mem_replicate hb]; decide,
   C9_boundary_254 (List.replicate 254 (1 : Byte)) (List.length_replicate _ _)
     (fun b hb => by rw [List.eq_of_mem_replicate hb]; decide)⟩

/-- C10, as stated, fails: the byte sequence `[0x03, 0x11, 0x22, 0x02, 0x33]`
ends without a delimiter, and the decoder (default `MaxFrameSize` 4096) yields
the single outcome `incomplete`, not a frame. -/
theorem C10_undelimited_is_incomplete :
    decode 4096 [0x03, 0x11, 0x22, 0x02, 0x33]
      = some [value_type.unexpected decode_error.incomplete] := by
  decide

/-- C10, amended. Worked example, decode direction: for every `MaxFrameSize` of
at least 4, decoding `[0x03, 0x11, 0x22, 0x02, 0x33]` followed by the delimiter
`0x00` yields exactly one outcome, the successful frame
`[0x11, 0x22, 0x00, 0x33]`. -/
theorem C10_worked_example_decode (M : Nat) (hM : 4 ≤ M) :
    decode M [0x03, 0x11, 0x22, 0x02, 0x33, 0x00]
      = some [value_type.frame [0x11, 0x22, 0x00, 0x33]] := by
  have h := decode_encode_frames M [[0x11, 0x22, 0x00, 0x33]] (by simpa using hM)
  rw [encode_frames_eq_of_encode [[0x11, 0x22, 0x00, 0x33]] true
    [0x03, 0x11, 0x22, 0x02, 0x33, 0x00] (by decide)] at h
  simpa using h

theorem C10_worked_example_decode_witness :
    4 ≤ 4096 ∧
    decode 4096 [0x03, 0x11, 0x22, 0x02, 0x33, 0x00]
      = some [value_type.frame [0x11, 0x22, 0x00, 0x33]] :=
  ⟨by decide, C10_worked_example_decode 4096 (by decide)⟩

/-! ## The decoder follows its functional description -/

theorem decode_loop_error_state (M fuel : Nat) (s : DecodeIterator)
    (h : s.state_ = decode_state.error_state) :
    decode_next_frame_loop M (fuel + 1) s = some (false, s) := by
  simp [decode_next_frame_loop, h]

theorem decode_loop_finished (M fuel : Nat) (s : DecodeIterator)
    (h : s.state_ = decode_state.finished) :
    decode_next_frame_loop M (fuel + 1) s = some (false, { s with finished_ := true }) := by
  simp [decode_next_frame_loop, h]

/-- `process_read_data_bytes` with all data bytes of the unit read. -/
theorem process_read_data_bytes_done (M : Nat) (s : DecodeIterator)
    (h : s.bytes_read_ = s.code_ - 1) :
    process_read_data_bytes M s = some (decode_state.handle_zero, s) := by
  unfold process_read_data_bytes
  by_cases h1 : s.code_ = 1
  · simp [h1]
  · have h2 : ¬ (s.bytes_read_ < s.code_ - 1) := by omega
    have h3 : read_data_loop M (s.input_.length + 1) s = some (none, s) := by
      cases hin : s.input_ with
      | nil => simp [read_data_loop, hin]
      | cons v r => simp [read_data_loop, hin, h2]
    simp [h1, h3, h]

/-- `process_read_data_bytes` at the end of the input with data bytes missing. -/
theorem process_read_data_bytes_nil (M : Nat) (s : DecodeIterator)
    (hin : s.input_ = []) (h : s.bytes_read_ < s.code_ - 1) :
    process_read_data_bytes M s
      = some (decode_state.error_state,
          { s with current_error_ := some decode_error.incomplete }) := by
  unfold process_read_data_bytes
  have h1 : s.code_ ≠ 1 := by omega
  have h2 : s.bytes_read_ ≠ s.code_ - 1 := by omega
  have h3 : read_data_loop M (s.input_.length + 1) s = some (none, s) := by
    simp [read_data_loop, hin]
  simp [h1, h3, h2]

/-- `process_read_data_bytes` with the frame buffer full and data bytes left. -/
theorem process_read_data_bytes_oversized (M : Nat) (s : DecodeIterator) (b : Byte)
    (rest : List Byte) (hin : s.input_ = b :: rest) (h : s.bytes_read_ < s.code_ - 1)
    (hfull : M ≤ s.frame_size_) :
    process_read_data_bytes M s
      = some (decode_state.error_state,
          { s with current_error_ := some decode_error.oversized }) := by
  unfold process_read_data_bytes
  have h1 : s.code_ ≠ 1 := by omega
  have h3 : read_data_loop M (s.input_.length + 1) s
      = some (some decode_state.error_state,
          { s with current_error_ := some decode_error.oversized }) := by
    simp [read_data_loop, hin, h, hfull]
  simp [h1, h3]

/-- `process_read_data_bytes` meeting a delimiter among the data bytes. -/
theorem process_read_data_bytes_invalid (M : Nat) (s : DecodeIterator) (rest : List Byte)
    (hin : s.input_ = frame_delim :: rest) (h : s.bytes_read_ < s.code_ - 1)
    (hroom : ¬ (M ≤ s.frame_size_)) :
    process_read_data_bytes M s
      = some (decode_state.error_state,
          { s with current_error_ := some decode_error.invalid_cobs }) := by
  unfold process_read_data_bytes
  have h1 : s.code_ ≠ 1 := by omega
  have h3 : read_data_loop M (s.input_.length + 1) s
      = some (some decode_state.error_state,
          { s with current_error_ := some decode_error.invalid_cobs }) := by
    simp [read_data_loop, hin, h, hroom, to_byte]
  simp [h1, h3]

/-- `process_read_data_bytes` copying one data byte: the call goes on as it does
from the iterator with that byte copied. -/
theorem process_read_data_bytes_step (M : Nat) (s : DecodeIterator) (b : Byte)
    (rest : List Byte) (hin : s.input_ = b :: rest) (h : s.bytes_read_ < s.code_ - 1)
    (hroom : ¬ (M ≤ s.frame_size_)) (hb : b ≠ frame_delim) :
    process_read_data_bytes M s
      = process_read_data_bytes M
          { s with frame_buffer_ := s.frame_buffer_.set s.frame_size_ b,
                   frame_size_ := s.frame_size_ + 1,
                   input_ := rest,
                   bytes_read_ := s.bytes_read_ + 1 } := by
  unfold process_read_data_bytes
  have h1 : s.code_ ≠ 1 := by omega
  have h3 : read_data_loop M (s.input_.length + 1) s
      = read_data_loop M (rest.length + 1)
          { s with frame_buffer_ := s.frame_buffer_.set s.frame_size_ b,
                   frame_size_ := s.frame_size_ + 1,
                   input_ := rest,
                   bytes_read_ := s.bytes_read_ + 1 } := by
    rw [hin, List.length_cons]
    simp [read_data_loop, hin, h, hroom, to_byte, hb]
  simp only [h1, if_false]
  rw [h3]

theorem decode_loop_read_congr (M fuel : Nat) (s s2 : DecodeIterator)
    (h1 : s.state_ = decode_state.read_data_bytes)
    (h2 : s2.state_ = decode_state.read_data_bytes)
    (h : process_read_data_bytes M s = process_read_data_bytes M s2) :
    decode_next_frame_loop M fuel s = decode_next_frame_loop M fuel s2 := by
  cases fuel with
  | zero => rfl
  | succ f => simp [decode_next_frame_loop, h1, h2, h]

theorem process_wait_for_code_nil (s : DecodeIterator) (hin : s.input_ = []) :
    process_wait_for_code s = (decode_state.finished, s) := by
  simp [process_wait_for_code, hin]

theorem process_wait_for_code_delim (s : DecodeIterator) (rest : List Byte)
    (hin : s.input_ = frame_delim :: rest) :
    process_wait_for_code s = (decode_state.frame_complete, { s with input_ := rest }) := by
  simp [process_wait_for_code, hin, to_byte]

theorem process_wait_for_code_code (s : DecodeIterator) (b : Byte) (rest : List Byte)
    (hin : s.input_ = b :: rest) (hb : b ≠ frame_delim) :
    process_wait_for_code s
      = (decode_state.read_data_bytes,
          { s with input_ := rest, code_ := b.val, bytes_read_ := 0 }) := by
  have hv : b.val ≠ 0 := fun h => hb (Fin.ext h)
  simp [process_wait_for_code, hin, to_byte, hb, hv]

theorem process_handle_zero_rollover (M : Nat) (s : DecodeIterator) (h : 255 ≤ s.code_) :
    process_handle_zero M s = (decode_state.wait_for_code, s) := by
  simp [process_handle_zero, h]

theorem process_handle_zero_nil (M : Nat) (s : DecodeIterator) (h : ¬ (255 ≤ s.code_))
    (hin : s.input_ = []) :
    process_handle_zero M s
      = (decode_state.error_state,
          { s with current_error_ := some decode_error.incomplete }) := by
  simp [process_handle_zero, h, hin]

theorem process_handle_zero_delim (M : Nat) (s : DecodeIterator) (rest : List Byte)
    (h : ¬ (255 ≤ s.code_)) (hin : s.input_ = frame_delim :: rest) :
    process_handle_zero M s = (decode_state.frame_complete, { s with input_ := rest }) := by
  simp [process_handle_zero, h, hin, to_byte]

theorem process_handle_zero_oversized (M : Nat) (s : DecodeIterator) (b : Byte)
    (rest : List Byte) (h : ¬ (255 ≤ s.code_)) (hin : s.input_ = b :: rest)
    (hb : b ≠ frame_delim) (hfull : M ≤ s.frame_size_) :
    process_handle_zero M s
      = (decode_state.error_state,
          { s with current_error_ := some decode_error.oversized }) := by
  simp [process_handle_zero, h, hin, to_byte, hb, hfull]

theorem process_handle_zero_push (M : Nat) (s : DecodeIterator) (b : Byte)
    (rest : List Byte) (h : ¬ (255 ≤ s.code_)) (hin : s.input_ = b :: rest)
    (hb : b ≠ frame_delim) (hroom : ¬ (M ≤ s.frame_size_)) :
    process_handle_zero M s
      = (decode_state.wait_for_code,
          { s with frame_buffer_ := s.frame_buffer_.set s.frame_size_ 0,
                   frame_size_ := s.frame_size_ + 1 }) := by
  simp [process_handle_zero, h, hin, to_byte, hb, hroom]

theorem length_take_frame (s : DecodeIterator) (M : Nat) (hbl : s.frame_buffer_.length = M)
    (hfs : s.frame_size_ ≤ M) : (s.frame_buffer_.take s.frame_size_).length = s.frame_size_ := by
  rw [List.length_take]
  omega

/-- From `read_data_bytes` on, `decode_next_frame` ends as the functional
description says, for every input and every frame buffer content. -/
theorem decode_loop_run_data (M : Nat) :
    ∀ (input : List Byte) (code k : Nat) (s : DecodeIterator) (fuel : Nat),
      s.state_ = decode_state.read_data_bytes → s.input_ = input → s.code_ = code →
      s.bytes_read_ + k = code - 1 → s.frame_buffer_.length = M → s.frame_size_ ≤ M →
      s.current_error_ = none → 3 * input.length + 4 ≤ fuel →
      ∃ r, decode_next_frame_loop M fuel s = some r ∧
        ExitMatches M r (decode_run_data M input code k (s.frame_buffer_.take s.frame_size_)) := by
  intro input
  induction input with
  | nil =>
    intro code k s fuel hst hin hcode hk hbl hfs herr hfuel
    obtain ⟨f, rfl⟩ : ∃ f, fuel = f + 4 := ⟨fuel - 4, by omega⟩
    cases k with
    | zero =>
      have hdone := process_read_data_bytes_done M s (by omega)
      rw [decode_loop_read_data_bytes M (f + 3) s _ hst hdone]
      rw [decode_loop_handle_zero M (f + 2) _ rfl]
      by_cases hc : 255 ≤ code
      · rw [process_handle_zero_rollover M _ (by simpa [hcode] using hc)]
        rw [decode_loop_wait_for_code M (f + 1) _ rfl]
        rw [process_wait_for_code_nil _ (by simpa using hin)]
        rw [decode_loop_finished M f _ rfl]
        exact ⟨_, rfl, by simp [ExitMatches, decode_run_data, hc, hin, hbl, herr]⟩
      · rw [process_handle_zero_nil M _ (by simpa [hcode] using hc) (by simpa using hin)]
        rw [decode_loop_error_state M (f + 1) _ rfl]
        exact ⟨_, rfl, by simp [ExitMatches, decode_run_data, hc, hin, hbl]⟩
    | succ k =>
      rw [decode_loop_read_data_bytes M (f + 3) s _ hst
        (process_read_data_bytes_nil M s hin (by omega))]
      rw [decode_loop_error_state M (f + 2) _ rfl]
      exact ⟨_, rfl, by simp [ExitMatches, decode_run_data, hin, hbl]⟩
  | cons b rest ih =>
    intro code k s fuel hst hin hcode hk hbl hfs herr hfuel
    obtain ⟨f, rfl⟩ : ∃ f, fuel = f + 4 := ⟨fuel - 4, by omega⟩
    have hlen := length_take_frame s M hbl hfs
    simp only [List.length_cons] at hfuel
    cases k with
    | zero =>
      have hdone := process_read_data_bytes_done M s (by omega)
      rw [decode_loop_read_data_bytes M (f + 3) s _ hst hdone]
      rw [decode_loop_handle_zero M (f + 2) _ rfl]
      by_cases hb : b = frame_delim
      · subst hb
        by_cases hc : 255 ≤ code
        · rw [process_handle_zero_rollover M _ (by simpa [hcode] using hc)]
          rw [decode_loop_wait_for_code M (f + 1) _ rfl]
          rw [process_wait_for_code_delim _ rest (by simpa using hin)]
          rw [decode_loop_frame_complete M f _ rfl]
          exact ⟨_, rfl, by simp [ExitMatches, decode_run_data, process_frame_complete, hbl, herr]⟩
        · rw [process_handle_zero_delim M _ rest (by simpa [hcode] using hc)
            (by simpa using hin)]
          rw [decode_loop_frame_complete M (f + 1) _ rfl]
          exact ⟨_, rfl, by simp [ExitMatches, decode_run_data, process_frame_complete, hbl, herr]⟩
      · by_cases hc : 255 ≤ code
        · rw [process_handle_zero_rollover M _ (by simpa [hcode] using hc)]
          rw [decode_loop_wait_for_code M (f + 1) _ rfl]
          rw [process_wait_for_code_code _ b rest (by simpa using hin) hb]
          obtain ⟨r, hr, hm⟩ := ih b.val (b.val - 1)
            { s with state_ := decode_state.read_data_bytes, input_ := rest,
                     code_ := b.val, bytes_read_ := 0 } (f + 1)
            rfl rfl rfl (by simp) hbl hfs herr (by omega)
          refine ⟨r, hr, ?_⟩
          simpa [decode_run_data, hb, hc] using hm
        · by_cases hfull : M ≤ s.frame_size_
          · rw [process_handle_zero_oversized M _ b rest (by simpa [hcode] using hc)
              (by simpa using hin) hb (by simpa using hfull)]
            rw [decode_loop_error_state M (f + 1) _ rfl]
            exact ⟨_, rfl, by simp [ExitMatches, decode_run_data, hb, hc, hlen, hfull, hin, hbl]⟩
          · rw [process_handle_zero_push M _ b rest (by simpa [hcode] using hc)
              (by simpa using hin) hb (by simpa using hfull)]
            rw [decode_loop_wait_for_code M (f + 1) _ rfl]
            rw [process_wait_for_code_code _ b rest (by simpa using hin) hb]
            obtain ⟨r, hr, hm⟩ := ih b.val (b.val - 1)
              { s with state_ := decode_state.read_data_bytes, input_ := rest,
                       code_ := b.val, bytes_read_ := 0,
                       frame_buffer_ := s.frame_buffer_.set s.frame_size_ 0,
                       frame_size_ := s.frame_size_ + 1 } (f + 1)
              rfl rfl rfl (by simp) (by simp [hbl]) (by simp; omega) herr (by omega)
            refine ⟨r, hr, ?_⟩
            have htk := take_set_succ s.frame_buffer_ 0 s.frame_size_ (by omega)
            simp only [htk] at hm
            simpa [decode_run_data, hb, hc, hlen, hfull] using hm
    | succ k =>
      have hlt : s.bytes_read_ < s.code_ - 1 := by omega
      by_cases hfull : M ≤ s.frame_size_
      · rw [decode_loop_read_data_bytes M (f + 3) s _ hst
          (process_read_data_bytes_oversized M s b rest hin hlt hfull)]
        rw [decode_loop_error_state M (f + 2) _ rfl]
        exact ⟨_, rfl, by simp [ExitMatches, decode_run_data, hlen, hfull, hin, hbl]⟩
      · by_cases hb : b = frame_delim
        · subst hb
          rw [decode_loop_read_data_bytes M (f + 3) s _ hst
            (process_read_data_bytes_invalid M s rest hin hlt hfull)]
          rw [decode_loop_error_state M (f + 2) _ rfl]
          exact ⟨_, rfl, by simp [ExitMatches, decode_run_data, hlen, hfull, hin, hbl]⟩
        · rw [decode_loop_read_congr M (f + 4) s
            { s with frame_buffer_ := s.frame_buffer_.set s.frame_size_ b,
                     frame_size_ := s.frame_size_ + 1,
                     input_ := rest,
                     bytes_read_ := s.bytes_read_ + 1 } hst hst
            (process_read_data_bytes_step M s b rest hin hlt hfull hb)]
          obtain ⟨r, hr, hm⟩ := ih code k
            { s with frame_buffer_ := s.frame_buffer_.set s.frame_size_ b,
                     frame_size_ := s.frame_size_ + 1,
                     input_ := rest,
                     bytes_read_ := s.bytes_read_ + 1 } (f + 4)
            hst rfl hcode (by simp; omega) (by simp [hbl]) (by simp; omega) herr (by omega)
          refine ⟨r, hr, ?_⟩
          have htk := take_set_succ s.frame_buffer_ b s.frame_size_ (by omega)
          simp only [htk] at hm
          simpa [decode_run_data, hb, hlen, hfull] using hm

/-- From `wait_for_code` on, `decode_next_frame` ends as the functional
description says. -/
theorem decode_loop_run_code (M : Nat) (s : DecodeIterator) (fuel : Nat)
    (hst : s.state_ = decode_state.wait_for_code) (hbl : s.frame_buffer_.length = M)
    (hfs : s.frame_size_ ≤ M) (herr : s.current_error_ = none)
    (hfuel : 3 * s.input_.length + 2 ≤ fuel) :
    ∃ r, decode_next_frame_loop M fuel s = some r ∧
      ExitMatches M r (decode_run_code M (s.frame_buffer_.take s.frame_size_) s.input_) := by
  obtain ⟨f, rfl⟩ : ∃ f, fuel = f + 2 := ⟨fuel - 2, by omega⟩
  rw [decode_loop_wait_for_code M (f + 1) s hst]
  cases hin : s.input_ with
  | nil =>
    rw [process_wait_for_code_nil s hin, decode_loop_finished M f _ rfl]
    exact ⟨_, rfl, by simp [ExitMatches, decode_run_code, hin, hbl, herr]⟩
  | cons b rest =>
    by_cases hb : b = frame_delim
    · subst hb
      rw [process_wait_for_code_delim s rest hin, decode_loop_frame_complete M f _ rfl]
      exact ⟨_, rfl, by simp [ExitMatches, decode_run_code, process_frame_complete, hbl, herr]⟩
    · rw [process_wait_for_code_code s b rest hin hb]
      rw [hin, List.length_cons] at hfuel
      obtain ⟨r, hr, hm⟩ := decode_loop_run_data M rest b.val (b.val - 1)
        { s with state_ := decode_state.read_data_bytes, input_ := rest,
                 code_ := b.val, bytes_read_ := 0 } (f + 1)
        rfl rfl rfl (by simp) hbl hfs herr (by omega)
      refine ⟨r, hr, ?_⟩
      simpa [decode_run_code, hb] using hm

/-- A call of `decode_next_frame` returns, and ends as the functional
description from an empty frame says. -/
theorem decode_next_frame_run_code (M : Nat) (s : DecodeIterator)
    (hbl : s.frame_buffer_.length = M) :
    ∃ r, decode_next_frame M s = some r ∧
      ExitMatches M r (decode_run_code M [] s.input_) := by
  obtain ⟨r, hr, hm⟩ := decode_loop_run_code M
    { s with frame_size_ := 0, frame_ready_ := false, current_error_ := none,
             state_ := decode_state.wait_for_code }
    (3 * s.input_.length + 4) rfl hbl (Nat.zero_le _) rfl (by simp)
  exact ⟨r, hr, by simpa using hm⟩

theorem decode_run_data_length (M : Nat) :
    ∀ (input : List Byte) (code k : Nat) (acc : List Byte),
      (decode_run_data M input code k acc).2.length ≤ input.length := by
  intro input
  induction input with
  | nil =>
    intro code k acc
    cases k with
    | zero =>
      simp only [decode_run_data]
      split <;> simp
    | succ k => simp [decode_run_data]
  | cons b rest ih =>
    intro code k acc
    cases k with
    | zero =>
      simp only [decode_run_data]
      split
      · simp
      · split
        · exact (ih _ _ _).trans (by simp)
        · split
          · simp
          · exact (ih _ _ _).trans (by simp)
    | succ k =>
      simp only [decode_run_data]
      split
      · simp
      · split
        · simp
        · exact (ih _ _ _).trans (by simp)

theorem decode_run_code_length (M : Nat) (acc : List Byte) (b : Byte) (rest : List Byte) :
    (decode_run_code M acc (b :: rest)).2.length ≤ rest.length := by
  simp only [decode_run_code]
  split
  · simp
  · exact decode_run_data_length M rest _ _ _

theorem skip_input_length : ∀ input : List Byte, (skip_input input).length ≤ input.length := by
  intro input
  induction input with
  | nil => simp [skip_input]
  | cons b rest ih =>
    simp only [skip_input]
    split
    · simp
    · exact ih.trans (by simp)

/-- The constructor and `operator++` on an input whose first frame is complete:
the iterator holds the frame. -/
theorem decode_advance_complete (M : Nat) (s : DecodeIterator) (bytes rest : List Byte)
    (hbl : s.frame_buffer_.length = M)
    (hx : decode_run_code M [] s.input_ = (frame_exit.complete bytes, rest)) :
    ∃ it, decode_advance M s = some it ∧ it.input_ = rest ∧
      it.frame_buffer_.length = M ∧ it.finished_ = false ∧ it.current_error_ = none ∧
      it.deref = value_type.frame bytes := by
  obtain ⟨r, hr, hm⟩ := decode_next_frame_run_code M s hbl
  rw [hx] at hm
  obtain ⟨h1, h2, h4, h5, h6⟩ := hm
  refine ⟨{ r.2 with finished_ := !r.1 && r.2.current_error_.isNone }, ?_, h1, h2, ?_, h5, ?_⟩
  · simp [decode_advance, hr]
  · simp [h4]
  · simp [DecodeIterator.deref, h5, h6]

/-- The constructor and `operator++` on an input whose first frame fails: the
iterator holds the error and the input is left where the error was found. -/
theorem decode_advance_error (M : Nat) (s : DecodeIterator) (e : decode_error)
    (rest : List Byte) (hbl : s.frame_buffer_.length = M)
    (hx : decode_run_code M [] s.input_ = (frame_exit.error e, rest)) :
    ∃ it, decode_advance M s = some it ∧ it.input_ = rest ∧
      it.frame_buffer_.length = M ∧ it.finished_ = false ∧ it.current_error_ = some e ∧
      it.deref = value_type.unexpected e := by
  obtain ⟨r, hr, hm⟩ := decode_next_frame_run_code M s hbl
  rw [hx] at hm
  obtain ⟨h1, h2, h4, h5⟩ := hm
  refine ⟨{ r.2 with finished_ := !r.1 && r.2.current_error_.isNone }, ?_, h1, h2, ?_, h5, ?_⟩
  · simp [decode_advance, hr]
  · simp [h5]
  · simp [DecodeIterator.deref, h5]

/-- The constructor and `operator++` when `decode_next_frame` reaches the end of
the input: the iterator equals the sentinel. -/
theorem decode_advance_finished (M : Nat) (s : DecodeIterator) (rest : List Byte)
    (hbl : s.frame_buffer_.length = M)
    (hx : decode_run_code M [] s.input_ = (frame_exit.finished, rest)) :
    ∃ it, decode_advance M s = some it ∧ it.finished_ = true := by
  obtain ⟨r, hr, hm⟩ := decode_next_frame_run_code M s hbl
  rw [hx] at hm
  obtain ⟨_, _, h4, h5⟩ := hm
  refine ⟨{ r.2 with finished_ := !r.1 && r.2.current_error_.isNone }, ?_, ?_⟩
  · simp [decode_advance, hr]
  · simp [h4, h5]

theorem decode_collect_finished (M fuel : Nat) (it : DecodeIterator) (h : it.finished_ = true)
    (hfuel : 1 ≤ fuel) : decode_collect M fuel it = some [] := by
  obtain ⟨f, rfl⟩ : ∃ f, fuel = f + 1 := ⟨fuel - 1, by omega⟩
  simp [decode_collect, DecodeIterator.at_end, h]

/-- The consumer loop of the decoder collects the outcomes of the functional
description, from every iterator and for every input. -/
theorem decode_collect_outcomes (M : Nat) : ∀ (n : Nat) (s : DecodeIterator),
    s.input_.length ≤ n → s.frame_buffer_.length = M →
    ∃ it, decode_advance M s = some it ∧
      ∀ fuel, n + 1 ≤ fuel →
        decode_collect M fuel it = some (decode_outcomes M n s.input_) := by
  intro n
  induction n with
  | zero =>
    intro s hn hbl
    have hin : s.input_ = [] := List.eq_nil_of_length_eq_zero (by omega)
    obtain ⟨it, hadv, hfin⟩ := decode_advance_finished M s [] hbl (by rw [hin]; rfl)
    exact ⟨it, hadv, fun fuel hfuel => by
      rw [decode_collect_finished M fuel it hfin (by omega)]; rfl⟩
  | succ n ih =>
    intro s hn hbl
    cases hin : s.input_ with
    | nil =>
      obtain ⟨it, hadv, hfin⟩ := decode_advance_finished M s [] hbl (by rw [hin]; rfl)
      exact ⟨it, hadv, fun fuel hfuel => by
        rw [decode_collect_finished M fuel it hfin (by omega)]
        simp [decode_outcomes, decode_run_code]⟩
    | cons b rest =>
      have hlen := decode_run_code_length M [] b rest
      rw [hin] at hn
      simp only [List.length_cons] at hn
      cases hx : decode_run_code M [] (b :: rest) with
      | mk e x =>
        rw [hx] at hlen
        simp only at hlen
        cases e with
        | finished =>
          obtain ⟨it, hadv, hfin⟩ := decode_advance_finished M s x hbl (by rw [hin]; exact hx)
          exact ⟨it, hadv, fun fuel hfuel => by
            rw [decode_collect_finished M fuel it hfin (by omega)]
            simp [decode_outcomes, hx]⟩
        | complete bytes =>
          obtain ⟨it, hadv, h1, h2, h3, h4, h5⟩ :=
            decode_advance_complete M s bytes x hbl (by rw [hin]; exact hx)
          obtain ⟨it2, hadv2, hq⟩ := ih it (by rw [h1]; omega) h2
          refine ⟨it, hadv, ?_⟩
          intro fuel hfuel
          obtain ⟨f, rfl⟩ : ∃ f, fuel = f + 1 := ⟨fuel - 1, by omega⟩
          have hnext : it.next M = some it2 := by
            simp [DecodeIterator.next, h3, h4, hadv2]
          simp only [decode_collect, DecodeIterator.at_end, h3, hnext, decode_outcomes, hx]
          rw [hq f (by omega), h5, h1]
          simp
        | error err =>
          obtain ⟨it, hadv, h1, h2, h3, h4, h5⟩ :=
            decode_advance_error M s err x hbl (by rw [hin]; exact hx)
          have hsl := skip_input_length x
          obtain ⟨it2, hadv2, hq⟩ := ih (skip_to_delimiter it)
            (by simp only [skip_to_delimiter, h1]; omega)
            (by simpa [skip_to_delimiter] using h2)
          refine ⟨it, hadv, ?_⟩
          intro fuel hfuel
          obtain ⟨f, rfl⟩ : ∃ f, fuel = f + 1 := ⟨fuel - 1, by omega⟩
          have hf : (skip_to_delimiter it).finished_ = false := by
            simpa [skip_to_delimiter] using h3
          have hnext : it.next M = some it2 := by
            simp [DecodeIterator.next, h4, hf, hadv2]
          simp only [decode_collect, DecodeIterator.at_end, h3, hnext, decode_outcomes, hx]
          rw [hq f (by omega), h5]
          simp [skip_to_delimiter, h1]

/-- The decoder computes the outcomes of its functional description: the driver
loops never run out of fuel, whatever the input. -/
theorem decode_eq_outcomes (M : Nat) (input : List Byte) :
    decode M input = some (decode_outcomes M input.length input) := by
  obtain ⟨it, hadv, hq⟩ := decode_collect_outcomes M input.length
    { input_ := input, frame_buffer_ := List.replicate M 0, frame_size_ := 0,
      current_error_ := none, frame_ready_ := false, finished_ := false,
      state_ := decode_state.wait_for_code, code_ := 0, bytes_read_ := 0 }
    (le_refl _) (List.length_replicate _ _)
  unfold decode DecodeIterator.begin
  rw [hadv]
  exact hq _ (le_refl _)

/-- More rounds than the input has bytes do not change the outcomes. -/
theorem decode_outcomes_fuel (M : Nat) : ∀ (n m : Nat) (input : List Byte),
    input.length ≤ n → input.length ≤ m →
    decode_outcomes M n input = decode_outcomes M m input := by
  intro n
  induction n with
  | zero =>
    intro m input hn _
    have hin : input = [] := List.eq_nil_of_length_eq_zero (by omega)
    subst hin
    cases m <;> simp [decode_outcomes, decode_run_code]
  | succ n ih =>
    intro m input hn hm
    cases input with
    | nil => cases m <;> simp [decode_outcomes, decode_run_code]
    | cons b rest =>
      obtain ⟨m2, rfl⟩ : ∃ m2, m = m2 + 1 := ⟨m - 1, by simp at hm; omega⟩
      have hlen := decode_run_code_length M [] b rest
      simp only [List.length_cons] at hn hm
      simp only [decode_outcomes]
      cases hx : decode_run_code M [] (b :: rest) with
      | mk e x =>
        rw [hx] at hlen
        simp only at hlen
        cases e with
        | finished => rfl
        | complete bytes =>
          simp only
          rw [ih m2 x (by omega) (by omega)]
        | error err =>
          simp only
          have := skip_input_length x
          rw [ih m2 (skip_input x) (by omega) (by omega)]

/-! ## Facts on the functional description of the decoder -/

theorem decode_run_code_nil (M : Nat) (acc : List Byte) :
    decode_run_code M acc [] = (frame_exit.finished, []) := rfl

theorem decode_outcomes_finished (M : Nat) (input rest : List Byte)
    (hx : decode_run_code M [] input = (frame_exit.finished, rest)) :
    decode_outcomes M input.length input = [] := by
  cases input with
  | nil => rfl
  | cons b t => simp [decode_outcomes, hx]

theorem decode_outcomes_complete (M : Nat) (input bytes rest : List Byte)
    (hx : decode_run_code M [] input = (frame_exit.complete bytes, rest)) :
    decode_outcomes M input.length input
      = value_type.frame bytes :: decode_outcomes M rest.length rest := by
  cases input with
  | nil => simp [decode_run_code] at hx
  | cons b t =>
    have hlen := decode_run_code_length M [] b t
    rw [hx] at hlen
    simp only [List.length_cons, decode_outcomes, hx]
    rw [decode_outcomes_fuel M t.length rest.length rest hlen (le_refl _)]

theorem decode_outcomes_error (M : Nat) (input rest : List Byte) (e : decode_error)
    (hx : decode_run_code M [] input = (frame_exit.error e, rest)) :
    decode_outcomes M input.length input
      = value_type.unexpected e
          :: decode_outcomes M (skip_input rest).length (skip_input rest) := by
  cases input with
  | nil => simp [decode_run_code] at hx
  | cons b t =>
    have hlen := decode_run_code_length M [] b t
    rw [hx] at hlen
    have hsl := skip_input_length rest
    simp only [List.length_cons, decode_outcomes, hx]
    rw [decode_outcomes_fuel M t.length (skip_input rest).length (skip_input rest)
      (hsl.trans hlen) (le_refl _)]

theorem skip_input_zero_free (y rest : List Byte) (hy : ∀ b ∈ y, b ≠ 0) :
    skip_input (y ++ frame_delim :: rest) = rest := by
  induction y with
  | nil => simp [skip_input, to_byte]
  | cons b t ih =>
    have hb : b ≠ frame_delim := hy b (List.mem_cons_self _ _)
    simp only [List.cons_append, skip_input, to_byte, hb, if_false]
    exact ih (fun x hx => hy x (List.mem_cons_of_mem _ hx))

/-- Copying a zero-free run that fits the frame buffer. -/
theorem decode_run_data_copy (M : Nat) (X : List Byte) (code j : Nat) :
    ∀ (d acc : List Byte), (∀ b ∈ d, b ≠ 0) → acc.length + d.length ≤ M →
      decode_run_data M (d ++ X) code (d.length + j) acc
        = decode_run_data M X code j (acc ++ d) := by
  intro d
  induction d with
  | nil => intro acc _ _; simp
  | cons b t ih =>
    intro acc hz hfit
    have hb : b ≠ frame_delim := hz b (List.mem_cons_self _ _)
    simp only [List.length_cons] at hfit
    have hroom : ¬ (M ≤ acc.length) := by omega
    have hk : (b :: t).length + j = (t.length + j) + 1 := by
      simp only [List.length_cons]; omega
    rw [hk, List.cons_append]
    simp only [decode_run_data, hroom, hb, if_false]
    rw [ih (acc ++ [b]) (fun x hx => hz x (List.mem_cons_of_mem _ hx))
      (by simp only [List.length_append, List.length_singleton]; omega)]
    simp

/-- Copying a zero-free run that does not fit the frame buffer: the call ends
with `oversized` inside the run. -/
theorem decode_run_data_copy_oversized (M : Nat) (X : List Byte) (code j : Nat) :
    ∀ (d acc : List Byte), (∀ b ∈ d, b ≠ 0) → acc.length ≤ M → M < acc.length + d.length →
      ∃ y, (∀ b ∈ y, b ≠ 0) ∧
        decode_run_data M (d ++ X) code (d.length + j) acc
          = (frame_exit.error decode_error.oversized, y ++ X) := by
  intro d
  induction d with
  | nil => intro acc _ h1 h2; simp at h2; omega
  | cons b t ih =>
    intro acc hz h1 h2
    have hb : b ≠ frame_delim := hz b (List.mem_cons_self _ _)
    simp only [List.length_cons] at h2
    have hk : (b :: t).length + j = (t.length + j) + 1 := by
      simp only [List.length_cons]; omega
    rw [hk, List.cons_append]
    by_cases hfull : M ≤ acc.length
    · refine ⟨b :: t, hz, ?_⟩
      simp [decode_run_data, hfull]
    · obtain ⟨y, hy, hrun⟩ := ih (acc ++ [b]) (fun x hx => hz x (List.mem_cons_of_mem _ hx))
        (by simp only [List.length_append, List.length_singleton]; omega)
        (by simp only [List.length_append, List.length_singleton]; omega)
      refine ⟨y, hy, ?_⟩
      simp only [decode_run_data, hfull, hb, if_false]
      exact hrun

/-- After a complete unit, before a byte that is not the delimiter: the state
`handle_zero` inserts a zero unless the code is 255, then the next unit starts. -/
theorem decode_run_data_next_unit (M : Nat) (code : Nat) (acc : List Byte) (b : Byte)
    (rest : List Byte) (hb : b ≠ frame_delim) :
    decode_run_data M (b :: rest) code 0 acc
      = if 255 ≤ code then decode_run_code M acc (b :: rest)
        else if M ≤ acc.length then (frame_exit.error decode_error.oversized, b :: rest)
        else decode_run_code M (acc ++ [0]) (b :: rest) := by
  simp [decode_run_data, decode_run_code, hb]

theorem decode_run_code_unit (M : Nat) (acc : List Byte) (c : Byte) (X : List Byte)
    (hc : 1 ≤ c.val) :
    decode_run_code M acc (c :: X) = decode_run_data M X c.val (c.val - 1) acc := by
  have hne : c ≠ frame_delim := by
    intro h
    rw [h] at hc
    simp [frame_delim] at hc
  simp [decode_run_code, hne]

theorem units_stream_ne_zero : ∀ us : List (Byte × List Byte), (∀ u ∈ us, unit_ok u) →
    ∀ b ∈ units_stream us, b ≠ 0 := by
  intro us
  induction us with
  | nil => intro _ b hb; simp [units_stream] at hb
  | cons u rest ih =>
    intro hok b hb
    obtain ⟨c, d⟩ := u
    obtain ⟨h1, _, _, h4⟩ := hok (c, d) (List.mem_cons_self _ _)
    simp only [units_stream, List.cons_append, List.mem_cons, List.mem_append] at hb
    rcases hb with h | h | h
    · rw [h]
      intro h0
      rw [h0] at h1
      simp at h1
    · exact h4 b h
    · exact ih (fun x hx => hok x (List.mem_cons_of_mem _ hx)) b h

theorem units_stream_cons_head (u : Byte × List Byte) (rest : List (Byte × List Byte))
    (hok : unit_ok u) (tl : List Byte) :
    ∃ X, units_stream (u :: rest) ++ tl = u.1 :: X ∧ u.1 ≠ frame_delim := by
  obtain ⟨c, d⟩ := u
  refine ⟨d ++ units_stream rest ++ tl, by simp [units_stream], ?_⟩
  intro h0
  have h1 := hok.1
  simp only at h0 h1
  rw [h0] at h1
  simp [frame_delim] at h1

/-- The functional description on a frame of well-formed units that fits the
buffer: the frame is complete and holds the frame of the units. -/
theorem decode_run_code_units (M : Nat) (tl : List Byte) :
    ∀ us : List (Byte × List Byte), us ≠ [] → (∀ u ∈ us, unit_ok u) →
      ∀ acc : List Byte, acc.length + (units_frame us).length ≤ M →
        decode_run_code M acc (units_stream us ++ frame_delim :: tl)
          = (frame_exit.complete (acc ++ units_frame us), tl) := by
  intro us
  induction us with
  | nil => intro h; exact absurd rfl h
  | cons u rest ih =>
    intro _ hok acc hfit
    obtain ⟨c, d⟩ := u
    obtain ⟨h1, h2, h3, h4⟩ := hok (c, d) (List.mem_cons_self _ _)
    simp only at h1 h2 h3 h4
    have hstream : units_stream ((c, d) :: rest) ++ frame_delim :: tl
        = c :: (d ++ (units_stream rest ++ frame_delim :: tl)) := by
      simp [units_stream]
    rw [hstream, decode_run_code_unit M acc c _ h1]
    have hk : c.val - 1 = d.length + 0 := by omega
    cases rest with
    | nil =>
      simp only [units_frame] at hfit ⊢
      rw [hk, decode_run_data_copy M _ c.val 0 d acc h4 hfit]
      simp [units_stream, decode_run_data]
    | cons u2 rest2 =>
      have hok2 : ∀ x ∈ u2 :: rest2, unit_ok x :=
        fun x hx => hok x (List.mem_cons_of_mem _ hx)
      obtain ⟨X, hX, hne⟩ := units_stream_cons_head u2 rest2
        (hok2 u2 (List.mem_cons_self _ _)) (frame_delim :: tl)
      simp only [units_frame, List.length_append] at hfit ⊢
      rw [hk, decode_run_data_copy M _ c.val 0 d acc h4 (by omega)]
      rw [hX, decode_run_data_next_unit M c.val (acc ++ d) u2.1 X hne, ← hX]
      by_cases hc : 255 ≤ c.val
      · have hnot : ¬ (c.val < 255) := by omega
        simp only [hc, if_true, hnot, if_false, List.length_nil] at hfit ⊢
        rw [ih (by simp) hok2 (acc ++ d) (by simp only [List.length_append]; omega)]
        simp
      · have hlt : c.val < 255 := by omega
        simp only [hc, if_false, hlt, if_true, List.length_singleton] at hfit ⊢
        have hroom : ¬ (M ≤ (acc ++ d).length) := by
          simp only [List.length_append]; omega
        simp only [hroom, if_false]
        rw [ih (by simp) hok2 (acc ++ d ++ [0])
          (by simp only [List.length_append, List.length_singleton]; omega)]
        simp

/-- The functional description on a frame of well-formed units that does not
fit the buffer: the call ends with `oversized`, and the unread input is
zero-free up to the delimiter that ends the frame. -/
theorem decode_run_code_units_oversized (M : Nat) (tl : List Byte) :
    ∀ us : List (Byte × List Byte), us ≠ [] → (∀ u ∈ us, unit_ok u) →
      ∀ acc : List Byte, acc.length ≤ M → M < acc.length + (units_frame us).length →
        ∃ y, (∀ b ∈ y, b ≠ 0) ∧
          decode_run_code M acc (units_stream us ++ frame_delim :: tl)
            = (frame_exit.error decode_error.oversized, y ++ frame_delim :: tl) := by
  intro us
  induction us with
  | nil => intro h; exact absurd rfl h
  | cons u rest ih =>
    intro _ hok acc hacc hover
    obtain ⟨c, d⟩ := u
    obtain ⟨h1, h2, h3, h4⟩ := hok (c, d) (List.mem_cons_self _ _)
    simp only at h1 h2 h3 h4
    have hok2 : ∀ x ∈ rest, unit_ok x := fun x hx => hok x (List.mem_cons_of_mem _ hx)
    have hzrest := units_stream_ne_zero rest hok2
    have hstream : units_stream ((c, d) :: rest) ++ frame_delim :: tl
        = c :: (d ++ (units_stream rest ++ frame_delim :: tl)) := by
      simp [units_stream]
    rw [hstream, decode_run_code_unit M acc c _ h1]
    have hk : c.val - 1 = d.length + 0 := by omega
    rw [hk]
    by_cases hfit : acc.length + d.length ≤ M
    · rw [decode_run_data_copy M _ c.val 0 d acc h4 hfit]
      cases rest with
      | nil =>
        simp only [units_frame] at hover
        omega
      | cons u2 rest2 =>
        obtain ⟨X, hX, hne⟩ := units_stream_cons_head u2 rest2
          (hok2 u2 (List.mem_cons_self _ _)) (frame_delim :: tl)
        simp only [units_frame, List.length_append] at hover
        rw [hX, decode_run_data_next_unit M c.val (acc ++ d) u2.1 X hne, ← hX]
        by_cases hc : 255 ≤ c.val
        · have hnot : ¬ (c.val < 255) := by omega
          simp only [hc, if_true, hnot, if_false, List.length_nil] at hover ⊢
          exact ih (by simp) hok2 (acc ++ d) (by simp only [List.length_append]; omega)
            (by simp only [List.length_append]; omega)
        · have hlt : c.val < 255 := by omega
          simp only [hc, if_false, hlt, if_true, List.length_singleton] at hover ⊢
          by_cases hfull : M ≤ (acc ++ d).length
          · simp only [hfull, if_true]
            exact ⟨units_stream (u2 :: rest2), hzrest, rfl⟩
          · simp only [hfull, if_false]
            simp only [List.length_append] at hfull
            exact ih (by simp) hok2 (acc ++ d ++ [0])
              (by simp only [List.length_append, List.length_singleton]; omega)
              (by simp only [List.length_append, List.length_singleton]; omega)
    · obtain ⟨y, hy, hrun⟩ := decode_run_data_copy_oversized M
        (units_stream rest ++ frame_delim :: tl) c.val 0 d acc h4 hacc (by omega)
      refine ⟨y ++ units_stream rest, ?_, ?_⟩
      · intro b hb
        rcases List.mem_append.mp hb with h | h
        · exact hy b h
        · exact hzrest b h
      · rw [hrun]
        simp

/-- The reference encoding of a frame is a stream of well-formed units whose
frame is the frame encoded. -/
theorem enc_as_units : ∀ (n : Nat) (B : List Byte), B.length ≤ n →
    ∃ us : List (Byte × List Byte), us ≠ [] ∧ (∀ u ∈ us, unit_ok u) ∧
      enc B = units_stream us ∧ units_frame us = B := by
  intro n
  induction n using Nat.strong_induction_on with
  | _ n ih =>
    intro B hB
    have hle := zero_free_run_length_le 254 B
    have hnz := zero_free_run_ne_zero 254 B
    have hcv := size_to_byte_val ((zero_free_run 254 B).length + 1) (by omega)
    have hunit : unit_ok (size_to_byte ((zero_free_run 254 B).length + 1),
        zero_free_run 254 B) :=
      ⟨by simp only [hcv]; omega, by simp only [hcv]; omega, by simp only [hcv]; omega, hnz⟩
    by_cases hw : zero_free_run 254 B = B
    · refine ⟨[(size_to_byte ((zero_free_run 254 B).length + 1), zero_free_run 254 B)],
        by simp, ?_, ?_, ?_⟩
      · intro u hu
        rw [List.mem_singleton] at hu
        rw [hu]
        exact hunit
      · rw [enc_of_whole B hw]
        simp [units_stream]
      · simp [units_frame, hw]
    · have hB1 := zero_free_run_ne_nil_of_ne B hw
      have hsplit := zero_free_run_append_drop 254 B
      by_cases hfull : (zero_free_run 254 B).length = 254
      · obtain ⟨us, h1, h2, h3, h4⟩ :=
          ih (B.length - 254) (by omega) (B.drop 254) (by rw [List.length_drop])
        refine ⟨(size_to_byte ((zero_free_run 254 B).length + 1), zero_free_run 254 B) :: us,
          by simp, ?_, ?_, ?_⟩
        · intro u hu
          rcases List.mem_cons.mp hu with h | h
          · rw [h]
            exact hunit
          · exact h2 u h
        · rw [enc_of_full B hw hfull, h3, hfull]
          simp [units_stream, size_to_byte]
        · cases us with
          | nil => exact absurd rfl h1
          | cons u2 rest2 =>
            have hnot : ¬ ((size_to_byte ((zero_free_run 254 B).length + 1)).val < 255) := by
              rw [hcv]; omega
            simp only [units_frame, hnot, if_false, List.append_nil]
            rw [h4]
            rw [hfull] at hsplit
            exact hsplit
      · have hlt : (zero_free_run 254 B).length < 254 := by omega
        have hnext := zero_free_run_next_zero 254 B hw hlt
        rw [hnext] at hsplit
        have hlenB : (zero_free_run 254 B).length + 1 ≤ B.length := by
          have h := congrArg List.length hsplit
          simp at h
          omega
        obtain ⟨us, h1, h2, h3, h4⟩ :=
          ih (B.length - ((zero_free_run 254 B).length + 1)) (by omega)
            (B.drop ((zero_free_run 254 B).length + 1)) (by rw [List.length_drop])
        refine ⟨(size_to_byte ((zero_free_run 254 B).length + 1), zero_free_run 254 B) :: us,
          by simp, ?_, ?_, ?_⟩
        · intro u hu
          rcases List.mem_cons.mp hu with h | h
          · rw [h]
            exact hunit
          · exact h2 u h
        · rw [enc_of_zero B hw hfull, h3]
          simp [units_stream]
        · cases us with
          | nil => exact absurd rfl h1
          | cons u2 rest2 =>
            have hlt2 : (size_to_byte ((zero_free_run 254 B).length + 1)).val < 255 := by
              rw [hcv]; omega
            simp only [units_frame, hlt2, if_true]
            rw [h4]
            simpa using hsplit

/-- The functional description on an encoded frame followed by its delimiter:
the frame when it fits the buffer, `oversized` otherwise, and in both cases the
next call starts right after the delimiter. -/
theorem decode_outcomes_enc (M : Nat) (B tl : List Byte) :
    decode_outcomes M (enc B ++ frame_delim :: tl).length (enc B ++ frame_delim :: tl)
      = (if B.length ≤ M then value_type.frame B
          else value_type.unexpected decode_error.oversized)
        :: decode_outcomes M tl.length tl := by
  obtain ⟨us, h1, h2, h3, h4⟩ := enc_as_units B.length B (le_refl _)
  rw [h3]
  by_cases hfit : B.length ≤ M
  · have hx := decode_run_code_units M tl us h1 h2 [] (by rw [h4]; simpa using hfit)
    rw [decode_outcomes_complete M _ _ _ hx, h4]
    simp [hfit]
  · obtain ⟨y, hy, hx⟩ := decode_run_code_units_oversized M tl us h1 h2 [] (Nat.zero_le _)
      (by rw [h4]; simp; omega)
    rw [decode_outcomes_error M _ _ _ hx, skip_input_zero_free y tl hy]
    simp [hfit]

theorem decode_outcomes_encode_frames (M : Nat) : ∀ fs : List (List Byte),
    decode_outcomes M (encode_frames fs true).length (encode_frames fs true)
      = fs.map (fun F => if F.length ≤ M then value_type.frame F
          else value_type.unexpected decode_error.oversized) := by
  intro fs
  induction fs with
  | nil => rfl
  | cons F rest ih =>
    have h : encode_frames (F :: rest) true
        = enc F ++ frame_delim :: encode_frames rest true := by
      simp [encode_frames]
    rw [h, decode_outcomes_enc M F (encode_frames rest true), ih]
    rfl

/-! ## Further claims -/

theorem enc_zeros : ∀ N : Nat, enc (List.replicate N (0 : Byte)) = List.replicate (N + 1) 1 := by
  intro N
  induction N with
  | zero =>
    rw [List.replicate_zero, enc_of_whole [] (zero_free_run_nil 254), zero_free_run_nil]
    rfl
  | succ N ih =>
    have hrun : zero_free_run 254 (List.replicate (N + 1) (0 : Byte)) = [] := by
      rw [List.replicate_succ, zero_free_run_cons_zero]
    have hne : zero_free_run 254 (List.replicate (N + 1) (0 : Byte))
        ≠ List.replicate (N + 1) (0 : Byte) := by
      rw [hrun, List.replicate_succ]
      simp
    rw [enc_of_zero _ hne (by rw [hrun]; simp), hrun]
    simp only [List.length_nil, Nat.zero_add, List.nil_append]
    rw [List.replicate_succ, List.drop_one, List.tail_cons, ih]
    rfl

theorem enc_single_nonzero (b : Byte) (hb : b ≠ 0) : enc [b] = [0x02, b] := by
  have hx1 : zero_free_run 254 [b] = [b] :=
    zero_free_run_of_zero_free 254 [b] (by simpa using hb) (by simp)
  rw [enc_of_whole [b] hx1, hx1]
  simp [size_to_byte]

theorem flatten_replicate_singleton (b : Byte) : ∀ n : Nat,
    (List.replicate n [b]).flatten = List.replicate n b := by
  intro n
  induction n with
  | zero => rfl
  | succ n ih => simp [List.replicate_succ, ih]

/-- C11, as stated, fails: the frame of one zero byte (`N = 1`) is encoded as two
bytes `0x01`, not one. -/
theorem C11_one_zero_gives_two_units :
    encode [[0x00]] false = some [0x01, 0x01] ∧ encode [[0x00]] false ≠ some [0x01] := by
  decide

/-- C11, amended. All-delimiter frame: for every `N ≥ 1`, encoding a frame of
`N` bytes `0x00` without trailing delimiter produces exactly `N + 1` consecutive
code-1 units, each the single byte `0x01`. -/
theorem C11_all_delimiter_frame_units (N : Nat) (hN : 1 ≤ N) :
    ∃ units : List (List Byte), units.length = N + 1 ∧ (∀ u ∈ units, u = [0x01]) ∧
      encode [List.replicate N (0x00 : Byte)] false = some units.flatten := by
  obtain ⟨k, rfl⟩ : ∃ k, N = k + 1 := ⟨N - 1, by omega⟩
  refine ⟨List.replicate (k + 1 + 1) [0x01], List.length_replicate _ _,
    fun u hu => List.eq_of_mem_replicate hu, ?_⟩
  rw [encode_eq_encode_frames, encode_frames_single, enc_zeros, flatten_replicate_singleton]
  simp

theorem C11_all_delimiter_frame_units_witness :
    1 ≤ 3 ∧
    ∃ units : List (List Byte), units.length = 3 + 1 ∧ (∀ u ∈ units, u = [0x01]) ∧
      encode [List.replicate 3 (0x00 : Byte)] false = some units.flatten :=
  ⟨by decide, C11_all_delimiter_frame_units 3 (by decide)⟩

/-- C12. All-delimiter frame: for every `N ≥ 0`, encoding a frame of `N` bytes
`0x00` without trailing delimiter produces exactly `N + 1` bytes, each `0x01`;
`[0x00]` gives `[0x01, 0x01]` and `[0x00, 0x00]` gives `[0x01, 0x01, 0x01]`. -/
theorem C12_all_delimiter_frame_bytes :
    (∀ N : Nat, ∃ out, encode [List.replicate N (0x00 : Byte)] false = some out ∧
      out.length = N + 1 ∧ ∀ b ∈ out, b = 0x01) ∧
    encode [[0x00]] false = some [0x01, 0x01] ∧
    encode [[0x00, 0x00]] false = some [0x01, 0x01, 0x01] := by
  refine ⟨?_, by decide, by decide⟩
  intro N
  refine ⟨List.replicate (N + 1) 1, ?_, List.length_replicate _ _,
    fun b hb => List.eq_of_mem_replicate hb⟩
  rw [encode_eq_encode_frames, encode_frames_single, enc_zeros]
  simp

/-- C13. Input-shape adapters: for every flag, encoding a flat byte sequence
through the adapter is encoding the one-element frame list, and encoding a
single byte is encoding the frame list of that one byte; without trailing
delimiter a non-zero byte `b` gives `[0x02, b]` and the zero byte gives
`[0x01, 0x01]`. -/
theorem C13_input_shape_adapters :
    (∀ (f : Bool) (B : List Byte), adapters_encode_range f B = adapters_encode_frames f [B]) ∧
    (∀ (f : Bool) (b : Byte), adapters_encode_byte f b = adapters_encode_frames f [[b]]) ∧
    (∀ b : Byte, b ≠ 0 → adapters_encode_byte false b = some [0x02, b]) ∧
    adapters_encode_byte false 0x00 = some [0x01, 0x01] := by
  refine ⟨fun _ _ => rfl, fun _ _ => rfl, ?_, by decide⟩
  intro b hb
  show encode [[b]] false = some [0x02, b]
  rw [encode_eq_encode_frames, encode_frames_single, enc_single_nonzero b hb]
  simp

/-- C14. The decoder on any conforming frame: for every non-empty list of units
`(c, d)` with `1 ≤ c ≤ 255`, `|d| = c - 1` and `d` zero-free, and every limit `M`
of at least the length of the result, decoding the stream of the units followed
by `0x00` yields exactly one outcome, the successful frame made of the data of
the units with one zero byte after each unit of code below 255 except the
last. -/
theorem C14_decode_conforming_frame (M : Nat) (units : List (Byte × List Byte))
    (hne : units ≠ [])
    (hok : ∀ u ∈ units, 1 ≤ u.1.val ∧ u.1.val ≤ 255 ∧ u.2.length = u.1.val - 1 ∧
      ∀ b ∈ u.2, b ≠ 0)
    (hM : (units_frame units).length ≤ M) :
    decode M (units_stream units ++ [0x00]) = some [value_type.frame (units_frame units)] := by
  have hx := decode_run_code_units M [] units hne hok [] (by simpa using hM)
  rw [decode_eq_outcomes]
  have h := decode_outcomes_complete M _ _ _ hx
  simp only [frame_delim] at h
  rw [h]
  rfl

theorem C14_decode_conforming_frame_witness :
    ([(0x03, [0x11, 0x22]), (0x02, [0x33])] : List (Byte × List Byte)) ≠ [] ∧
    (∀ u ∈ ([(0x03, [0x11, 0x22]), (0x02, [0x33])] : List (Byte × List Byte)),
      1 ≤ u.1.val ∧ u.1.val ≤ 255 ∧ u.2.length = u.1.val - 1 ∧ ∀ b ∈ u.2, b ≠ 0) ∧
    (units_frame [(0x03, [0x11, 0x22]), (0x02, [0x33])]).length ≤ 4 ∧
    decode 4 (units_stream [(0x03, [0x11, 0x22]), (0x02, [0x33])] ++ [0x00])
      = some [value_type.frame (units_frame [(0x03, [0x11, 0x22]), (0x02, [0x33])])] := by
  have hok : ∀ u ∈ ([(0x03, [0x11, 0x22]), (0x02, [0x33])] : List (Byte × List Byte)),
      1 ≤ u.1.val ∧ u.1.val ≤ 255 ∧ u.2.length = u.1.val - 1 ∧ ∀ b ∈ u.2, b ≠ 0 := by
    intro u hu
    simp only [List.mem_cons, List.mem_singleton, List.not_mem_nil, or_false] at hu
    rcases hu with rfl | rfl
    · exact ⟨by decide, Nat.le_of_lt_succ (Fin.isLt _), by decide, by simp⟩
    · exact ⟨by decide, Nat.le_of_lt_succ (Fin.isLt _), by decide, by simp⟩
  exact ⟨by decide, hok, by decide,
    C14_decode_conforming_frame 4 [(0x03, [0x11, 0x22]), (0x02, [0x33])]
      (by decide) hok (by decide)⟩

/-- C15. Oversized enforcement: for every `MaxFrameSize` `M` and every byte
sequence `B` longer than `M`, decoding with limit `M` the encoding of the single
frame `B` with trailing delimiter yields exactly one outcome, the error
`oversized`. -/
theorem C15_oversized_enforcement (M : Nat) (B : List Byte) (hB : M < B.length) :
    ∃ out, encode [B] true = some out ∧
      decode M out = some [value_type.unexpected decode_error.oversized] := by
  refine ⟨encode_frames [B] true, encode_eq_encode_frames [B] true, ?_⟩
  rw [decode_eq_outcomes, decode_outcomes_encode_frames]
  have hnot : ¬ (B.length ≤ M) := by omega
  simp [hnot]

theorem C15_oversized_enforcement_witness :
    2 < ([0x11, 0x00, 0x22] : List Byte).length ∧
    ∃ out, encode [[0x11, 0x00, 0x22]] true = some out ∧
      decode 2 out = some [value_type.unexpected decode_error.oversized] :=
  ⟨by decide, C15_oversized_enforcement 2 [0x11, 0x00, 0x22] (by decide)⟩

/-- C16. Oversized aborts the current frame only: for every `MaxFrameSize` `M`
and every list of frames, decoding with limit `M` the encoding of the list with
trailing delimiter yields exactly one outcome per frame, in order: the frame
itself when its length is at most `M`, the error `oversized` otherwise. -/
theorem C16_oversized_isolated (M : Nat) (Fs : List (List Byte)) :
    ∃ out, encode Fs true = some out ∧
      decode M out
        = some (Fs.map (fun F => if F.length ≤ M then value_type.frame F
            else value_type.unexpected decode_error.oversized)) := by
  refine ⟨encode_frames Fs true, encode_eq_encode_frames Fs true, ?_⟩
  rw [decode_eq_outcomes, decode_outcomes_encode_frames]

/-- The functional description on a truncated unit. -/
theorem decode_run_code_truncated (M : Nat) (N : Byte) (d : List Byte) (hN : 1 ≤ N.val)
    (hz : ∀ b ∈ d, b ≠ 0) (hd : d.length ≤ M)
    (h : d.length < N.val - 1 ∨ (d.length = N.val - 1 ∧ N.val < 255)) :
    decode_run_code M [] (N :: d) = (frame_exit.error decode_error.incomplete, []) := by
  rw [decode_run_code_unit M [] N d hN]
  rcases h with h | ⟨h1, h2⟩
  · obtain ⟨j, hj⟩ : ∃ j, N.val - 1 = d.length + (j + 1) :=
      ⟨N.val - 1 - d.length - 1, by omega⟩
    have hcopy := decode_run_data_copy M [] N.val (j + 1) d [] hz (by simpa using hd)
    rw [List.append_nil] at hcopy
    rw [hj, hcopy]
    simp [decode_run_data]
  · have hcopy := decode_run_data_copy M [] N.val 0 d [] hz (by simpa using hd)
    rw [List.append_nil] at hcopy
    have hnot : ¬ (255 ≤ N.val) := by omega
    simp only [Nat.add_zero] at hcopy
    rw [← h1, hcopy]
    simp [decode_run_data, hnot]

/-- C17. A truncated unit is incomplete: for every `MaxFrameSize` `M`, every code
byte `N` with `1 ≤ N ≤ 255` and every zero-free `d` with `|d| ≤ M` that is
shorter than `N - 1`, or of length `N - 1` with `N < 255`, decoding the stream
`[N] ++ d` yields exactly one outcome, the error `incomplete`; in particular
decoding any single non-zero byte does. -/
theorem C17_truncated_unit_incomplete (M : Nat) (N : Byte) (d : List Byte)
    (hN : 1 ≤ N.val ∧ N.val ≤ 255) (hz : ∀ b ∈ d, b ≠ 0) (hd : d.length ≤ M)
    (h : d.length < N.val - 1 ∨ (d.length = N.val - 1 ∧ N.val < 255)) :
    decode M (N :: d) = some [value_type.unexpected decode_error.incomplete] ∧
    ∀ b : Byte, b ≠ 0 →
      decode M [b] = some [value_type.unexpected decode_error.incomplete] := by
  constructor
  · rw [decode_eq_outcomes,
      decode_outcomes_error M _ _ _ (decode_run_code_truncated M N d hN.1 hz hd h)]
    rfl
  · intro b hb
    have hb1 : 1 ≤ b.val := by
      rcases Nat.eq_zero_or_pos b.val with h0 | h0
      · exact absurd (Fin.ext h0) hb
      · exact h0
    have hcase : ([] : List Byte).length < b.val - 1
        ∨ (([] : List Byte).length = b.val - 1 ∧ b.val < 255) := by
      simp only [List.length_nil]
      omega
    rw [decode_eq_outcomes,
      decode_outcomes_error M _ _ _
        (decode_run_code_truncated M b [] hb1 (by simp) (Nat.zero_le _) hcase)]
    rfl

theorem C17_truncated_unit_incomplete_witness :
    (1 ≤ (0x04 : Byte).val ∧ (0x04 : Byte).val ≤ 255) ∧
    (∀ b ∈ ([0x11, 0x22] : List Byte), b ≠ 0) ∧
    ([0x11, 0x22] : List Byte).length ≤ 2 ∧
    (([0x11, 0x22] : List Byte).length < (0x04 : Byte).val - 1
      ∨ (([0x11, 0x22] : List Byte).length = (0x04 : Byte).val - 1
          ∧ (0x04 : Byte).val < 255)) ∧
    decode 2 [0x04, 0x11, 0x22] = some [value_type.unexpected decode_error.incomplete] ∧
    ∀ b : Byte, b ≠ 0 →
      decode 2 [b] = some [value_type.unexpected decode_error.incomplete] :=
  ⟨⟨by decide, Nat.le_of_lt_succ (Fin.isLt _)⟩, by simp, by decide, Or.inl (by decide),
   C17_truncated_unit_incomplete 2 0x04 [0x11, 0x22]
     ⟨by decide, Nat.le_of_lt_succ (Fin.isLt _)⟩ (by simp) (by decide) (Or.inl (by decide))⟩

/-- A stream that ends right after a full run of 254 bytes: `decode_next_frame`
reaches the end of the input in `wait_for_code` and the decoder yields no
outcome at all. -/
theorem decode_rollover_then_end (M : Nat) (D : List Byte) (hlen : D.length = 254)
    (hz : ∀ b ∈ D, b ≠ 0) (hM : 254 ≤ M) : decode M (0xFF :: D) = some [] := by
  have hx : decode_run_code M [] (0xFF :: D) = (frame_exit.finished, []) := by
    rw [decode_run_code_unit M [] 0xFF D (by decide)]
    have hcopy := decode_run_data_copy M [] 255 0 D [] hz (by simp; omega)
    rw [List.append_nil, hlen] at hcopy
    have hv : (0xFF : Byte).val = 255 := rfl
    rw [hv]
    exact hcopy.trans (by simp [decode_run_data])
  rw [decode_eq_outcomes, decode_outcomes_finished M _ _ hx]

/-- C18, the code at the failing input: decoding `[0xFF]` followed by 254 bytes
`0x01` with `MaxFrameSize` 254 yields no outcome, not an `incomplete` error. -/
theorem C18_rollover_then_end_yields_nothing :
    decode 254 (0xFF :: List.replicate 254 (0x01 : Byte)) = some [] :=
  decode_rollover_then_end 254 (List.replicate 254 0x01) (List.length_replicate _ _)
    (fun b hb => by rw [List.eq_of_mem_replicate hb]; decide) (le_refl _)

/-- C19, as stated, fails when the copied bytes fill the buffer exactly: with
`MaxFrameSize` 2, code byte 4 and the two data bytes `[0x01, 0x02]`, the
delimiter that follows is met with the buffer full, and the outcome is
`oversized`, not `invalid`. -/
theorem C19_full_buffer_reports_oversized :
    decode 2 [0x04, 0x01, 0x02, 0x00] = some [value_type.unexpected decode_error.oversized] := by
  decide

/-- C19, amended. A delimiter inside a declared run is invalid: for every
`MaxFrameSize` `M`, every code byte `N` with `2 ≤ N ≤ 255`, every zero-free `d`
with `|d| < N - 1` and `|d| < M`, and every continuation `r`, the first outcome of
decoding `[N] ++ d ++ [0x00] ++ r` is the error `invalid`, and the outcomes that
follow are those of decoding `r`. -/
theorem C19_delimiter_inside_run_invalid (M : Nat) (N : Byte) (d r : List Byte)
    (hN : 2 ≤ N.val ∧ N.val ≤ 255) (hz : ∀ b ∈ d, b ≠ 0)
    (h1 : d.length < N.val - 1) (h2 : d.length < M) :
    ∃ outs, decode M r = some outs ∧
      decode M (N :: d ++ 0x00 :: r)
        = some (value_type.unexpected decode_error.invalid_cobs :: outs) := by
  refine ⟨decode_outcomes M r.length r, decode_eq_outcomes M r, ?_⟩
  have hx : decode_run_code M [] (N :: d ++ 0x00 :: r)
      = (frame_exit.error decode_error.invalid_cobs, 0x00 :: r) := by
    rw [List.cons_append, decode_run_code_unit M [] N _ (by omega)]
    obtain ⟨j, hj⟩ : ∃ j, N.val - 1 = d.length + (j + 1) :=
      ⟨N.val - 1 - d.length - 1, by omega⟩
    rw [hj, decode_run_data_copy M _ N.val (j + 1) d [] hz (by simp; omega)]
    have hroom : ¬ (M ≤ d.length) := by omega
    simp [decode_run_data, hroom, frame_delim]
  rw [decode_eq_outcomes, decode_outcomes_error M _ _ _ hx]
  simp [skip_input, to_byte, frame_delim]

theorem C19_delimiter_inside_run_invalid_witness :
    (2 ≤ (0x04 : Byte).val ∧ (0x04 : Byte).val ≤ 255) ∧
    (∀ b ∈ ([0x01, 0x02] : List Byte), b ≠ 0) ∧
    ([0x01, 0x02] : List Byte).length < (0x04 : Byte).val - 1 ∧
    ([0x01, 0x02] : List Byte).length < 3 ∧
    ∃ outs, decode 3 [0x02, 0x33, 0x00] = some outs ∧
      decode 3 (0x04 :: [0x01, 0x02] ++ 0x00 :: [0x02, 0x33, 0x00])
        = some (value_type.unexpected decode_error.invalid_cobs :: outs) :=
  ⟨⟨by decide, Nat.le_of_lt_succ (Fin.isLt _)⟩, by simp, by decide, by decide,
   C19_delimiter_inside_run_invalid 3 0x04 [0x01, 0x02] [0x02, 0x33, 0x00]
     ⟨by decide, Nat.le_of_lt_succ (Fin.isLt _)⟩ (by simp) (by decide) (by decide)⟩

/-- C20, as stated, fails: a stream whose first byte is `0x00` (default
`MaxFrameSize` 4096) yields a successful empty frame for it, not the error
`invalid`. -/
theorem C20_zero_at_code_position_is_a_frame :
    decode 4096 [0x00] = some [value_type.frame []] := by
  decide

/-- C20, amended. A byte `0x00` where a code byte is expected completes the
frame: `process_wait_for_code` consumes it and goes to `frame_complete`, never
to the error state; and when it is the first byte read by the constructor or by
`operator++` (the first byte of a stream, or the first byte after a frame
boundary), the outcome is a successful empty frame and decoding goes on with the
next byte. -/
theorem C20_delimiter_at_code_position (M : Nat) (s : DecodeIterator) (rest : List Byte)
    (hin : s.input_ = frame_delim :: rest) (hbl : s.frame_buffer_.length = M) :
    process_wait_for_code s = (decode_state.frame_complete, { s with input_ := rest }) ∧
    ∃ it, decode_advance M s = some it ∧ it.deref = value_type.frame [] ∧
      it.at_end = false ∧ it.input_ = rest := by
  refine ⟨process_wait_for_code_delim s rest hin, ?_⟩
  obtain ⟨it, hadv, h1, _, h3, _, h5⟩ := decode_advance_complete M s [] rest hbl
    (by rw [hin]; simp [decode_run_code])
  exact ⟨it, hadv, h5, by simpa [DecodeIterator.at_end] using h3, h1⟩

theorem C20_delimiter_at_code_position_witness :
    (DecodeIterator.mk [0x00, 0x02, 0x11, 0x00] [0, 0] 0 none false false
      decode_state.wait_for_code 0 0).input_ = frame_delim :: [0x02, 0x11, 0x00] ∧
    (DecodeIterator.mk [0x00, 0x02, 0x11, 0x00] [0, 0] 0 none false false
      decode_state.wait_for_code 0 0).frame_buffer_.length = 2 ∧
    process_wait_for_code
        (DecodeIterator.mk [0x00, 0x02, 0x11, 0x00] [0, 0] 0 none false false
          decode_state.wait_for_code 0 0)
      = (decode_state.frame_complete,
          { DecodeIterator.mk [0x00, 0x02, 0x11, 0x00] [0, 0] 0 none false false
              decode_state.wait_for_code 0 0 with input_ := [0x02, 0x11, 0x00] }) ∧
    ∃ it, decode_advance 2
        (DecodeIterator.mk [0x00, 0x02, 0x11, 0x00] [0, 0] 0 none false false
          decode_state.wait_for_code 0 0) = some it ∧
      it.deref = value_type.frame [] ∧ it.at_end = false ∧ it.input_ = [0x02, 0x11, 0x00] :=
  ⟨rfl, rfl,
   C20_delimiter_at_code_position 2
     (DecodeIterator.mk [0x00, 0x02, 0x11, 0x00] [0, 0] 0 none false false
       decode_state.wait_for_code 0 0) [0x02, 0x11, 0x00] rfl rfl⟩

/-! ## Resynchronisation, delimiter count and termination of the decoder -/

theorem decode_nil (M : Nat) : decode M [] = some [] := by
  rw [decode_eq_outcomes]
  rfl

theorem decode_cons_delim (M : Nat) (s : List Byte) :
    decode M (frame_delim :: s)
      = some (value_type.frame [] :: decode_outcomes M s.length s) := by
  have hx : decode_run_code M [] (frame_delim :: s) = (frame_exit.complete [], s) := by
    simp [decode_run_code]
  rw [decode_eq_outcomes, decode_outcomes_complete M _ _ _ hx]

/-- C21. Invalid-code example generalised: for every byte `c` with
`2 ≤ c ≤ 255` and every `MaxFrameSize` of at least 1, the outcomes of decoding
`[0x00, c, 0x00]` are the empty frame followed by the error `invalid`; so they
include an error outcome, and every error outcome among them is `invalid`. -/
theorem C21_invalid_code_example (M : Nat) (c : Byte) (hM : 1 ≤ M)
    (hc : 2 ≤ c.val ∧ c.val ≤ 255) :
    ∃ outs, decode M [0x00, c, 0x00] = some outs ∧
      outs = [value_type.frame [], value_type.unexpected decode_error.invalid_cobs] ∧
      (∃ e, value_type.unexpected e ∈ outs) ∧
      ∀ e, value_type.unexpected e ∈ outs → e = decode_error.invalid_cobs := by
  have hx : decode_run_code M [] [c, 0x00]
      = (frame_exit.error decode_error.invalid_cobs, [0x00]) := by
    rw [decode_run_code_unit M [] c _ (by omega)]
    obtain ⟨j, hj⟩ : ∃ j, c.val - 1 = j + 1 := ⟨c.val - 2, by omega⟩
    have hroom : ¬ (M ≤ 0) := by omega
    rw [hj]
    simp [decode_run_data, hroom, frame_delim]
  have htail : decode_outcomes M ([c, 0x00] : List Byte).length [c, 0x00]
      = [value_type.unexpected decode_error.invalid_cobs] := by
    rw [decode_outcomes_error M _ _ _ hx]
    simp [skip_input, to_byte, frame_delim, decode_outcomes]
  refine ⟨_, decode_cons_delim M [c, 0x00], ?_, ?_, ?_⟩
  · rw [htail]
  · exact ⟨decode_error.invalid_cobs, by rw [htail]; simp⟩
  · intro e he
    rw [htail] at he
    simpa using he

theorem C21_invalid_code_example_witness :
    1 ≤ 4096 ∧ (2 ≤ (0x11 : Byte).val ∧ (0x11 : Byte).val ≤ 255) ∧
    ∃ outs, decode 4096 [0x00, 0x11, 0x00] = some outs ∧
      outs = [value_type.frame [], value_type.unexpected decode_error.invalid_cobs] ∧
      (∃ e, value_type.unexpected e ∈ outs) ∧
      ∀ e, value_type.unexpected e ∈ outs → e = decode_error.invalid_cobs :=
  ⟨by decide, ⟨by decide, Nat.le_of_lt_succ (Fin.isLt _)⟩,
   C21_invalid_code_example 4096 0x11 (by decide)
     ⟨by decide, Nat.le_of_lt_succ (Fin.isLt _)⟩⟩

/-- C22. A bare delimiter is an empty frame: for every `MaxFrameSize` and every
byte stream `s`, decoding `[0x00] ++ s` yields a successful empty frame followed
by exactly the outcomes of decoding `s`; the stream
`[0x00, 0x03, 0xAA, 0xBB, 0x00]` yields exactly an empty frame and then the frame
`[0xAA, 0xBB]`. -/
theorem C22_bare_delimiter_empty_frame :
    (∀ (M : Nat) (s : List Byte), ∃ outs, decode M s = some outs ∧
      decode M ([0x00] ++ s) = some (value_type.frame [] :: outs)) ∧
    decode 4096 [0x00, 0x03, 0xAA, 0xBB, 0x00]
      = some [value_type.frame [], value_type.frame [0xAA, 0xBB]] := by
  refine ⟨?_, by decide⟩
  intro M s
  exact ⟨decode_outcomes M s.length s, decode_eq_outcomes M s, decode_cons_delim M s⟩

/-- On an input that ends with a delimiter, `decode_next_frame` from
`read_data_bytes` ends with a frame or an error, never at the end of the input;
what it leaves unread is empty or ends with that delimiter (after an error it is
never empty); and bytes appended to the input are left unread and do not change
the exit. -/
theorem decode_run_data_append (M : Nat) (s2 : List Byte) :
    ∀ (u : List Byte) (code k : Nat) (acc : List Byte),
      ∃ e r, decode_run_data M (u ++ [0]) code k acc = (e, r) ∧
        decode_run_data M (u ++ [0] ++ s2) code k acc = (e, r ++ s2) ∧
        ((∃ a, e = frame_exit.complete a ∧ (r = [] ∨ ∃ w, r = w ++ [0])) ∨
         (∃ err, e = frame_exit.error err ∧ ∃ w, r = w ++ [0])) := by
  intro u
  induction u with
  | nil =>
    intro code k acc
    cases k with
    | zero =>
      exact ⟨frame_exit.complete acc, [], by simp [decode_run_data, frame_delim],
        by simp [decode_run_data, frame_delim], Or.inl ⟨acc, rfl, Or.inl rfl⟩⟩
    | succ k =>
      by_cases hfull : M ≤ acc.length
      · exact ⟨frame_exit.error decode_error.oversized, [0],
          by simp [decode_run_data, hfull], by simp [decode_run_data, hfull],
          Or.inr ⟨_, rfl, [], rfl⟩⟩
      · exact ⟨frame_exit.error decode_error.invalid_cobs, [0],
          by simp [decode_run_data, hfull, frame_delim],
          by simp [decode_run_data, hfull, frame_delim],
          Or.inr ⟨_, rfl, [], rfl⟩⟩
  | cons b t ih =>
    intro code k acc
    simp only [List.cons_append]
    cases k with
    | zero =>
      by_cases hb : b = frame_delim
      · exact ⟨frame_exit.complete acc, t ++ [0], by simp [decode_run_data, hb],
          by simp [decode_run_data, hb], Or.inl ⟨acc, rfl, Or.inr ⟨t, rfl⟩⟩⟩
      · by_cases hc : 255 ≤ code
        · obtain ⟨e, r, h1, h2, h3⟩ := ih b.val (b.val - 1) acc
          exact ⟨e, r, by simp [decode_run_data, hb, hc, h1],
            by simp only [decode_run_data, hb, hc, if_false, if_true]; exact h2, h3⟩
        · by_cases hfull : M ≤ acc.length
          · exact ⟨frame_exit.error decode_error.oversized, b :: (t ++ [0]),
              by simp [decode_run_data, hb, hc, hfull],
              by simp [decode_run_data, hb, hc, hfull],
              Or.inr ⟨_, rfl, b :: t, by simp⟩⟩
          · obtain ⟨e, r, h1, h2, h3⟩ := ih b.val (b.val - 1) (acc ++ [0])
            exact ⟨e, r, by simp [decode_run_data, hb, hc, hfull, h1],
              by simp only [decode_run_data, hb, hc, hfull, if_false]; exact h2, h3⟩
    | succ k =>
      by_cases hfull : M ≤ acc.length
      · exact ⟨frame_exit.error decode_error.oversized, b :: (t ++ [0]),
          by simp [decode_run_data, hfull], by simp [decode_run_data, hfull],
          Or.inr ⟨_, rfl, b :: t, by simp⟩⟩
      · by_cases hb : b = frame_delim
        · exact ⟨frame_exit.error decode_error.invalid_cobs, b :: (t ++ [0]),
            by simp [decode_run_data, hfull, hb], by simp [decode_run_data, hfull, hb],
            Or.inr ⟨_, rfl, b :: t, by simp⟩⟩
        · obtain ⟨e, r, h1, h2, h3⟩ := ih code k (acc ++ [b])
          exact ⟨e, r, by simp [decode_run_data, hb, hfull, h1],
            by simp only [decode_run_data, hb, hfull, if_false]; exact h2, h3⟩

/-- The same from `wait_for_code`. -/
theorem decode_run_code_append (M : Nat) (s2 : List Byte) (u acc : List Byte) :
    ∃ e r, decode_run_code M acc (u ++ [0]) = (e, r) ∧
      decode_run_code M acc (u ++ [0] ++ s2) = (e, r ++ s2) ∧
      ((∃ a, e = frame_exit.complete a ∧ (r = [] ∨ ∃ w, r = w ++ [0])) ∨
       (∃ err, e = frame_exit.error err ∧ ∃ w, r = w ++ [0])) := by
  cases u with
  | nil =>
    exact ⟨frame_exit.complete acc, [], by simp [decode_run_code, frame_delim],
      by simp [decode_run_code, frame_delim], Or.inl ⟨acc, rfl, Or.inl rfl⟩⟩
  | cons b t =>
    simp only [List.cons_append]
    by_cases hb : b = frame_delim
    · exact ⟨frame_exit.complete acc, t ++ [0], by simp [decode_run_code, hb],
        by simp [decode_run_code, hb], Or.inl ⟨acc, rfl, Or.inr ⟨t, rfl⟩⟩⟩
    · obtain ⟨e, r, h1, h2, h3⟩ := decode_run_data_append M s2 t b.val (b.val - 1) acc
      exact ⟨e, r, by simp [decode_run_code, hb, h1],
        by simp only [decode_run_code, hb, if_false]; exact h2, h3⟩

/-- Skipping to the delimiter on an input that ends with a delimiter stops at or
before that delimiter. -/
theorem skip_input_append (s2 : List Byte) : ∀ w : List Byte,
    skip_input (w ++ [0] ++ s2) = skip_input (w ++ [0]) ++ s2 ∧
    (skip_input (w ++ [0]) = [] ∨ ∃ w2, skip_input (w ++ [0]) = w2 ++ [0]) := by
  intro w
  induction w with
  | nil => simp [skip_input, to_byte, frame_delim]
  | cons b t ih =>
    by_cases hb : b = frame_delim
    · simp [skip_input, to_byte, hb]
    · simp only [List.cons_append, skip_input, to_byte, hb, if_false]
      exact ih

/-- The outcomes of a stream that is empty or ends with a delimiter, followed by
another stream, are the outcomes of the first followed by those of the second. -/
theorem decode_outcomes_append (M : Nat) (s2 : List Byte) :
    ∀ (n : Nat) (s1 : List Byte), s1.length ≤ n → (s1 = [] ∨ ∃ u, s1 = u ++ [0]) →
      decode_outcomes M (s1 ++ s2).length (s1 ++ s2)
        = decode_outcomes M s1.length s1 ++ decode_outcomes M s2.length s2 := by
  intro n
  induction n using Nat.strong_induction_on with
  | _ n ih =>
    intro s1 hn hz
    rcases hz with h | ⟨u, hu⟩
    · subst h
      simp [decode_outcomes]
    · obtain ⟨e, r, h1, h2, h3⟩ := decode_run_code_append M s2 u []
      rw [← hu] at h1 h2
      have hlen : r.length < s1.length := by
        cases hs : s1 with
        | nil =>
          rw [hs] at hu
          simp at hu
        | cons b t =>
          have hl := decode_run_code_length M [] b t
          rw [← hs, h1] at hl
          simp only [List.length_cons]
          exact Nat.lt_succ_of_le hl
      rcases h3 with ⟨a, rfl, hr⟩ | ⟨err, rfl, w, hw⟩
      · rw [decode_outcomes_complete M _ _ _ h1, decode_outcomes_complete M _ _ _ h2,
          ih r.length (by omega) r (le_refl _) hr]
        rfl
      · obtain ⟨hs1, hs2⟩ := skip_input_append s2 w
        rw [← hw] at hs1 hs2
        have hsl := skip_input_length r
        rw [decode_outcomes_error M _ _ _ h1, decode_outcomes_error M _ _ _ h2, hs1,
          ih (skip_input r).length (by omega) (skip_input r) (le_refl _) hs2]
        rfl

/-- C23. Per-frame error isolation and resynchronisation: for every
`MaxFrameSize`, every byte stream `s1` that is empty or whose last byte is `0x00`,
and every byte stream `s2`, the outcomes of decoding `s1 ++ s2` are the outcomes
of decoding `s1` followed by the outcomes of decoding `s2`. -/
theorem C23_resynchronisation (M : Nat) (s1 s2 : List Byte)
    (h : s1 = [] ∨ s1.getLast? = some 0x00) :
    ∃ o1 o2, decode M s1 = some o1 ∧ decode M s2 = some o2 ∧
      decode M (s1 ++ s2) = some (o1 ++ o2) := by
  refine ⟨_, _, decode_eq_outcomes M s1, decode_eq_outcomes M s2, ?_⟩
  rw [decode_eq_outcomes]
  have hz : s1 = [] ∨ ∃ u, s1 = u ++ [0] := by
    rcases h with h | h
    · exact Or.inl h
    · exact Or.inr (List.getLast?_eq_some_iff.mp h)
  rw [decode_outcomes_append M s2 s1.length s1 (le_refl _) hz]

theorem C23_resynchronisation_witness :
    (([0x05, 0x11, 0x00] : List Byte) = [] ∨
      ([0x05, 0x11, 0x00] : List Byte).getLast? = some 0x00) ∧
    ∃ o1 o2, decode 4 [0x05, 0x11, 0x00] = some o1 ∧ decode 4 [0x02, 0x22, 0x00] = some o2 ∧
      decode 4 ([0x05, 0x11, 0x00] ++ [0x02, 0x22, 0x00]) = some (o1 ++ o2) :=
  ⟨Or.inr (by decide), C23_resynchronisation 4 [0x05, 0x11, 0x00] [0x02, 0x22, 0x00]
    (Or.inr (by decide))⟩

theorem skip_input_no_delim : ∀ y : List Byte, (∀ b ∈ y, b ≠ 0) → skip_input y = [] := by
  intro y
  induction y with
  | nil => intro _; rfl
  | cons b t ih =>
    intro hy
    have hb : b ≠ frame_delim := hy b (List.mem_cons_self _ _)
    simp only [skip_input, to_byte, hb, if_false]
    exact ih (fun x hx => hy x (List.mem_cons_of_mem _ hx))

/-- Up to the first delimiter of the input `decode_next_frame` either completes a
frame at that delimiter or ends with an error before or at it. -/
theorem decode_run_data_first_delim (M : Nat) (rest : List Byte) :
    ∀ (y : List Byte), (∀ b ∈ y, b ≠ 0) → ∀ (code k : Nat) (acc : List Byte),
      (∃ a, decode_run_data M (y ++ 0 :: rest) code k acc = (frame_exit.complete a, rest)) ∨
      (∃ err y2, (∀ b ∈ y2, b ≠ 0) ∧
        decode_run_data M (y ++ 0 :: rest) code k acc
          = (frame_exit.error err, y2 ++ 0 :: rest)) := by
  intro y
  induction y with
  | nil =>
    intro _ code k acc
    cases k with
    | zero => exact Or.inl ⟨acc, by simp [decode_run_data, frame_delim]⟩
    | succ k =>
      by_cases hfull : M ≤ acc.length
      · exact Or.inr ⟨decode_error.oversized, [], by simp, by simp [decode_run_data, hfull]⟩
      · exact Or.inr ⟨decode_error.invalid_cobs, [], by simp,
          by simp [decode_run_data, hfull, frame_delim]⟩
  | cons b t ih =>
    intro hy code k acc
    have hb : b ≠ frame_delim := hy b (List.mem_cons_self _ _)
    have ht : ∀ x ∈ t, x ≠ 0 := fun x hx => hy x (List.mem_cons_of_mem _ hx)
    simp only [List.cons_append]
    cases k with
    | zero =>
      by_cases hc : 255 ≤ code
      · simp only [decode_run_data, hb, hc, if_false, if_true]
        exact ih ht _ _ _
      · by_cases hfull : M ≤ acc.length
        · exact Or.inr ⟨decode_error.oversized, b :: t, hy,
            by simp [decode_run_data, hb, hc, hfull]⟩
        · simp only [decode_run_data, hb, hc, hfull, if_false]
          exact ih ht _ _ _
    | succ k =>
      by_cases hfull : M ≤ acc.length
      · exact Or.inr ⟨decode_error.oversized, b :: t, hy, by simp [decode_run_data, hfull]⟩
      · simp only [decode_run_data, hb, hfull, if_false]
        exact ih ht _ _ _

/-- On an input without delimiter `decode_next_frame` reaches the end of the
input or ends with an error. -/
theorem decode_run_data_no_delim (M : Nat) :
    ∀ (y : List Byte), (∀ b ∈ y, b ≠ 0) → ∀ (code k : Nat) (acc : List Byte),
      decode_run_data M y code k acc = (frame_exit.finished, []) ∨
      (∃ err y2, (∀ b ∈ y2, b ≠ 0) ∧
        decode_run_data M y code k acc = (frame_exit.error err, y2)) := by
  intro y
  induction y with
  | nil =>
    intro _ code k acc
    cases k with
    | zero =>
      by_cases hc : 255 ≤ code
      · exact Or.inl (by simp [decode_run_data, hc])
      · exact Or.inr ⟨decode_error.incomplete, [], by simp, by simp [decode_run_data, hc]⟩
    | succ k => exact Or.inr ⟨decode_error.incomplete, [], by simp, by simp [decode_run_data]⟩
  | cons b t ih =>
    intro hy code k acc
    have hb : b ≠ frame_delim := hy b (List.mem_cons_self _ _)
    have ht : ∀ x ∈ t, x ≠ 0 := fun x hx => hy x (List.mem_cons_of_mem _ hx)
    cases k with
    | zero =>
      by_cases hc : 255 ≤ code
      · simp only [decode_run_data, hb, hc, if_false, if_true]
        exact ih ht _ _ _
      · by_cases hfull : M ≤ acc.length
        · exact Or.inr ⟨decode_error.oversized, b :: t, hy,
            by simp [decode_run_data, hb, hc, hfull]⟩
        · simp only [decode_run_data, hb, hc, hfull, if_false]
          exact ih ht _ _ _
    | succ k =>
      by_cases hfull : M ≤ acc.length
      · exact Or.inr ⟨decode_error.oversized, b :: t, hy, by simp [decode_run_data, hfull]⟩
      · simp only [decode_run_data, hb, hfull, if_false]
        exact ih ht _ _ _

/-- The outcomes of an input with a delimiter: one outcome for the bytes up to
and including the first delimiter, then the outcomes of what follows it. -/
theorem decode_outcomes_first_delim (M : Nat) (y rest : List Byte) (hy : ∀ b ∈ y, b ≠ 0) :
    ∃ o, decode_outcomes M (y ++ 0 :: rest).length (y ++ 0 :: rest)
      = o :: decode_outcomes M rest.length rest := by
  have hx : (∃ a, decode_run_code M [] (y ++ 0 :: rest) = (frame_exit.complete a, rest)) ∨
      (∃ err y2, (∀ b ∈ y2, b ≠ 0) ∧
        decode_run_code M [] (y ++ 0 :: rest) = (frame_exit.error err, y2 ++ 0 :: rest)) := by
    cases y with
    | nil => exact Or.inl ⟨[], by simp [decode_run_code, frame_delim]⟩
    | cons b t =>
      have hb : b ≠ frame_delim := hy b (List.mem_cons_self _ _)
      simp only [List.cons_append, decode_run_code, hb, if_false]
      exact decode_run_data_first_delim M rest t
        (fun x hx => hy x (List.mem_cons_of_mem _ hx)) _ _ _
  rcases hx with ⟨a, ha⟩ | ⟨err, y2, hy2, he⟩
  · exact ⟨_, decode_outcomes_complete M _ _ _ ha⟩
  · refine ⟨value_type.unexpected err, ?_⟩
    rw [decode_outcomes_error M _ _ _ he]
    have hsk := skip_input_zero_free y2 rest hy2
    simp only [frame_delim] at hsk
    rw [hsk]

/-- The outcomes of an input without delimiter: none, or one error. -/
theorem decode_outcomes_no_delim (M : Nat) (y : List Byte) (hy : ∀ b ∈ y, b ≠ 0) :
    (decode_outcomes M y.length y).length ≤ 1 := by
  have hx : decode_run_code M [] y = (frame_exit.finished, []) ∨
      (∃ err y2, (∀ b ∈ y2, b ≠ 0) ∧ decode_run_code M [] y = (frame_exit.error err, y2)) := by
    cases y with
    | nil => exact Or.inl rfl
    | cons b t =>
      have hb : b ≠ frame_delim := hy b (List.mem_cons_self _ _)
      simp only [decode_run_code, hb, if_false]
      exact decode_run_data_no_delim M t (fun x hx => hy x (List.mem_cons_of_mem _ hx)) _ _ _
  rcases hx with h | ⟨err, y2, hy2, he⟩
  · rw [decode_outcomes_finished M _ _ h]
    simp
  · rw [decode_outcomes_error M _ _ _ he, skip_input_no_delim y2 hy2]
    simp [decode_outcomes]

theorem split_first_delim : ∀ s : List Byte,
    (∀ b ∈ s, b ≠ 0) ∨ ∃ y rest, (∀ b ∈ y, b ≠ 0) ∧ s = y ++ 0 :: rest := by
  intro s
  induction s with
  | nil => exact Or.inl (by simp)
  | cons b t ih =>
    by_cases hb : b = 0
    · exact Or.inr ⟨[], t, by simp, by simp [hb]⟩
    · rcases ih with h | ⟨y, rest, hy, hs⟩
      · exact Or.inl (by
          intro x hx
          rcases List.mem_cons.mp hx with h1 | h1
          · rw [h1]; exact hb
          · exact h x h1)
      · refine Or.inr ⟨b :: y, rest, ?_, by simp [hs]⟩
        intro x hx
        rcases List.mem_cons.mp hx with h1 | h1
        · rw [h1]; exact hb
        · exact hy x h1

/-- The number of outcomes against the number of delimiters of the input. -/
theorem decode_outcomes_count (M : Nat) : ∀ (n : Nat) (s : List Byte), s.length ≤ n →
    s.count 0 ≤ (decode_outcomes M s.length s).length ∧
    (decode_outcomes M s.length s).length ≤ s.count 0 + 1 ∧
    ((s = [] ∨ s.getLast? = some 0) → (decode_outcomes M s.length s).length = s.count 0) := by
  intro n
  induction n using Nat.strong_induction_on with
  | _ n ih =>
    intro s hn
    rcases split_first_delim s with hfree | ⟨y, rest, hy, hs⟩
    · have hcount : s.count 0 = 0 := List.count_eq_zero.mpr (fun h => hfree 0 h rfl)
      have hle := decode_outcomes_no_delim M s hfree
      rw [hcount]
      refine ⟨Nat.zero_le _, by omega, ?_⟩
      intro hz
      rcases hz with h | h
      · subst h
        rfl
      · obtain ⟨u, hu⟩ := List.getLast?_eq_some_iff.mp h
        exact absurd rfl (hfree 0 (by rw [hu]; simp))
    · obtain ⟨o, ho⟩ := decode_outcomes_first_delim M y rest hy
      have hycount : y.count 0 = 0 := List.count_eq_zero.mpr (fun h => hy 0 h rfl)
      have hcount : s.count 0 = rest.count 0 + 1 := by
        rw [hs, List.count_append, hycount, List.count_cons_self]
        omega
      have hlen : rest.length < s.length := by
        rw [hs, List.length_append, List.length_cons]
        omega
      obtain ⟨h1, h2, h3⟩ := ih rest.length (by omega) rest (le_refl _)
      rw [hs, ho, ← hs, hcount, List.length_cons]
      refine ⟨by omega, by omega, ?_⟩
      intro hz
      have hzrest : rest = [] ∨ rest.getLast? = some 0 := by
        rcases hz with h | h
        · rw [hs] at h
          simp at h
        · cases hr : rest with
          | nil => exact Or.inl rfl
          | cons c t =>
            right
            rw [hs, hr, List.getLast?_append] at h
            simpa using h
      rw [h3 hzrest]

/-- C24. One outcome per delimiter: for every `MaxFrameSize` and every byte
stream `s` with `z` bytes equal to `0x00`, the decoder yields exactly `z`
outcomes when `s` is empty or ends with `0x00`, and `z` or `z + 1` outcomes
otherwise. -/
theorem C24_one_outcome_per_delimiter (M : Nat) (s : List Byte) :
    ∃ outs, decode M s = some outs ∧
      ((s = [] ∨ s.getLast? = some 0x00) → outs.length = s.count 0x00) ∧
      (outs.length = s.count 0x00 ∨ outs.length = s.count 0x00 + 1) := by
  obtain ⟨h1, h2, h3⟩ := decode_outcomes_count M s.length s (le_refl _)
  exact ⟨_, decode_eq_outcomes M s, h3, by omega⟩

theorem decode_outcomes_length_le (M : Nat) : ∀ (n : Nat) (input : List Byte),
    (decode_outcomes M n input).length ≤ n := by
  intro n
  induction n with
  | zero => intro input; simp [decode_outcomes]
  | succ n ih =>
    intro input
    simp only [decode_outcomes]
    cases hx : decode_run_code M [] input with
    | mk e x =>
      cases e with
      | finished => simp
      | complete bytes =>
        simp only [List.length_cons]
        exact Nat.succ_le_succ (ih x)
      | error err =>
        simp only [List.length_cons]
        exact Nat.succ_le_succ (ih (skip_input x))

/-- A call of `decode_next_frame` at the end of the input reports the end of the
input: it returns `false` with no error and `finished_` set. -/
theorem decode_next_frame_nil (M : Nat) (s : DecodeIterator) (hin : s.input_ = []) :
    ∃ r, decode_next_frame M s = some r ∧
      r.1 = false ∧ r.2.current_error_ = none ∧ r.2.finished_ = true := by
  refine ⟨(false, { s with frame_size_ := 0, frame_ready_ := false, current_error_ := none,
                           state_ := decode_state.finished, finished_ := true }),
    ?_, rfl, rfl, rfl⟩
  simp [decode_next_frame, hin, decode_next_frame_loop, process_wait_for_code]

/-- C25. The decoder terminates on every input: every call of
`decode_next_frame` returns, having consumed at least one input byte or, at the
end of the input, reporting it (`false`, no error, `finished_` set); and on every
byte stream the consumer loop reaches the sentinel after at most as many
outcomes as the stream has bytes. -/
theorem C25_decoder_terminates (M : Nat) (s : DecodeIterator)
    (hbl : s.frame_buffer_.length = M) :
    (∃ r, decode_next_frame M s = some r ∧
      (r.2.input_.length < s.input_.length ∨
        (s.input_ = [] ∧ r.1 = false ∧ r.2.current_error_ = none ∧ r.2.finished_ = true))) ∧
    ∀ input : List Byte, ∃ outs, decode M input = some outs ∧ outs.length ≤ input.length := by
  constructor
  · cases hin : s.input_ with
    | nil =>
      obtain ⟨r, hr, h1, h2, h3⟩ := decode_next_frame_nil M s hin
      exact ⟨r, hr, Or.inr ⟨rfl, h1, h2, h3⟩⟩
    | cons b rest =>
      obtain ⟨r, hr, hm⟩ := decode_next_frame_run_code M s hbl
      refine ⟨r, hr, Or.inl ?_⟩
      rw [hin] at hm
      have hlen := decode_run_code_length M [] b rest
      rw [hm.1, List.length_cons]
      exact Nat.lt_succ_of_le hlen
  · intro input
    exact ⟨_, decode_eq_outcomes M input, decode_outcomes_length_le M _ _⟩

theorem C25_decoder_terminates_witness :
    (DecodeIterator.mk [0x05, 0x00, 0x07] [0, 0] 0 none false false
      decode_state.wait_for_code 0 0).frame_buffer_.length = 2 ∧
    (∃ r, decode_next_frame 2
        (DecodeIterator.mk [0x05, 0x00, 0x07] [0, 0] 0 none false false
          decode_state.wait_for_code 0 0) = some r ∧
      (r.2.input_.length
          < (DecodeIterator.mk [0x05, 0x00, 0x07] [0, 0] 0 none false false
              decode_state.wait_for_code 0 0).input_.length ∨
        ((DecodeIterator.mk [0x05, 0x00, 0x07] [0, 0] 0 none false false
            decode_state.wait_for_code 0 0).input_ = [] ∧
          r.1 = false ∧ r.2.current_error_ = none ∧ r.2.finished_ = true))) ∧
    ∀ input : List Byte, ∃ outs, decode 2 input = some outs ∧ outs.length ≤ input.length :=
  ⟨rfl, C25_decoder_terminates 2
    (DecodeIterator.mk [0x05, 0x00, 0x07] [0, 0] 0 none false false
      decode_state.wait_for_code 0 0) rfl⟩

/-! ## Totality and bounds of the encoder -/

/-- From `on_byte` the loop of `build_next_unit` returns within
`255 - unit_size_ + 2` rounds, whatever the iterator holds. -/
theorem build_loop_on_byte_total (cur : List Byte) : ∀ (s : EncodeIterator) (fuel : Nat),
    s.state_ = encode_state.on_byte → s.current_frame_ = cur →
    255 - s.unit_size_ + 2 ≤ fuel → ∃ r, build_next_unit_loop fuel s = some r := by
  induction cur with
  | nil =>
    intro s fuel hst hcur hfuel
    obtain ⟨f, rfl⟩ : ∃ f, fuel = f + 2 := ⟨fuel - 2, by omega⟩
    rw [build_loop_on_byte _ _ hst]
    simp only [process_on_byte, hcur]
    rw [build_loop_end_of_last_chunk _ _ rfl]
    exact ⟨_, rfl⟩
  | cons v rest ih =>
    intro s fuel hst hcur hfuel
    obtain ⟨f, rfl⟩ : ∃ f, fuel = f + 2 := ⟨fuel - 2, by omega⟩
    rw [build_loop_on_byte _ _ hst]
    by_cases hcap : 255 ≤ s.unit_size_
    · simp only [process_on_byte, hcur, hcap, if_true]
      rw [build_loop_end_of_chunk _ _ rfl]
      exact ⟨_, rfl⟩
    · by_cases hv : to_byte v = frame_delim
      · simp only [process_on_byte, hcur, hcap, if_false, hv, if_true]
        rw [build_loop_end_of_chunk _ _ rfl]
        exact ⟨_, rfl⟩
      · simp only [process_on_byte, hcur, hcap, if_false, hv]
        exact ih _ (f + 1) rfl rfl (by simp; omega)

/-- With 260 rounds the loop of `build_next_unit` returns, from every iterator. -/
theorem build_loop_total (t : EncodeIterator) :
    ∃ r, build_next_unit_loop (259 + 1) t = some r := by
  cases hst : t.state_ with
  | start_of_frame =>
    rw [build_loop_start_of_frame 259 t hst]
    cases hfs : t.frames_ with
    | nil =>
      have h6 : process_start_of_frame t = (encode_state.finished, t) := by
        simp [process_start_of_frame, can_start_next_frame, hfs]
      rw [h6]
      show ∃ r, build_next_unit_loop (258 + 1) _ = some r
      rw [build_loop_finished _ _ rfl]
      exact ⟨_, rfl⟩
    | cons F rest =>
      have h6 : process_start_of_frame t
          = (encode_state.start_of_chunk, { t with current_frame_ := F, frames_ := rest }) := by
        simp [process_start_of_frame, can_start_next_frame, setup_next_frame, hfs]
      rw [h6]
      show ∃ r, build_next_unit_loop (258 + 1) _ = some r
      rw [build_loop_start_of_chunk _ _ rfl]
      exact build_loop_on_byte_total F _ 258 rfl rfl (by simp [process_start_of_chunk])
  | start_of_chunk =>
    rw [build_loop_start_of_chunk 259 t hst]
    exact build_loop_on_byte_total t.current_frame_ _ 259 rfl rfl
      (by simp [process_start_of_chunk])
  | on_byte =>
    exact build_loop_on_byte_total t.current_frame_ t 260 hst rfl (by omega)
  | end_of_chunk =>
    rw [build_loop_end_of_chunk 259 t hst]
    exact ⟨_, rfl⟩
  | end_of_last_chunk =>
    rw [build_loop_end_of_last_chunk 259 t hst]
    exact ⟨_, rfl⟩
  | end_of_frame =>
    rw [build_loop_end_of_frame 259 t hst]
    exact ⟨_, rfl⟩
  | finished =>
    rw [build_loop_finished 259 t hst]
    exact ⟨_, rfl⟩

/-- Every call of `build_next_unit` returns, from every iterator. -/
theorem build_next_unit_total (s : EncodeIterator) : ∃ r, build_next_unit s = some r :=
  build_loop_total { s with unit_pos_ := 0 }

/-- C26. The encoder is total: every call of `build_next_unit` returns, from
every iterator; and for every list of frames and either flag the consumer loop
reaches the sentinel with a finite output, of fewer than `encode_fuel frames`
bytes, so no input makes the encoder fail or go on for ever. -/
theorem C26_encoder_total :
    (∀ s : EncodeIterator, ∃ r, build_next_unit s = some r) ∧
    ∀ (frames : List (List Byte)) (f : Bool),
      ∃ out, encode frames f = some out ∧ out.length < encode_fuel frames :=
  ⟨build_next_unit_total,
   fun frames f => ⟨encode_frames frames f, encode_eq_encode_frames frames f,
     encode_frames_length_lt f frames⟩⟩

/-- C27. The cap comes before the delimiter: for every sequence `D` of exactly
254 non-zero bytes, encoding the frame `D ++ [0x00]` without trailing delimiter
gives exactly `[0xFF] ++ D ++ [0x01, 0x01]`, and decoding that output followed by
a delimiter, with a `MaxFrameSize` of at least 255, gives back the frame
`D ++ [0x00]`. -/
theorem C27_cap_before_delimiter (D : List Byte) (hlen : D.length = 254)
    (hz : ∀ b ∈ D, b ≠ 0) :
    encode [D ++ [0x00]] false = some (0xFF :: D ++ [0x01, 0x01]) ∧
    ∀ M : Nat, 255 ≤ M →
      decode M (0xFF :: D ++ [0x01, 0x01] ++ [0x00])
        = some [value_type.frame (D ++ [0x00])] := by
  have hrun : zero_free_run 254 (D ++ [0]) = D := by
    have h := zero_free_run_append_of_zero_free D [0] hz
    rw [hlen] at h
    exact h
  have hne : zero_free_run 254 (D ++ [0]) ≠ D ++ [0] := by
    rw [hrun]
    intro h
    have h2 := congrArg List.length h
    simp at h2
  have hdrop : (D ++ [(0 : Byte)]).drop 254 = [0] := by
    rw [← hlen]
    simp
  have henc0 : enc [(0 : Byte)] = [0x01, 0x01] := enc_zeros 1
  have henc : enc (D ++ [0]) = 0xFF :: D ++ [0x01, 0x01] := by
    rw [enc_of_full (D ++ [0]) hne (by rw [hrun]; exact hlen), hrun, hdrop, henc0]
  constructor
  · rw [encode_eq_encode_frames, encode_frames_single, henc]
    simp
  · intro M hM
    have h := decode_outcomes_enc M (D ++ [0]) []
    rw [henc] at h
    have hfit : (D ++ [(0 : Byte)]).length ≤ M := by
      rw [List.length_append, hlen]
      simpa using hM
    rw [decode_eq_outcomes]
    simp only [frame_delim] at h
    rw [h, if_pos hfit]
    rfl

theorem C27_cap_before_delimiter_witness :
    (List.replicate 254 (0x07 : Byte)).length = 254 ∧
    (∀ b ∈ List.replicate 254 (0x07 : Byte), b ≠ 0) ∧
    encode [List.replicate 254 (0x07 : Byte) ++ [0x00]] false
      = some (0xFF :: List.replicate 254 (0x07 : Byte) ++ [0x01, 0x01]) ∧
    ∀ M : Nat, 255 ≤ M →
      decode M (0xFF :: List.replicate 254 (0x07 : Byte) ++ [0x01, 0x01] ++ [0x00])
        = some [value_type.frame (List.replicate 254 (0x07 : Byte) ++ [0x00])] :=
  ⟨List.length_replicate _ _,
   fun b hb => by rw [List.eq_of_mem_replicate hb]; decide,
   C27_cap_before_delimiter (List.replicate 254 (0x07 : Byte)) (List.length_replicate _ _)
     (fun b hb => by rw [List.eq_of_mem_replicate hb]; decide)⟩

/-- C28. The empty collection of frames: encoding a list of zero frames gives
the empty byte stream for both values of the trailing-delimiter flag, and
decoding the empty byte stream yields no outcome, for every `MaxFrameSize`. -/
theorem C28_empty_collection :
    encode [] true = some [] ∧ encode [] false = some [] ∧
    ∀ M : Nat, decode M [] = some [] :=
  ⟨by decide, by decide, decode_nil⟩

theorem rollover_count_of_whole (B : List Byte) (h : zero_free_run 254 B = B) :
    rollover_count B = 0 := by
  rw [rollover_count]
  simp [h]

theorem rollover_count_of_full (B : List Byte) (h1 : zero_free_run 254 B ≠ B)
    (h2 : (zero_free_run 254 B).length = 254) :
    rollover_count B = rollover_count (B.drop 254) + 1 := by
  rw [rollover_count]
  simp [h1, h2]

theorem rollover_count_of_zero (B : List Byte) (h1 : zero_free_run 254 B ≠ B)
    (h2 : (zero_free_run 254 B).length ≠ 254) :
    rollover_count B = rollover_count (B.drop ((zero_free_run 254 B).length + 1)) := by
  rw [rollover_count]
  simp [h1, h2]

theorem zero_free_run_lt_of_ne (B : List Byte) (hw : zero_free_run 254 B ≠ B) :
    (zero_free_run 254 B).length < B.length := by
  rcases Nat.lt_or_ge (zero_free_run 254 B).length B.length with h | h
  · exact h
  · exfalso
    apply hw
    have h3 := zero_free_run_append_drop 254 B
    rw [List.drop_eq_nil_of_le h, List.append_nil] at h3
    exact h3

/-- The length of the reference encoding, and the room the rollover units need
in the frame. -/
theorem enc_length_eq : ∀ (n : Nat) (B : List Byte), B.length ≤ n →
    (enc B).length = B.length + 1 + rollover_count B ∧
    (rollover_count B = 0 ∨ 254 * rollover_count B + 1 ≤ B.length) := by
  intro n
  induction n using Nat.strong_induction_on with
  | _ n ih =>
    intro B hB
    by_cases hw : zero_free_run 254 B = B
    · rw [enc_of_whole B hw, rollover_count_of_whole B hw, hw]
      simp
    · have hlt := zero_free_run_lt_of_ne B hw
      by_cases hfull : (zero_free_run 254 B).length = 254
      · obtain ⟨h1, h2⟩ := ih (B.length - 254) (by omega) (B.drop 254)
          (by rw [List.length_drop])
        rw [List.length_drop] at h1 h2
        rw [enc_of_full B hw hfull, rollover_count_of_full B hw hfull]
        simp only [List.length_cons, List.length_append, List.cons_append, hfull, h1]
        constructor
        · omega
        · right
          omega
      · obtain ⟨h1, h2⟩ := ih (B.length - ((zero_free_run 254 B).length + 1)) (by omega)
          (B.drop ((zero_free_run 254 B).length + 1)) (by rw [List.length_drop])
        rw [List.length_drop] at h1 h2
        rw [enc_of_zero B hw hfull, rollover_count_of_zero B hw hfull]
        simp only [List.length_cons, List.length_append, List.cons_append, h1]
        constructor
        · omega
        · rcases h2 with h2 | h2
          · exact Or.inl h2
          · right
            omega

/-- C29. Consistent overhead: for every byte sequence `B` of length `n`, the
encoding of the single frame `B` without trailing delimiter has length
`n + 1 + r`, with `r` the number of units closed by the 254-byte rollover, and
this length is at least `n + 1` and at most `n + max 1 ⌈n / 254⌉`. -/
theorem C29_consistent_overhead (B : List Byte) :
    ∃ out, encode [B] false = some out ∧
      out.length = B.length + 1 + rollover_count B ∧
      B.length + 1 ≤ out.length ∧
      out.length ≤ B.length + max 1 ((B.length + 253) / 254) := by
  obtain ⟨h1, h2⟩ := enc_length_eq B.length B (le_refl _)
  refine ⟨enc B, ?_, h1, by omega, ?_⟩
  · rw [encode_eq_encode_frames, encode_frames_single]
    simp
  · rw [h1]
    rcases h2 with h2 | h2
    · rw [h2]
      have := Nat.le_max_left 1 ((B.length + 253) / 254)
      omega
    · have := Nat.le_max_right 1 ((B.length + 253) / 254)
      omega

/-! ## Safety of the unit buffer of the encoder -/

theorem begin_eq_constructed (frames : List (List Byte)) (f : Bool) :
    EncodeIterator.begin frames f
      = (build_next_unit (encode_constructed frames f)).map Prod.snd := rfl

/-- The loop of `build_next_unit` is an iteration of `encode_round`. -/
theorem build_loop_round (fuel : Nat) (s : EncodeIterator) :
    build_next_unit_loop (fuel + 1) s = build_next_unit_loop fuel (encode_round s) ∨
    ∃ flag, build_next_unit_loop (fuel + 1) s = some (flag, encode_round s) := by
  cases hst : s.state_ with
  | start_of_frame =>
    left
    rw [build_loop_start_of_frame fuel s hst]
    simp [encode_round, hst]
  | start_of_chunk =>
    left
    rw [build_loop_start_of_chunk fuel s hst]
    simp [encode_round, hst]
  | on_byte =>
    left
    rw [build_loop_on_byte fuel s hst]
    simp [encode_round, hst]
  | end_of_chunk =>
    right
    rw [build_loop_end_of_chunk fuel s hst]
    exact ⟨true, by simp [encode_round, hst]⟩
  | end_of_last_chunk =>
    right
    rw [build_loop_end_of_last_chunk fuel s hst]
    exact ⟨true, by simp [encode_round, hst]⟩
  | end_of_frame =>
    right
    rw [build_loop_end_of_frame fuel s hst]
    exact ⟨true, by simp [encode_round, hst]⟩
  | finished =>
    right
    rw [build_loop_finished fuel s hst]
    exact ⟨false, by simp [encode_round, hst]⟩

/-- Every state the loop of `build_next_unit` returns is reachable. -/
theorem build_loop_reachable (frames : List (List Byte)) (f : Bool) :
    ∀ (fuel : Nat) (s : EncodeIterator) (r : Bool × EncodeIterator),
    EncodeReachable frames f s → build_next_unit_loop fuel s = some r →
    EncodeReachable frames f r.2 := by
  intro fuel
  induction fuel with
  | zero =>
    intro s r _ h
    simp [build_next_unit_loop] at h
  | succ fuel ih =>
    intro s r hs h
    rcases build_loop_round fuel s with h1 | ⟨flag, h1⟩
    · rw [h1] at h
      exact ih _ r (EncodeReachable.round s hs) h
    · rw [h1] at h
      have h2 : r = (flag, encode_round s) := (Option.some.inj h).symm
      rw [h2]
      exact EncodeReachable.round s hs

theorem build_next_unit_reachable (frames : List (List Byte)) (f : Bool)
    (s : EncodeIterator) (r : Bool × EncodeIterator)
    (hs : EncodeReachable frames f s) (h : build_next_unit s = some r) :
    EncodeReachable frames f r.2 :=
  build_loop_reachable frames f 260 _ r (EncodeReachable.position s 0 hs) h

/-- Every iterator value a consumer sees is a reachable state. -/
theorem visited_reachable (frames : List (List Byte)) (f : Bool) (it : EncodeIterator)
    (h : EncodeVisited frames f it) : EncodeReachable frames f it := by
  induction h with
  | begin it hb =>
    rw [begin_eq_constructed] at hb
    cases hr : build_next_unit (encode_constructed frames f) with
    | none => simp [hr] at hb
    | some r =>
      simp only [hr, Option.map_some', Option.some.injEq] at hb
      rw [← hb]
      exact build_next_unit_reachable frames f _ r EncodeReachable.constructed hr
  | next it it2 _ _ hn ih =>
    unfold EncodeIterator.next at hn
    dsimp only at hn
    split at hn
    · cases hr : build_next_unit { it with unit_pos_ := it.unit_pos_ + 1 } with
      | none => simp [hr] at hn
      | some r =>
        simp only [hr, Option.map_some', Option.some.injEq] at hn
        rw [← hn]
        exact build_next_unit_reachable frames f _ r
          (EncodeReachable.position it _ ih) hr
    · have h2 := Option.some.inj hn
      rw [← h2]
      exact EncodeReachable.position it _ ih

/-- The invariant of the reachable states: the buffer has its 255 slots, the
unit size never exceeds them, and a unit under construction has its code slot
counted. -/
theorem reachable_invariant (frames : List (List Byte)) (f : Bool) (s : EncodeIterator)
    (h : EncodeReachable frames f s) :
    s.unit_buffer_.length = 255 ∧ s.unit_size_ ≤ 255 ∧
    ((s.state_ = encode_state.on_byte ∨ s.state_ = encode_state.end_of_chunk ∨
      s.state_ = encode_state.end_of_last_chunk) → 1 ≤ s.unit_size_) := by
  induction h with
  | constructed =>
    refine ⟨List.length_replicate _ _, Nat.zero_le _, ?_⟩
    intro h
    simp only [encode_constructed] at h
    rcases h with h | h | h <;> cases h
  | position s p _ ih => exact ih
  | round s _ ih =>
    obtain ⟨h1, h2, h3⟩ := ih
    cases hst : s.state_ with
    | start_of_frame =>
      cases hfs : s.frames_ with
      | nil =>
        simp [encode_round, hst, process_start_of_frame, can_start_next_frame, hfs, h1, h2]
      | cons F rest =>
        simp [encode_round, hst, process_start_of_frame, can_start_next_frame,
          setup_next_frame, hfs, h1, h2]
    | start_of_chunk =>
      simp [encode_round, hst, process_start_of_chunk, h1]
    | on_byte =>
      have h4 := h3 (Or.inl hst)
      cases hcf : s.current_frame_ with
      | nil =>
        simp [encode_round, hst, process_on_byte, hcf, h1, h2, h4]
      | cons v rest =>
        by_cases hcap : 255 ≤ s.unit_size_
        · simp [encode_round, hst, process_on_byte, hcf, hcap, h1, h2, h4]
        · by_cases hd : to_byte v = frame_delim
          · simp [encode_round, hst, process_on_byte, hcf, hcap, hd, h1, h2, h4]
          · simp only [encode_round, hst, process_on_byte, hcf, hcap, hd, if_false]
            simp [h1]
            omega
    | end_of_chunk =>
      simp [encode_round, hst, process_end_of_chunk, h1, h2]
    | end_of_last_chunk =>
      simp [encode_round, hst, process_end_of_last_chunk, h1, h2]
    | end_of_frame =>
      by_cases hc : (s.append_delim_ || can_start_next_frame s) = true
      · simp only [encode_round, hst, process_end_of_frame, hc, if_true]
        simp [h1]
      · simp only [encode_round, hst, process_end_of_frame, hc, if_false]
        simp [h1]
    | finished =>
      simp [encode_round, hst, h1]

/-- The write index describes the round: the buffer after the round is the
buffer before it with at most the slot of the write index assigned. -/
theorem encode_round_buffer (s : EncodeIterator) :
    (encode_write_index s = none ∧ (encode_round s).unit_buffer_ = s.unit_buffer_) ∨
    ∃ i b, encode_write_index s = some i ∧
      (encode_round s).unit_buffer_ = s.unit_buffer_.set i b := by
  cases hst : s.state_ with
  | start_of_frame =>
    left
    cases hfs : s.frames_ with
    | nil =>
      simp [encode_write_index, encode_round, hst, process_start_of_frame,
        can_start_next_frame, hfs]
    | cons F rest =>
      simp [encode_write_index, encode_round, hst, process_start_of_frame,
        can_start_next_frame, setup_next_frame, hfs]
  | start_of_chunk =>
    left
    simp [encode_write_index, encode_round, hst, process_start_of_chunk]
  | on_byte =>
    cases hcf : s.current_frame_ with
    | nil =>
      left
      simp [encode_write_index, encode_round, hst, process_on_byte, hcf]
    | cons v rest =>
      by_cases hcap : 255 ≤ s.unit_size_
      · left
        simp [encode_write_index, encode_round, hst, process_on_byte, hcf, hcap]
      · by_cases hd : to_byte v = frame_delim
        · left
          simp [encode_write_index, encode_round, hst, process_on_byte, hcf, hcap, hd]
        · right
          refine ⟨s.unit_size_, to_byte v, ?_, ?_⟩
          · simp [encode_write_index, hst, hcf, hcap, hd]
          · simp only [encode_round, hst, process_on_byte, hcf, hcap, hd, if_false]
  | end_of_chunk =>
    right
    exact ⟨0, size_to_byte s.unit_size_,
      by simp [encode_write_index, hst],
      by simp [encode_round, hst, process_end_of_chunk]⟩
  | end_of_last_chunk =>
    right
    exact ⟨0, size_to_byte s.unit_size_,
      by simp [encode_write_index, hst],
      by simp [encode_round, hst, process_end_of_last_chunk]⟩
  | end_of_frame =>
    by_cases hc : (s.append_delim_ || can_start_next_frame s) = true
    · right
      refine ⟨0, frame_delim, ?_, ?_⟩
      · simp only [encode_write_index, hst, hc, if_true]
      · simp only [encode_round, hst, process_end_of_frame, hc, if_true]
    · left
      constructor
      · simp [encode_write_index, hst, hc]
      · simp [encode_round, hst, process_end_of_frame, hc]
  | finished =>
    left
    simp [encode_write_index, encode_round, hst]

/-- In a reachable state every write is at index 0 or at an index in 1..254. -/
theorem reachable_write_index (frames : List (List Byte)) (f : Bool) (s : EncodeIterator)
    (h : EncodeReachable frames f s) (i : Nat) (hi : encode_write_index s = some i) :
    i = 0 ∨ (1 ≤ i ∧ i ≤ 254) := by
  obtain ⟨_, _, h3⟩ := reachable_invariant frames f s h
  cases hst : s.state_ with
  | on_byte =>
    have h4 := h3 (Or.inl hst)
    cases hcf : s.current_frame_ with
    | nil => simp [encode_write_index, hst, hcf] at hi
    | cons v rest =>
      by_cases hcap : 255 ≤ s.unit_size_
      · simp [encode_write_index, hst, hcf, hcap] at hi
      · by_cases hd : to_byte v = frame_delim
        · simp [encode_write_index, hst, hcf, hcap, hd] at hi
        · simp [encode_write_index, hst, hcf, hcap, hd] at hi
          right
          omega
  | end_of_chunk =>
    simp [encode_write_index, hst] at hi
    exact Or.inl hi.symm
  | end_of_last_chunk =>
    simp [encode_write_index, hst] at hi
    exact Or.inl hi.symm
  | end_of_frame =>
    by_cases hc : (s.append_delim_ || can_start_next_frame s) = true
    · simp only [encode_write_index, hst, hc, if_true, Option.some.injEq] at hi
      exact Or.inl hi.symm
    · simp only [encode_write_index, hst, hc, if_false] at hi
      exact absurd hi (by simp)
  | start_of_frame => simp [encode_write_index, hst] at hi
  | start_of_chunk => simp [encode_write_index, hst] at hi
  | finished => simp [encode_write_index, hst] at hi

/-- The code byte a reachable state stamps is its unit size, unwrapped. -/
theorem reachable_code_byte (frames : List (List Byte)) (f : Bool) (s : EncodeIterator)
    (h : EncodeReachable frames f s)
    (hst : s.state_ = encode_state.end_of_chunk ∨ s.state_ = encode_state.end_of_last_chunk) :
    (encode_round s).unit_buffer_[0]? = some (size_to_byte s.unit_size_) ∧
    (size_to_byte s.unit_size_).val = s.unit_size_ ∧
    (encode_round s).unit_size_ = s.unit_size_ := by
  obtain ⟨h1, h2, _⟩ := reachable_invariant frames f s h
  have hv : (size_to_byte s.unit_size_).val = s.unit_size_ := size_to_byte_val _ (by omega)
  have hpos : 0 < s.unit_buffer_.length := by omega
  rcases hst with hst | hst
  · refine ⟨?_, hv, ?_⟩
    · simp [encode_round, hst, process_end_of_chunk, hpos]
    · simp [encode_round, hst, process_end_of_chunk]
  · refine ⟨?_, hv, ?_⟩
    · simp [encode_round, hst, process_end_of_last_chunk, hpos]
    · simp [encode_round, hst, process_end_of_last_chunk]

/-- A call of `build_next_unit` from a state in which the iterator rests leaves
it at rest, with `unit_pos_` at the start of the new unit. -/
theorem build_at_rest (s : EncodeIterator) (hlen : s.unit_buffer_.length = 255)
    (hst : s.state_ = encode_state.start_of_chunk ∨ s.state_ = encode_state.end_of_frame ∨
      s.state_ = encode_state.start_of_frame) :
    ∃ r, build_next_unit s = some r ∧ EncodeAtRest r.2 := by
  have hstates : ∀ (c : Prop) [Decidable c],
      (if c then encode_state.end_of_frame else encode_state.start_of_chunk)
          = encode_state.start_of_chunk ∨
      (if c then encode_state.end_of_frame else encode_state.start_of_chunk)
          = encode_state.end_of_frame ∨
      (if c then encode_state.end_of_frame else encode_state.start_of_chunk)
          = encode_state.start_of_frame := by
    intro c _
    by_cases hc : c
    · rw [if_pos hc]
      exact Or.inr (Or.inl rfl)
    · rw [if_neg hc]
      exact Or.inl rfl
  rcases hst with hst | hst | hst
  · obtain ⟨it, hrun, _, _, hpos, hbl, hsz, _, hstate, _⟩ := build_from_chunk s hst hlen
    refine ⟨(true, it), hrun, hbl, ?_, Or.inl ⟨?_, ?_⟩⟩
    · have := zero_free_run_length_le 254 s.current_frame_
      show it.unit_size_ ≤ 255
      omega
    · show it.state_ = _ ∨ it.state_ = _ ∨ it.state_ = _
      rw [hstate]
      exact hstates _
    · show it.unit_pos_ < it.unit_size_
      omega
  · show ∃ r, build_next_unit_loop (259 + 1) { s with unit_pos_ := 0 } = some r ∧ _
    rw [build_loop_end_of_frame 259 { s with unit_pos_ := 0 } hst]
    refine ⟨_, rfl, ?_⟩
    by_cases hc : (s.append_delim_ || can_start_next_frame s) = true
    · have h6 : process_end_of_frame { s with unit_pos_ := 0 }
          = (encode_state.start_of_frame,
              { s with unit_pos_ := 0, unit_buffer_ := s.unit_buffer_.set 0 frame_delim,
                       unit_size_ := 1 }) := by
        have hc2 : (s.append_delim_ || can_start_next_frame { s with unit_pos_ := 0 }) = true := hc
        simp only [process_end_of_frame, hc2, if_true]
      rw [h6]
      refine ⟨?_, ?_, Or.inl ⟨Or.inr (Or.inr rfl), ?_⟩⟩
      · simp [hlen]
      · simp
      · simp
    · have h6 : process_end_of_frame { s with unit_pos_ := 0 }
          = (encode_state.finished, { s with unit_pos_ := 0, unit_size_ := 0 }) := by
        have hc2 : ¬ (s.append_delim_ || can_start_next_frame { s with unit_pos_ := 0 }) = true :=
          hc
        simp [process_end_of_frame, hc2]
      rw [h6]
      exact ⟨hlen, Nat.zero_le _, Or.inr ⟨rfl, rfl⟩⟩
  · cases hfs : s.frames_ with
    | nil =>
      show ∃ r, build_next_unit_loop (259 + 1) { s with unit_pos_ := 0 } = some r ∧ _
      rw [build_loop_start_of_frame 259 { s with unit_pos_ := 0 } hst]
      have h6 : process_start_of_frame { s with unit_pos_ := 0 }
          = (encode_state.finished, { s with unit_pos_ := 0 }) := by
        simp [process_start_of_frame, can_start_next_frame, hfs]
      rw [h6]
      show ∃ r, build_next_unit_loop (258 + 1) _ = some r ∧ _
      rw [build_loop_finished _ _ rfl]
      exact ⟨_, rfl, hlen, Nat.zero_le _, Or.inr ⟨rfl, rfl⟩⟩
    | cons F rest =>
      obtain ⟨it, hrun, _, _, hpos, hbl, hsz, _, hstate, _⟩ :=
        build_from_frame s F rest hst hfs hlen
      refine ⟨(true, it), hrun, hbl, ?_, Or.inl ⟨?_, ?_⟩⟩
      · have := zero_free_run_length_le 254 F
        show it.unit_size_ ≤ 255
        omega
      · show it.state_ = _ ∨ it.state_ = _ ∨ it.state_ = _
        rw [hstate]
        exact hstates _
      · show it.unit_pos_ < it.unit_size_
        omega

theorem begin_at_rest (frames : List (List Byte)) (f : Bool) (it : EncodeIterator)
    (h : EncodeIterator.begin frames f = some it) : EncodeAtRest it := by
  obtain ⟨r, hr, hrest⟩ := build_at_rest (encode_constructed frames f)
    (List.length_replicate _ _) (Or.inr (Or.inr rfl))
  rw [begin_eq_constructed, hr] at h
  have h2 : r.2 = it := Option.some.inj h
  rw [← h2]
  exact hrest

theorem at_rest_not_at_end (it : EncodeIterator) (h : EncodeAtRest it)
    (hne : it.at_end = false) :
    (it.state_ = encode_state.start_of_chunk ∨ it.state_ = encode_state.end_of_frame ∨
      it.state_ = encode_state.start_of_frame) ∧ it.unit_pos_ < it.unit_size_ := by
  obtain ⟨_, _, h3 | ⟨h3, h4⟩⟩ := h
  · exact h3
  · exfalso
    simp [EncodeIterator.at_end, h3, h4] at hne

theorem next_at_rest (it it2 : EncodeIterator) (h : EncodeAtRest it)
    (hne : it.at_end = false) (hn : it.next = some it2) : EncodeAtRest it2 := by
  obtain ⟨hst, hpos⟩ := at_rest_not_at_end it h hne
  obtain ⟨hbl, hsz, _⟩ := h
  unfold EncodeIterator.next at hn
  dsimp only at hn
  split at hn
  · obtain ⟨r, hr, hrest⟩ := build_at_rest { it with unit_pos_ := it.unit_pos_ + 1 } hbl hst
    rw [hr] at hn
    have h2 : r.2 = it2 := Option.some.inj hn
    rw [← h2]
    exact hrest
  · rename_i hlt
    have h2 := Option.some.inj hn
    rw [← h2]
    refine ⟨hbl, hsz, Or.inl ⟨hst, ?_⟩⟩
    show it.unit_pos_ + 1 < it.unit_size_
    omega

theorem visited_at_rest (frames : List (List Byte)) (f : Bool) (it : EncodeIterator)
    (h : EncodeVisited frames f it) : EncodeAtRest it := by
  induction h with
  | begin it hb => exact begin_at_rest frames f it hb
  | next it it2 _ hne hn ih => exact next_at_rest it it2 ih hne hn

/-- C30. Safety of the unit buffer of the encoder. In every reachable encoder
state the buffer has its 255 slots and `unit_size_` is at most 255; every write
of a round is at index 0 or at an index in 1..254; the code byte stamped at
index 0 in `end_of_chunk` and `end_of_last_chunk` is `unit_size_` without
wrap-around. Every iterator value a consumer sees is such a state, and whenever
it is not the end sentinel, `unit_pos_ < unit_size_`, so that dereferencing
reads a slot inside the current unit. -/
theorem C30_unit_buffer_safety (frames : List (List Byte)) (append_delim : Bool) :
    (∀ s, EncodeReachable frames append_delim s →
      s.unit_buffer_.length = 255 ∧ s.unit_size_ ≤ 255 ∧
      (∀ i, encode_write_index s = some i → i = 0 ∨ (1 ≤ i ∧ i ≤ 254)) ∧
      ((s.state_ = encode_state.end_of_chunk ∨ s.state_ = encode_state.end_of_last_chunk) →
        (encode_round s).unit_buffer_[0]? = some (size_to_byte s.unit_size_) ∧
        (size_to_byte s.unit_size_).val = s.unit_size_ ∧
        (encode_round s).unit_size_ = s.unit_size_)) ∧
    (∀ it, EncodeVisited frames append_delim it →
      EncodeReachable frames append_delim it ∧
      (it.at_end = false →
        it.unit_pos_ < it.unit_size_ ∧ it.unit_size_ ≤ it.unit_buffer_.length ∧
        it.unit_buffer_[it.unit_pos_]? = some it.deref)) := by
  constructor
  · intro s hs
    obtain ⟨h1, h2, _⟩ := reachable_invariant frames append_delim s hs
    exact ⟨h1, h2, reachable_write_index frames append_delim s hs,
      reachable_code_byte frames append_delim s hs⟩
  · intro it hv
    refine ⟨visited_reachable frames append_delim it hv, ?_⟩
    intro hne
    have hrest := visited_at_rest frames append_delim it hv
    obtain ⟨_, hpos⟩ := at_rest_not_at_end it hrest hne
    obtain ⟨hbl, hsz, _⟩ := hrest
    refine ⟨hpos, by omega, ?_⟩
    have hin : it.unit_pos_ < it.unit_buffer_.length := by omega
    simp [EncodeIterator.deref, List.getD, List.getElem?_eq_getElem hin]

theorem C30_unit_buffer_safety_witness :
    ∃ it, EncodeIterator.begin [[0x11, 0x00]] true = some it ∧ it.at_end = false ∧
      EncodeReachable [[0x11, 0x00]] true it ∧
      it.unit_pos_ < it.unit_size_ ∧ it.unit_size_ ≤ it.unit_buffer_.length ∧
      it.unit_buffer_[it.unit_pos_]? = some it.deref := by
  obtain ⟨it, hrun, _, _, _, _, _, _, hstate, _⟩ :=
    build_from_frame (encode_constructed [[0x11, 0x00]] true) [0x11, 0x00] [] rfl rfl
      (List.length_replicate _ _)
  have hb : EncodeIterator.begin [[0x11, 0x00]] true = some it := by
    rw [begin_eq_constructed, hrun]
    rfl
  have hz : zero_free_run 254 [(0x11 : Byte), 0x00] ≠ [0x11, 0x00] := by
    simp [zero_free_run]
  have hne : it.at_end = false := by
    rw [if_neg hz] at hstate
    simp [EncodeIterator.at_end, hstate]
  have h := (C30_unit_buffer_safety [[0x11, 0x00]] true).2 it (EncodeVisited.begin it hb)
  exact ⟨it, hb, hne, h.1, h.2 hne⟩

/-! ## Streams without delimiter and delimiter-terminated streams -/

theorem decode_run_code_no_delim (M : Nat) (y : List Byte) (hy : ∀ b ∈ y, b ≠ 0) :
    decode_run_code M [] y = (frame_exit.finished, []) ∨
    (∃ err y2, (∀ b ∈ y2, b ≠ 0) ∧ decode_run_code M [] y = (frame_exit.error err, y2)) := by
  cases y with
  | nil => exact Or.inl rfl
  | cons b t =>
    have hb : b ≠ frame_delim := hy b (List.mem_cons_self _ _)
    simp only [decode_run_code, hb, if_false]
    exact decode_run_data_no_delim M t (fun x hx => hy x (List.mem_cons_of_mem _ hx)) _ _ _

/-- The outcomes of an input without delimiter are no outcome or one error. -/
theorem decode_outcomes_no_delim_shape (M : Nat) (y : List Byte) (hy : ∀ b ∈ y, b ≠ 0) :
    decode_outcomes M y.length y = [] ∨
    ∃ err, decode_outcomes M y.length y = [value_type.unexpected err] := by
  rcases decode_run_code_no_delim M y hy with h | ⟨err, y2, hy2, h⟩
  · exact Or.inl (decode_outcomes_finished M y [] h)
  · right
    refine ⟨err, ?_⟩
    rw [decode_outcomes_error M y y2 err h, skip_input_no_delim y2 hy2]
    rfl

theorem no_frame_of_shape (outs : List value_type)
    (h : outs = [] ∨ ∃ e, outs = [value_type.unexpected e]) :
    outs.length ≤ 1 ∧ ∀ bytes, value_type.frame bytes ∉ outs := by
  rcases h with h | ⟨e, h⟩
  · subst h
    simp
  · subst h
    simp

/-- C32. No frame without a delimiter: for every MaxFrameSize and every byte
stream without a 0x00 byte the decoder returns at most one outcome and no
successful frame (no outcome, or one error). So for every frame `B` the
decoding of the encoding of `[B]` without trailing delimiter holds no
successful frame: it is one error, or no outcome at all. -/
theorem C32_no_frame_without_delimiter (M : Nat) (s : List Byte) (hs : ∀ b ∈ s, b ≠ 0) :
    (∃ outs, decode M s = some outs ∧ outs.length ≤ 1 ∧
      (∀ bytes, value_type.frame bytes ∉ outs) ∧
      (outs = [] ∨ ∃ e, outs = [value_type.unexpected e])) ∧
    ∀ B : List Byte, ∃ stream outs, encode [B] false = some stream ∧
      decode M stream = some outs ∧ outs.length ≤ 1 ∧
      (∀ bytes, value_type.frame bytes ∉ outs) ∧
      (outs = [] ∨ ∃ e, outs = [value_type.unexpected e]) := by
  constructor
  · have h := decode_outcomes_no_delim_shape M s hs
    exact ⟨_, decode_eq_outcomes M s, (no_frame_of_shape _ h).1, (no_frame_of_shape _ h).2, h⟩
  · intro B
    have henc : encode [B] false = some (enc B) := by
      rw [encode_eq_encode_frames, encode_frames_single]
      simp
    have h := decode_outcomes_no_delim_shape M (enc B) (enc_ne_zero B.length B (le_refl _))
    exact ⟨enc B, _, henc, decode_eq_outcomes M (enc B), (no_frame_of_shape _ h).1,
      (no_frame_of_shape _ h).2, h⟩

theorem C32_no_frame_without_delimiter_witness :
    (∀ b ∈ [(0x03 : Byte), 0x11, 0x22], b ≠ 0) ∧
    ∃ outs, decode 4096 [0x03, 0x11, 0x22] = some outs ∧ outs.length ≤ 1 ∧
      (∀ bytes, value_type.frame bytes ∉ outs) ∧
      (outs = [] ∨ ∃ e, outs = [value_type.unexpected e]) :=
  ⟨by simp, (C32_no_frame_without_delimiter 4096 [0x03, 0x11, 0x22] (by simp)).1⟩

/-- The error `incomplete` is reported at the end of the input only, after a
course that met no delimiter. -/
theorem decode_run_data_incomplete (M : Nat) :
    ∀ (input : List Byte) (code k : Nat) (acc r : List Byte),
      decode_run_data M input code k acc = (frame_exit.error decode_error.incomplete, r) →
      r = [] ∧ ∀ b ∈ input, b ≠ 0 := by
  intro input
  induction input with
  | nil =>
    intro code k acc r h
    cases k with
    | zero =>
      by_cases hc : 255 ≤ code
      · simp [decode_run_data, hc] at h
      · simp [decode_run_data, hc] at h
        exact ⟨h, by simp⟩
    | succ k =>
      simp [decode_run_data] at h
      exact ⟨h, by simp⟩
  | cons b t ih =>
    intro code k acc r h
    have hcons : ∀ (hb : b ≠ frame_delim) (code2 k2 : Nat) (acc2 : List Byte),
        decode_run_data M t code2 k2 acc2 = (frame_exit.error decode_error.incomplete, r) →
        r = [] ∧ ∀ x ∈ b :: t, x ≠ 0 := by
      intro hb code2 k2 acc2 h2
      obtain ⟨h3, h4⟩ := ih code2 k2 acc2 r h2
      refine ⟨h3, ?_⟩
      intro x hx
      rcases List.mem_cons.mp hx with h5 | h5
      · rw [h5]
        exact hb
      · exact h4 x h5
    cases k with
    | zero =>
      by_cases hb : b = frame_delim
      · simp [decode_run_data, hb] at h
      · by_cases hc : 255 ≤ code
        · simp only [decode_run_data, hb, hc, if_false, if_true] at h
          exact hcons hb _ _ _ h
        · by_cases hfull : M ≤ acc.length
          · simp [decode_run_data, hb, hc, hfull] at h
          · simp only [decode_run_data, hb, hc, hfull, if_false] at h
            exact hcons hb _ _ _ h
    | succ k =>
      by_cases hfull : M ≤ acc.length
      · simp [decode_run_data, hfull] at h
      · by_cases hb : b = frame_delim
        · simp [decode_run_data, hb, hfull] at h
        · simp only [decode_run_data, hb, hfull, if_false] at h
          exact hcons hb _ _ _ h

theorem decode_run_code_incomplete (M : Nat) (acc input r : List Byte)
    (h : decode_run_code M acc input = (frame_exit.error decode_error.incomplete, r)) :
    input ≠ [] ∧ r = [] ∧ ∀ b ∈ input, b ≠ 0 := by
  cases input with
  | nil => simp [decode_run_code] at h
  | cons b t =>
    by_cases hb : b = frame_delim
    · simp [decode_run_code, hb] at h
    · simp only [decode_run_code, hb, if_false] at h
      obtain ⟨h3, h4⟩ := decode_run_data_incomplete M t _ _ _ r h
      refine ⟨by simp, h3, ?_⟩
      intro x hx
      rcases List.mem_cons.mp hx with h5 | h5
      · rw [h5]
        exact hb
      · exact h4 x h5

/-- What a call of `decode_next_frame` leaves unread is an end of its input. -/
theorem decode_run_data_suffix (M : Nat) :
    ∀ (input : List Byte) (code k : Nat) (acc : List Byte),
      (decode_run_data M input code k acc).2 <:+ input := by
  intro input
  induction input with
  | nil =>
    intro code k acc
    cases k with
    | zero =>
      by_cases hc : 255 ≤ code <;> simp [decode_run_data, hc]
    | succ k => simp [decode_run_data]
  | cons b t ih =>
    intro code k acc
    cases k with
    | zero =>
      by_cases hb : b = frame_delim
      · simp only [decode_run_data, hb, if_true]
        exact List.suffix_cons _ _
      · by_cases hc : 255 ≤ code
        · simp only [decode_run_data, hb, hc, if_false, if_true]
          exact (ih _ _ _).trans (List.suffix_cons _ _)
        · by_cases hfull : M ≤ acc.length
          · simp only [decode_run_data, hb, hc, hfull, if_false, if_true]
            exact List.suffix_refl _
          · simp only [decode_run_data, hb, hc, hfull, if_false]
            exact (ih _ _ _).trans (List.suffix_cons _ _)
    | succ k =>
      by_cases hfull : M ≤ acc.length
      · simp only [decode_run_data, hfull, if_true]
        exact List.suffix_refl _
      · by_cases hb : b = frame_delim
        · simp only [decode_run_data, hb, hfull, if_false, if_true]
          exact List.suffix_refl _
        · simp only [decode_run_data, hb, hfull, if_false]
          exact (ih _ _ _).trans (List.suffix_cons _ _)

theorem decode_run_code_suffix (M : Nat) (acc input : List Byte) :
    (decode_run_code M acc input).2 <:+ input := by
  cases input with
  | nil => simp [decode_run_code]
  | cons b t =>
    by_cases hb : b = frame_delim
    · simp only [decode_run_code, hb, if_true]
      exact List.suffix_cons _ _
    · simp only [decode_run_code, hb, if_false]
      exact (decode_run_data_suffix M t _ _ _).trans (List.suffix_cons _ _)

theorem skip_input_suffix : ∀ input : List Byte, skip_input input <:+ input := by
  intro input
  induction input with
  | nil => simp [skip_input]
  | cons b t ih =>
    by_cases hb : to_byte b = frame_delim
    · simp only [skip_input, hb, if_true]
      exact List.suffix_cons _ _
    · simp only [skip_input, hb, if_false]
      exact ih.trans (List.suffix_cons _ _)

theorem last_of_suffix (r l : List Byte) (h : r <:+ l) (hr : r ≠ []) :
    l.getLast? = r.getLast? := by
  obtain ⟨p, hp⟩ := h
  rw [← hp]
  cases r with
  | nil => exact absurd rfl hr
  | cons a t => simp [List.getLast?_append, List.getLast?_cons]

theorem last_ne_zero_of_zero_free (l : List Byte) (h : ∀ b ∈ l, b ≠ 0) :
    l.getLast? ≠ some 0 := by
  intro h0
  obtain ⟨u, hu⟩ := List.getLast?_eq_some_iff.mp h0
  exact h 0 (by rw [hu]; simp) rfl

/-- An outcome `incomplete` is possible only on an input that is not empty and
does not end with a delimiter. -/
theorem decode_outcomes_incomplete (M : Nat) : ∀ (n : Nat) (input : List Byte),
    value_type.unexpected decode_error.incomplete ∈ decode_outcomes M n input →
    input ≠ [] ∧ input.getLast? ≠ some 0 := by
  intro n
  induction n with
  | zero =>
    intro input h
    simp [decode_outcomes] at h
  | succ n ih =>
    intro input h
    have hsuf := decode_run_code_suffix M [] input
    cases hx : decode_run_code M [] input with
    | mk x rest =>
      rw [hx] at hsuf
      have htail : ∀ r : List Byte, r <:+ rest →
          value_type.unexpected decode_error.incomplete ∈ decode_outcomes M n r →
          input ≠ [] ∧ input.getLast? ≠ some 0 := by
        intro r hr hmem
        obtain ⟨h1, h2⟩ := ih r hmem
        have h3 : r <:+ input := hr.trans hsuf
        refine ⟨?_, ?_⟩
        · intro h4
          rw [h4] at h3
          exact h1 (List.suffix_nil.mp h3)
        · rw [last_of_suffix r input h3 h1]
          exact h2
      cases x with
      | finished =>
        simp [decode_outcomes, hx] at h
      | complete bytes =>
        simp only [decode_outcomes, hx, List.mem_cons] at h
        rcases h with h | h
        · cases h
        · exact htail rest (List.suffix_refl _) h
      | error e =>
        simp only [decode_outcomes, hx, List.mem_cons] at h
        rcases h with h | h
        · have he : e = decode_error.incomplete := by
            injection h with h5
            exact h5.symm
          rw [he] at hx
          obtain ⟨h1, _, h3⟩ := decode_run_code_incomplete M [] input rest hx
          exact ⟨h1, last_ne_zero_of_zero_free input h3⟩
        · exact htail _ (skip_input_suffix rest) h

/-- C33. Delimiter-terminated streams are never incomplete: for every
MaxFrameSize and every byte stream whose last byte is 0x00 the decoder returns,
and no outcome is the error `incomplete`: every outcome is a successful frame,
`invalid` or `oversized`. -/
theorem C33_delimited_never_incomplete (M : Nat) (s : List Byte)
    (h : s.getLast? = some 0x00) :
    ∃ outs, decode M s = some outs ∧
      value_type.unexpected decode_error.incomplete ∉ outs ∧
      ∀ o ∈ outs, (∃ bytes, o = value_type.frame bytes) ∨
        o = value_type.unexpected decode_error.invalid_cobs ∨
        o = value_type.unexpected decode_error.oversized := by
  have hno : value_type.unexpected decode_error.incomplete ∉ decode_outcomes M s.length s :=
    fun hmem => (decode_outcomes_incomplete M s.length s hmem).2 h
  refine ⟨_, decode_eq_outcomes M s, hno, ?_⟩
  intro o ho
  cases o with
  | frame bytes => exact Or.inl ⟨bytes, rfl⟩
  | unexpected e =>
    cases e with
    | oversized => exact Or.inr (Or.inr rfl)
    | invalid_cobs => exact Or.inr (Or.inl rfl)
    | incomplete => exact absurd ho hno

theorem C33_delimited_never_incomplete_witness :
    [(0x03 : Byte), 0x11, 0x00].getLast? = some 0x00 ∧
    ∃ outs, decode 4096 [0x03, 0x11, 0x00] = some outs ∧
      value_type.unexpected decode_error.incomplete ∉ outs ∧
      ∀ o ∈ outs, (∃ bytes, o = value_type.frame bytes) ∨
        o = value_type.unexpected decode_error.invalid_cobs ∨
        o = value_type.unexpected decode_error.oversized :=
  ⟨rfl, C33_delimited_never_incomplete 4096 [0x03, 0x11, 0x00] rfl⟩

/-! ## Byte normalisation -/

/-- C35. Byte normalisation: `to_byte` is the identity on byte values, and on
an integral element of size one, of value `v` (signed, `-128 .. 127`, or
unsigned, `0 .. 255`), it is the byte `v mod 256`; so it is the delimiter 0x00
exactly when `v = 0`, and the signed value `-1` becomes 0xFF, a data byte. -/
theorem C35_byte_normalisation (v : Int) (hv : -128 ≤ v ∧ v ≤ 255) :
    (∀ b : Byte, to_byte b = b) ∧
    ((to_byte_integral v).val : Int) = v % 256 ∧
    (to_byte_integral v = frame_delim ↔ v = 0) ∧
    (v ≠ 0 → to_byte (to_byte_integral v) ≠ frame_delim) ∧
    to_byte_integral (-1) = 0xFF := by
  obtain ⟨h1, h2⟩ := hv
  have hnn : 0 ≤ v % 256 := Int.emod_nonneg v (by decide)
  have hval : ((to_byte_integral v).val : Int) = v % 256 := by
    show (((v % 256).toNat : Nat) : Int) = v % 256
    exact Int.toNat_of_nonneg hnn
  have hiff : to_byte_integral v = frame_delim ↔ v = 0 := by
    constructor
    · intro h
      have h3 : ((to_byte_integral v).val : Int) = 0 := by
        rw [h]
        rfl
      rw [hval] at h3
      omega
    · intro h
      rw [h]
      rfl
  refine ⟨fun b => rfl, hval, hiff, ?_, rfl⟩
  intro hne h
  exact hne (hiff.mp h)

theorem C35_byte_normalisation_witness :
    (-128 ≤ (-1 : Int) ∧ (-1 : Int) ≤ 255) ∧
    ((to_byte_integral (-1)).val : Int) = (-1) % 256 ∧
    (to_byte_integral (-1) = frame_delim ↔ (-1 : Int) = 0) :=
  ⟨by decide, (C35_byte_normalisation (-1) (by decide)).2.1,
    (C35_byte_normalisation (-1) (by decide)).2.2.1⟩

/-! ## Safety of the frame buffer of the decoder -/

theorem begin_eq_decode_constructed (M : Nat) (input : List Byte) :
    DecodeIterator.begin M input = decode_advance M (decode_constructed M input) := rfl

theorem decode_next_frame_eq_reset (M : Nat) (s : DecodeIterator) :
    decode_next_frame M s
      = decode_next_frame_loop M (3 * s.input_.length + 4) (decode_reset s) := rfl

/-- The `while` of `process_read_data_bytes` is an iteration of `decode_step`. -/
theorem read_data_loop_reachable (M : Nat) (input : List Byte) :
    ∀ (fuel : Nat) (s : DecodeIterator) (x : Option decode_state) (s1 : DecodeIterator),
      DecodeReachable M input s → s.state_ = decode_state.read_data_bytes → s.code_ ≠ 1 →
      read_data_loop M fuel s = some (x, s1) →
      DecodeReachable M input
        (match x with
         | some st => { s1 with state_ := st }
         | none => read_data_after s1) := by
  intro fuel
  induction fuel with
  | zero =>
    intro s x s1 _ _ _ h
    simp [read_data_loop] at h
  | succ fuel ih =>
    intro s x s1 hs hst hc h
    have hr := DecodeReachable.step s hs
    cases hin : s.input_ with
    | nil =>
      simp only [read_data_loop, hin] at h
      obtain ⟨rfl, rfl⟩ := Prod.mk.inj (Option.some.inj h)
      have hstep : decode_step M s = read_data_after s := by
        simp [decode_step, hst, hc, hin]
      rw [hstep] at hr
      exact hr
    | cons v rest =>
      by_cases hlt : s.bytes_read_ < s.code_ - 1
      · by_cases hfull : M ≤ s.frame_size_
        · simp only [read_data_loop, hin, hlt, hfull, if_true] at h
          obtain ⟨rfl, rfl⟩ := Prod.mk.inj (Option.some.inj h)
          have hstep : decode_step M s
              = { s with current_error_ := some decode_error.oversized,
                         state_ := decode_state.error_state } := by
            simp [decode_step, hst, hc, hin, hlt, hfull]
          rw [hstep] at hr
          rw [← hin]
          exact hr
        · by_cases hd : to_byte v = frame_delim
          · simp only [read_data_loop, hin, hlt, hfull, hd, if_true, if_false] at h
            obtain ⟨rfl, rfl⟩ := Prod.mk.inj (Option.some.inj h)
            have hstep : decode_step M s
                = { s with current_error_ := some decode_error.invalid_cobs,
                           state_ := decode_state.error_state } := by
              simp [decode_step, hst, hc, hin, hlt, hfull, hd]
            rw [hstep] at hr
            rw [← hin]
            exact hr
          · simp only [read_data_loop, hin, hlt, hfull, hd, if_true, if_false] at h
            have hstep : decode_step M s
                = { s with frame_buffer_ := s.frame_buffer_.set s.frame_size_ (to_byte v),
                           frame_size_ := s.frame_size_ + 1,
                           input_ := rest,
                           bytes_read_ := s.bytes_read_ + 1 } := by
              simp [decode_step, hst, hc, hin, hlt, hfull, hd]
            rw [hstep] at hr
            exact ih _ x s1 hr hst hc h
      · simp only [read_data_loop, hin, hlt, if_false] at h
        obtain ⟨rfl, rfl⟩ := Prod.mk.inj (Option.some.inj h)
        have hstep : decode_step M s = read_data_after s := by
          simp [decode_step, hst, hc, hin, hlt]
        rw [hstep] at hr
        exact hr

theorem process_read_data_bytes_reachable (M : Nat) (input : List Byte)
    (s : DecodeIterator) (r : decode_state × DecodeIterator)
    (hs : DecodeReachable M input s) (hst : s.state_ = decode_state.read_data_bytes)
    (h : process_read_data_bytes M s = some r) :
    DecodeReachable M input { r.2 with state_ := r.1 } := by
  by_cases hc : s.code_ = 1
  · simp only [process_read_data_bytes, hc, if_true] at h
    have h2 := Option.some.inj h
    rw [← h2]
    have hr := DecodeReachable.step s hs
    have hstep : decode_step M s = { s with state_ := decode_state.handle_zero } := by
      simp [decode_step, hst, hc]
    rw [hstep] at hr
    exact hr
  · unfold process_read_data_bytes at h
    rw [if_neg hc] at h
    cases hl : read_data_loop M (s.input_.length + 1) s with
    | none =>
      rw [hl] at h
      simp at h
    | some p =>
      obtain ⟨x, s1⟩ := p
      have hr := read_data_loop_reachable M input _ s x s1 hs hst hc hl
      rw [hl] at h
      cases x with
      | some st =>
        have h2 : (st, s1) = r := Option.some.inj h
        rw [← h2]
        exact hr
      | none =>
        have h3 : (if s1.bytes_read_ = s1.code_ - 1 then
            some (decode_state.handle_zero, s1)
          else some (decode_state.error_state,
            { s1 with current_error_ := some decode_error.incomplete })) = some r := h
        have hr2 : DecodeReachable M input (read_data_after s1) := hr
        by_cases he : s1.bytes_read_ = s1.code_ - 1
        · rw [if_pos he] at h3
          have h2 := Option.some.inj h3
          rw [← h2]
          rw [read_data_after, if_pos he] at hr2
          exact hr2
        · rw [if_neg he] at h3
          have h2 := Option.some.inj h3
          rw [← h2]
          rw [read_data_after, if_neg he] at hr2
          exact hr2

/-- Every state the loop of `decode_next_frame` returns is reachable. -/
theorem decode_loop_reachable (M : Nat) (input : List Byte) :
    ∀ (fuel : Nat) (s : DecodeIterator) (r : Bool × DecodeIterator),
      DecodeReachable M input s → decode_next_frame_loop M fuel s = some r →
      DecodeReachable M input r.2 := by
  intro fuel
  induction fuel with
  | zero =>
    intro s r _ h
    simp [decode_next_frame_loop] at h
  | succ fuel ih =>
    intro s r hs h
    have hr := DecodeReachable.step s hs
    cases hst : s.state_ with
    | wait_for_code =>
      rw [decode_loop_wait_for_code M fuel s hst] at h
      have hstep : decode_step M s
          = { (process_wait_for_code s).2 with state_ := (process_wait_for_code s).1 } := by
        simp [decode_step, hst]
      rw [hstep] at hr
      exact ih _ r hr h
    | read_data_bytes =>
      cases hp : process_read_data_bytes M s with
      | none => simp [decode_next_frame_loop, hst, hp] at h
      | some p =>
        rw [decode_loop_read_data_bytes M fuel s p hst hp] at h
        exact ih _ r (process_read_data_bytes_reachable M input s p hs hst hp) h
    | handle_zero =>
      rw [decode_loop_handle_zero M fuel s hst] at h
      have hstep : decode_step M s
          = { (process_handle_zero M s).2 with state_ := (process_handle_zero M s).1 } := by
        simp [decode_step, hst]
      rw [hstep] at hr
      exact ih _ r hr h
    | frame_complete =>
      rw [decode_loop_frame_complete M fuel s hst] at h
      have hstep : decode_step M s
          = { (process_frame_complete s).2 with state_ := (process_frame_complete s).1 } := by
        simp [decode_step, hst]
      rw [hstep] at hr
      rw [← Option.some.inj h]
      exact hr
    | error_state =>
      rw [decode_loop_error_state M fuel s hst] at h
      rw [← Option.some.inj h]
      exact hs
    | finished =>
      rw [decode_loop_finished M fuel s hst] at h
      rw [← Option.some.inj h]
      exact DecodeReachable.flag s true hs

theorem decode_advance_reachable (M : Nat) (input : List Byte) (s it : DecodeIterator)
    (hs : DecodeReachable M input s) (h : decode_advance M s = some it) :
    DecodeReachable M input it := by
  unfold decode_advance at h
  cases hn : decode_next_frame M s with
  | none =>
    rw [hn] at h
    simp at h
  | some p =>
    obtain ⟨r, s1⟩ := p
    rw [hn] at h
    have h2 : { s1 with finished_ := !r && s1.current_error_.isNone } = it :=
      Option.some.inj h
    rw [← h2]
    rw [decode_next_frame_eq_reset] at hn
    exact DecodeReachable.flag s1 _
      (decode_loop_reachable M input _ _ (r, s1) (DecodeReachable.reset s hs) hn)

/-- Every iterator value a consumer of the decoder sees is a reachable state. -/
theorem decode_visited_reachable (M : Nat) (input : List Byte) (it : DecodeIterator)
    (h : DecodeVisited M input it) : DecodeReachable M input it := by
  induction h with
  | begin it hb =>
    rw [begin_eq_decode_constructed] at hb
    exact decode_advance_reachable M input _ it DecodeReachable.constructed hb
  | next it it2 _ _ hn ih =>
    have hnext : ∀ s1 : DecodeIterator, DecodeReachable M input s1 →
        (if !s1.finished_ then decode_advance M s1 else some s1) = some it2 →
        DecodeReachable M input it2 := by
      intro s1 hs1 h2
      by_cases hf : (!s1.finished_) = true
      · rw [if_pos hf] at h2
        exact decode_advance_reachable M input s1 it2 hs1 h2
      · rw [if_neg hf] at h2
        rw [← Option.some.inj h2]
        exact hs1
    unfold DecodeIterator.next at hn
    dsimp only at hn
    by_cases he : it.current_error_.isSome = true
    · rw [if_pos he] at hn
      exact hnext _ (DecodeReachable.skip it ih) hn
    · rw [if_neg he] at hn
      exact hnext _ ih hn

theorem process_wait_for_code_frame (s : DecodeIterator) :
    (process_wait_for_code s).2.frame_buffer_ = s.frame_buffer_ ∧
    (process_wait_for_code s).2.frame_size_ = s.frame_size_ := by
  cases hin : s.input_ with
  | nil => simp [process_wait_for_code, hin]
  | cons v rest =>
    by_cases hd : to_byte v = frame_delim
    · simp [process_wait_for_code, hin, hd]
    · by_cases h0 : (to_byte v).val = 0
      · simp [process_wait_for_code, hin, hd, h0]
      · simp [process_wait_for_code, hin, hd, h0]

/-- The write index describes the step: a step without write index leaves the
frame buffer and `frame_size_` as they are, a step with write index writes the
slot `frame_size_`, which is below `MaxFrameSize`, and counts it. -/
theorem decode_step_buffer (M : Nat) (s : DecodeIterator) :
    (decode_write_index M s = none ∧ (decode_step M s).frame_buffer_ = s.frame_buffer_ ∧
      (decode_step M s).frame_size_ = s.frame_size_) ∨
    (∃ b, decode_write_index M s = some s.frame_size_ ∧ s.frame_size_ < M ∧
      (decode_step M s).frame_buffer_ = s.frame_buffer_.set s.frame_size_ b ∧
      (decode_step M s).frame_size_ = s.frame_size_ + 1) := by
  cases hst : s.state_ with
  | wait_for_code =>
    left
    obtain ⟨h1, h2⟩ := process_wait_for_code_frame s
    simp [decode_write_index, decode_step, hst, h1, h2]
  | read_data_bytes =>
    by_cases hc : s.code_ = 1
    · left
      simp [decode_write_index, decode_step, hst, hc]
    · have hafter : (read_data_after s).frame_buffer_ = s.frame_buffer_ ∧
          (read_data_after s).frame_size_ = s.frame_size_ := by
        unfold read_data_after
        split <;> simp
      cases hin : s.input_ with
      | nil =>
        left
        simp [decode_write_index, decode_step, hst, hc, hin, hafter]
      | cons v rest =>
        by_cases hlt : s.bytes_read_ < s.code_ - 1
        · by_cases hfull : M ≤ s.frame_size_
          · left
            simp [decode_write_index, decode_step, hst, hc, hin, hlt, hfull]
          · by_cases hd : to_byte v = frame_delim
            · left
              simp [decode_write_index, decode_step, hst, hc, hin, hlt, hfull, hd]
            · right
              refine ⟨to_byte v, ?_, by omega, ?_, ?_⟩
              · simp [decode_write_index, hst, hc, hin, hlt, hfull, hd]
              · simp [decode_step, hst, hc, hin, hlt, hfull, hd]
              · simp [decode_step, hst, hc, hin, hlt, hfull, hd]
        · left
          simp [decode_write_index, decode_step, hst, hc, hin, hlt, hafter]
  | handle_zero =>
    by_cases hc : 255 ≤ s.code_
    · left
      simp [decode_write_index, decode_step, hst, process_handle_zero, hc]
    · cases hin : s.input_ with
      | nil =>
        left
        simp [decode_write_index, decode_step, hst, process_handle_zero, hc, hin]
      | cons v rest =>
        by_cases hd : to_byte v = frame_delim
        · left
          simp [decode_write_index, decode_step, hst, process_handle_zero, hc, hin, hd]
        · by_cases hfull : s.frame_size_ ≥ M
          · left
            simp [decode_write_index, decode_step, hst, process_handle_zero, hc, hin, hd, hfull]
          · right
            refine ⟨0, ?_, by omega, ?_, ?_⟩
            · simp [decode_write_index, hst, hc, hin, hd, hfull]
            · simp [decode_step, hst, process_handle_zero, hc, hin, hd, hfull]
            · simp [decode_step, hst, process_handle_zero, hc, hin, hd, hfull]
  | frame_complete =>
    left
    simp [decode_write_index, decode_step, hst, process_frame_complete]
  | error_state =>
    left
    simp [decode_write_index, decode_step, hst]
  | finished =>
    left
    simp [decode_write_index, decode_step, hst]

/-- The invariant of the reachable states of the decoder: the frame buffer has
its `MaxFrameSize` slots and `frame_size_` does not exceed them. -/
theorem decode_reachable_invariant (M : Nat) (input : List Byte) (s : DecodeIterator)
    (h : DecodeReachable M input s) :
    s.frame_buffer_.length = M ∧ s.frame_size_ ≤ M := by
  induction h with
  | constructed => exact ⟨List.length_replicate _ _, Nat.zero_le _⟩
  | reset s _ ih => exact ⟨ih.1, Nat.zero_le _⟩
  | skip s _ ih => exact ih
  | flag s b _ ih => exact ih
  | step s _ ih =>
    rcases decode_step_buffer M s with ⟨_, h1, h2⟩ | ⟨b, _, h0, h1, h2⟩
    · rw [h1, h2]
      exact ih
    · rw [h1, h2, List.length_set]
      exact ⟨ih.1, h0⟩

/-- A frame that `decode_next_frame` completes fits the frame buffer. -/
theorem decode_run_data_complete_le (M : Nat) :
    ∀ (input : List Byte) (code k : Nat) (acc bytes rest : List Byte),
      acc.length ≤ M →
      decode_run_data M input code k acc = (frame_exit.complete bytes, rest) →
      bytes.length ≤ M := by
  intro input
  induction input with
  | nil =>
    intro code k acc bytes rest _ h
    cases k with
    | zero =>
      by_cases hc : 255 ≤ code <;> simp [decode_run_data, hc] at h
    | succ k => simp [decode_run_data] at h
  | cons b t ih =>
    intro code k acc bytes rest hacc h
    cases k with
    | zero =>
      by_cases hb : b = frame_delim
      · simp only [decode_run_data, hb, if_true] at h
        have h2 : acc = bytes := by
          injection h with h3 _
          injection h3
        rw [← h2]
        exact hacc
      · by_cases hc : 255 ≤ code
        · simp only [decode_run_data, hb, hc, if_false, if_true] at h
          exact ih _ _ _ _ _ hacc h
        · by_cases hfull : M ≤ acc.length
          · simp [decode_run_data, hb, hc, hfull] at h
          · simp only [decode_run_data, hb, hc, hfull, if_false] at h
            exact ih _ _ _ _ _ (by simp; omega) h
    | succ k =>
      by_cases hfull : M ≤ acc.length
      · simp [decode_run_data, hfull] at h
      · by_cases hb : b = frame_delim
        · simp [decode_run_data, hb, hfull] at h
        · simp only [decode_run_data, hb, hfull, if_false] at h
          exact ih _ _ _ _ _ (by simp; omega) h

theorem decode_run_code_complete_le (M : Nat) (input bytes rest : List Byte)
    (h : decode_run_code M [] input = (frame_exit.complete bytes, rest)) :
    bytes.length ≤ M := by
  cases input with
  | nil => simp [decode_run_code] at h
  | cons b t =>
    by_cases hb : b = frame_delim
    · simp only [decode_run_code, hb, if_true] at h
      have h2 : ([] : List Byte) = bytes := by
        injection h with h3 _
        injection h3
      rw [← h2]
      exact Nat.zero_le _
    · simp only [decode_run_code, hb, if_false] at h
      exact decode_run_data_complete_le M t _ _ [] bytes rest (Nat.zero_le _) h

theorem decode_outcomes_frame_le (M : Nat) : ∀ (n : Nat) (input bytes : List Byte),
    value_type.frame bytes ∈ decode_outcomes M n input → bytes.length ≤ M := by
  intro n
  induction n with
  | zero =>
    intro input bytes h
    simp [decode_outcomes] at h
  | succ n ih =>
    intro input bytes h
    cases hx : decode_run_code M [] input with
    | mk x rest =>
      cases x with
      | finished => simp [decode_outcomes, hx] at h
      | complete fr =>
        simp only [decode_outcomes, hx, List.mem_cons] at h
        rcases h with h | h
        · have h2 : bytes = fr := by
            injection h
          rw [h2]
          exact decode_run_code_complete_le M input fr rest hx
        · exact ih _ _ h
      | error e =>
        simp only [decode_outcomes, hx, List.mem_cons] at h
        rcases h with h | h
        · cases h
        · exact ih _ _ h

/-- C31. Safety of the frame buffer of the decoder, for every MaxFrameSize `M`
(`M = 0` included) and every input stream. In every reachable decoder state
the buffer has its `M` slots and `frame_size_ ≤ M`; every write of a step is at
the index `frame_size_`, which is then strictly below `M`, and the step counts
it. Every iterator value a consumer sees is such a state, and a frame it
dereferences to has at most `M` bytes; so every successful frame among the
outcomes of the decoder has at most `M` bytes. -/
theorem C31_frame_buffer_safety (M : Nat) (input : List Byte) :
    (∀ s, DecodeReachable M input s →
      s.frame_buffer_.length = M ∧ s.frame_size_ ≤ M ∧
      ∀ i, decode_write_index M s = some i →
        i = s.frame_size_ ∧ i < M ∧ i < s.frame_buffer_.length ∧
        (∃ b, (decode_step M s).frame_buffer_ = s.frame_buffer_.set i b) ∧
        (decode_step M s).frame_size_ = i + 1) ∧
    (∀ it, DecodeVisited M input it →
      DecodeReachable M input it ∧
      ∀ bytes, it.deref = value_type.frame bytes → bytes.length ≤ M) ∧
    ∃ outs, decode M input = some outs ∧
      ∀ bytes, value_type.frame bytes ∈ outs → bytes.length ≤ M := by
  refine ⟨?_, ?_, ?_⟩
  · intro s hs
    obtain ⟨h1, h2⟩ := decode_reachable_invariant M input s hs
    refine ⟨h1, h2, ?_⟩
    intro i hi
    rcases decode_step_buffer M s with ⟨h3, _, _⟩ | ⟨b, h3, h4, h5, h6⟩
    · rw [h3] at hi
      cases hi
    · rw [h3] at hi
      have h7 : s.frame_size_ = i := Option.some.inj hi
      rw [← h7]
      exact ⟨rfl, h4, by omega, ⟨b, h5⟩, h6⟩
  · intro it hv
    have hr := decode_visited_reachable M input it hv
    refine ⟨hr, ?_⟩
    obtain ⟨h1, h2⟩ := decode_reachable_invariant M input it hr
    intro bytes hd
    unfold DecodeIterator.deref at hd
    cases he : it.current_error_ with
    | some e =>
      rw [he] at hd
      cases hd
    | none =>
      rw [he] at hd
      have h3 : it.frame_buffer_.take it.frame_size_ = bytes := by
        injection hd
      rw [← h3, List.length_take]
      omega
  · exact ⟨_, decode_eq_outcomes M input,
      fun bytes h => decode_outcomes_frame_le M input.length input bytes h⟩

theorem C31_frame_buffer_safety_witness :
    (∃ outs, decode 0 [0x01, 0x02, 0x11, 0x00] = some outs ∧
      ∀ bytes, value_type.frame bytes ∈ outs → bytes.length ≤ 0) ∧
    ∃ it, DecodeIterator.begin 2 [0x03, 0x11, 0x22, 0x00] = some it ∧
      DecodeReachable 2 [0x03, 0x11, 0x22, 0x00] it ∧
      it.deref = value_type.frame [0x11, 0x22] :=
  ⟨(C31_frame_buffer_safety 0 [0x01, 0x02, 0x11, 0x00]).2.2,
    ⟨_, rfl,
      ((C31_frame_buffer_safety 2 [0x03, 0x11, 0x22, 0x00]).2.1 _
        (DecodeVisited.begin _ rfl)).1, rfl⟩⟩

/-! ## Where the error `invalid` comes from -/

/-- The state `wait_for_code` reports no error: a zero byte ends the frame
before the test `code_ == 0`, which therefore never succeeds. -/
theorem process_wait_for_code_result (s : DecodeIterator) :
    ((process_wait_for_code s).1 = decode_state.finished ∨
     (process_wait_for_code s).1 = decode_state.frame_complete ∨
     (process_wait_for_code s).1 = decode_state.read_data_bytes) ∧
    (process_wait_for_code s).2.current_error_ = s.current_error_ := by
  cases hin : s.input_ with
  | nil => simp [process_wait_for_code, hin]
  | cons v rest =>
    by_cases hd : to_byte v = frame_delim
    · simp [process_wait_for_code, hin, hd]
    · have h0 : (to_byte v).val ≠ 0 := fun h => hd (Fin.ext h)
      simp [process_wait_for_code, hin, hd, h0]

/-- The invariant of the reachable states on the error member: an error is set
only together with the state `error_state`, the code of a declared run is in
`1 .. 255`, and the error `invalid` is set only on a byte 0x00 that is still
unread, inside a declared run whose code is at least 2. -/
theorem decode_reachable_error (M : Nat) (input : List Byte) (s : DecodeIterator)
    (h : DecodeReachable M input s) :
    s.code_ ≤ 255 ∧
    (s.state_ = decode_state.read_data_bytes → 1 ≤ s.code_) ∧
    (s.current_error_ ≠ none → s.state_ = decode_state.error_state) ∧
    (s.current_error_ = some decode_error.invalid_cobs →
      2 ≤ s.code_ ∧ s.bytes_read_ < s.code_ - 1 ∧ ∃ rest, s.input_ = 0 :: rest) := by
  induction h with
  | constructed =>
    refine ⟨Nat.zero_le _, ?_, ?_, ?_⟩ <;> intro h <;> simp [decode_constructed] at h
  | reset s _ ih =>
    refine ⟨ih.1, ?_, ?_, ?_⟩ <;> intro h <;> simp [decode_reset] at h
  | skip s _ ih =>
    refine ⟨ih.1, ?_, ?_, ?_⟩ <;> intro h <;> simp [skip_to_delimiter] at h
  | flag s b _ ih => exact ih
  | step s _ ih =>
    obtain ⟨k1, k2, k3, k4⟩ := ih
    have herr : s.state_ ≠ decode_state.error_state → s.current_error_ = none := by
      intro hne
      by_contra hc
      exact hne (k3 hc)
    cases hst : s.state_ with
    | wait_for_code =>
      have he := herr (by rw [hst]; simp)
      cases hin : s.input_ with
      | nil =>
        have hstep : decode_step M s = { s with state_ := decode_state.finished } := by
          simp [decode_step, hst, process_wait_for_code, hin]
        rw [hstep]
        simp [he, k1]
      | cons v rest =>
        by_cases hd : to_byte v = frame_delim
        · have hstep : decode_step M s
              = { s with input_ := rest, state_ := decode_state.frame_complete } := by
            simp [decode_step, hst, process_wait_for_code, hin, hd]
          rw [hstep]
          simp [he, k1]
        · have h0 : (to_byte v).val ≠ 0 := fun h => hd (Fin.ext h)
          have hstep : decode_step M s
              = { s with input_ := rest, code_ := (to_byte v).val, bytes_read_ := 0,
                         state_ := decode_state.read_data_bytes } := by
            simp [decode_step, hst, process_wait_for_code, hin, hd, h0]
          rw [hstep]
          have hv1 : (to_byte v).val ≤ 255 := Nat.le_of_lt_succ (Fin.isLt _)
          have hv2 : 1 ≤ (to_byte v).val := by omega
          simp [he, hv1, hv2]
    | read_data_bytes =>
      have he := herr (by rw [hst]; simp)
      have hcode := k2 hst
      have hafter : (read_data_after s).code_ ≤ 255 ∧
          ((read_data_after s).state_ = decode_state.read_data_bytes →
            1 ≤ (read_data_after s).code_) ∧
          ((read_data_after s).current_error_ ≠ none →
            (read_data_after s).state_ = decode_state.error_state) ∧
          ((read_data_after s).current_error_ = some decode_error.invalid_cobs →
            2 ≤ (read_data_after s).code_ ∧
            (read_data_after s).bytes_read_ < (read_data_after s).code_ - 1 ∧
            ∃ rest, (read_data_after s).input_ = 0 :: rest) := by
        unfold read_data_after
        split <;> simp [he, k1]
      by_cases hc : s.code_ = 1
      · have hstep : decode_step M s = { s with state_ := decode_state.handle_zero } := by
          simp [decode_step, hst, hc]
        rw [hstep]
        simp [he, k1]
      · cases hin : s.input_ with
        | nil =>
          have hstep : decode_step M s = read_data_after s := by
            simp [decode_step, hst, hc, hin]
          rw [hstep]
          exact hafter
        | cons v rest =>
          by_cases hlt : s.bytes_read_ < s.code_ - 1
          · by_cases hfull : M ≤ s.frame_size_
            · have hstep : decode_step M s
                  = { s with current_error_ := some decode_error.oversized,
                             state_ := decode_state.error_state } := by
                simp [decode_step, hst, hc, hin, hlt, hfull]
              rw [hstep]
              simp [k1]
            · by_cases hd : to_byte v = frame_delim
              · have hstep : decode_step M s
                    = { s with current_error_ := some decode_error.invalid_cobs,
                               state_ := decode_state.error_state } := by
                  simp [decode_step, hst, hc, hin, hlt, hfull, hd]
                rw [hstep]
                have hv : v = 0 := hd
                have h2 : 2 ≤ s.code_ := by omega
                refine ⟨k1, fun h => by simp at h, fun _ => rfl,
                  fun _ => ⟨h2, hlt, rest, ?_⟩⟩
                show s.input_ = 0 :: rest
                rw [hin, hv]
              · have hstep : decode_step M s
                    = { s with frame_buffer_ := s.frame_buffer_.set s.frame_size_ (to_byte v),
                               frame_size_ := s.frame_size_ + 1,
                               input_ := rest,
                               bytes_read_ := s.bytes_read_ + 1 } := by
                  simp [decode_step, hst, hc, hin, hlt, hfull, hd]
                rw [hstep]
                simp [he, k1, hcode]
          · have hstep : decode_step M s = read_data_after s := by
              simp [decode_step, hst, hc, hin, hlt]
            rw [hstep]
            exact hafter
    | handle_zero =>
      have he := herr (by rw [hst]; simp)
      by_cases hc : 255 ≤ s.code_
      · have hstep : decode_step M s = { s with state_ := decode_state.wait_for_code } := by
          simp [decode_step, hst, process_handle_zero, hc]
        rw [hstep]
        simp [he, k1]
      · cases hin : s.input_ with
        | nil =>
          have hstep : decode_step M s
              = { s with current_error_ := some decode_error.incomplete,
                         state_ := decode_state.error_state } := by
            simp [decode_step, hst, process_handle_zero, hc, hin]
          rw [hstep]
          simp [k1]
        | cons v rest =>
          by_cases hd : to_byte v = frame_delim
          · have hstep : decode_step M s
                = { s with input_ := rest, state_ := decode_state.frame_complete } := by
              simp [decode_step, hst, process_handle_zero, hc, hin, hd]
            rw [hstep]
            simp [he, k1]
          · by_cases hfull : s.frame_size_ ≥ M
            · have hstep : decode_step M s
                  = { s with current_error_ := some decode_error.oversized,
                             state_ := decode_state.error_state } := by
                simp [decode_step, hst, process_handle_zero, hc, hin, hd, hfull]
              rw [hstep]
              simp [k1]
            · have hstep : decode_step M s
                  = { s with frame_buffer_ := s.frame_buffer_.set s.frame_size_ 0,
                             frame_size_ := s.frame_size_ + 1,
                             state_ := decode_state.wait_for_code } := by
                simp [decode_step, hst, process_handle_zero, hc, hin, hd, hfull]
              rw [hstep]
              simp [he, k1]
    | frame_complete =>
      have he := herr (by rw [hst]; simp)
      have hstep : decode_step M s
          = { s with frame_ready_ := true, state_ := decode_state.wait_for_code } := by
        simp [decode_step, hst, process_frame_complete]
      rw [hstep]
      simp [he, k1]
    | error_state =>
      have hstep : decode_step M s = s := by
        simp [decode_step, hst]
      rw [hstep]
      exact ⟨k1, k2, k3, k4⟩
    | finished =>
      have hstep : decode_step M s = { s with finished_ := true } := by
        simp [decode_step, hst]
      rw [hstep]
      exact ⟨k1, k2, k3, k4⟩

theorem run_cut_cons (b : Byte) (t r : List Byte) (hb : b ≠ 0)
    (h : RunCutByDelimiter t r) : RunCutByDelimiter (b :: t) r := by
  obtain ⟨pre, c, d, tail, h1, h2, h3, h4, h5⟩ := h
  refine ⟨b :: pre, c, d, tail, by simp [h1], h2, h3, h4, ?_⟩
  intro x hx
  rcases List.mem_cons.mp hx with h6 | h6
  · rw [h6]
    exact hb
  · exact h5 x h6

/-- The input of a call of `decode_next_frame` that ends with `invalid`: the
0x00 is met inside the current run, or inside the run of a later unit. -/
theorem decode_run_data_invalid (M : Nat) :
    ∀ (input : List Byte) (code k : Nat) (acc r : List Byte),
      decode_run_data M input code k acc
        = (frame_exit.error decode_error.invalid_cobs, r) →
      (∃ d tail, input = d ++ 0 :: tail ∧ r = 0 :: tail ∧ d.length < k ∧
        ∀ b ∈ d, b ≠ 0) ∨
      RunCutByDelimiter input r := by
  intro input
  induction input with
  | nil =>
    intro code k acc r h
    cases k with
    | zero =>
      by_cases hc : 255 ≤ code <;> simp [decode_run_data, hc] at h
    | succ k => simp [decode_run_data] at h
  | cons b t ih =>
    intro code k acc r h
    have hunit : ∀ (hb : b ≠ frame_delim) (acc2 : List Byte),
        decode_run_data M t b.val (b.val - 1) acc2
          = (frame_exit.error decode_error.invalid_cobs, r) →
        RunCutByDelimiter (b :: t) r := by
      intro hb acc2 h2
      rcases ih _ _ _ r h2 with ⟨d, tail, h3, h4, h5, h6⟩ | h3
      · refine ⟨[], b, d, tail, by simp [h3], h4, by omega, h5, ?_⟩
        intro x hx
        rcases List.mem_cons.mp hx with h7 | h7
        · rw [h7]
          exact hb
        · exact h6 x h7
      · exact run_cut_cons b t r hb h3
    cases k with
    | zero =>
      by_cases hb : b = frame_delim
      · simp [decode_run_data, hb] at h
      · by_cases hc : 255 ≤ code
        · simp only [decode_run_data, hb, hc, if_false, if_true] at h
          exact Or.inr (hunit hb _ h)
        · by_cases hfull : M ≤ acc.length
          · simp [decode_run_data, hb, hc, hfull] at h
          · simp only [decode_run_data, hb, hc, hfull, if_false] at h
            exact Or.inr (hunit hb _ h)
    | succ k =>
      by_cases hfull : M ≤ acc.length
      · simp [decode_run_data, hfull] at h
      · by_cases hb : b = frame_delim
        · simp only [decode_run_data, hb, hfull, if_false, if_true] at h
          have h2 : frame_delim :: t = r := by
            injection h
          left
          exact ⟨[], t, by simp [hb, frame_delim], by rw [← h2]; rfl, by simp, by simp⟩
        · simp only [decode_run_data, hb, hfull, if_false] at h
          rcases ih _ _ _ r h with ⟨d, tail, h3, h4, h5, h6⟩ | h3
          · left
            refine ⟨b :: d, tail, by simp [h3], h4, by simp; omega, ?_⟩
            intro x hx
            rcases List.mem_cons.mp hx with h7 | h7
            · rw [h7]
              exact hb
            · exact h6 x h7
          · exact Or.inr (run_cut_cons b t r hb h3)

theorem decode_run_code_invalid (M : Nat) (acc input r : List Byte)
    (h : decode_run_code M acc input = (frame_exit.error decode_error.invalid_cobs, r)) :
    RunCutByDelimiter input r := by
  cases input with
  | nil => simp [decode_run_code] at h
  | cons b t =>
    by_cases hb : b = frame_delim
    · simp [decode_run_code, hb] at h
    · simp only [decode_run_code, hb, if_false] at h
      rcases decode_run_data_invalid M t _ _ _ r h with ⟨d, tail, h3, h4, h5, h6⟩ | h3
      · refine ⟨[], b, d, tail, by simp [h3], h4, by omega, h5, ?_⟩
        intro x hx
        rcases List.mem_cons.mp hx with h7 | h7
        · rw [h7]
          exact hb
        · exact h6 x h7
      · exact run_cut_cons b t r hb h3

/-- A call of `decode_next_frame` that completes a frame has consumed its input
up to and including a delimiter. -/
theorem decode_run_data_complete_split (M : Nat) :
    ∀ (input : List Byte) (code k : Nat) (acc bytes rest : List Byte),
      decode_run_data M input code k acc = (frame_exit.complete bytes, rest) →
      ∃ y, input = y ++ 0 :: rest := by
  intro input
  induction input with
  | nil =>
    intro code k acc bytes rest h
    cases k with
    | zero =>
      by_cases hc : 255 ≤ code <;> simp [decode_run_data, hc] at h
    | succ k => simp [decode_run_data] at h
  | cons b t ih =>
    intro code k acc bytes rest h
    have hrec : ∀ (code2 k2 : Nat) (acc2 : List Byte),
        decode_run_data M t code2 k2 acc2 = (frame_exit.complete bytes, rest) →
        ∃ y, b :: t = y ++ 0 :: rest := by
      intro code2 k2 acc2 h2
      obtain ⟨y, hy⟩ := ih _ _ _ _ _ h2
      exact ⟨b :: y, by simp [hy]⟩
    cases k with
    | zero =>
      by_cases hb : b = frame_delim
      · simp only [decode_run_data, hb, if_true] at h
        have h2 : t = rest := by
          injection h
        exact ⟨[], by simp [hb, frame_delim, h2]⟩
      · by_cases hc : 255 ≤ code
        · simp only [decode_run_data, hb, hc, if_false, if_true] at h
          exact hrec _ _ _ h
        · by_cases hfull : M ≤ acc.length
          · simp [decode_run_data, hb, hc, hfull] at h
          · simp only [decode_run_data, hb, hc, hfull, if_false] at h
            exact hrec _ _ _ h
    | succ k =>
      by_cases hfull : M ≤ acc.length
      · simp [decode_run_data, hfull] at h
      · by_cases hb : b = frame_delim
        · simp [decode_run_data, hb, hfull] at h
        · simp only [decode_run_data, hb, hfull, if_false] at h
          exact hrec _ _ _ h

theorem decode_run_code_complete_split (M : Nat) (acc input bytes rest : List Byte)
    (h : decode_run_code M acc input = (frame_exit.complete bytes, rest)) :
    ∃ y, input = y ++ 0 :: rest := by
  cases input with
  | nil => simp [decode_run_code] at h
  | cons b t =>
    by_cases hb : b = frame_delim
    · simp only [decode_run_code, hb, if_true] at h
      have h2 : t = rest := by
        injection h
      exact ⟨[], by simp [hb, frame_delim, h2]⟩
    · simp only [decode_run_code, hb, if_false] at h
      obtain ⟨y, hy⟩ := decode_run_data_complete_split M t _ _ _ _ _ h
      exact ⟨b :: y, by simp [hy]⟩

theorem skip_input_split : ∀ r : List Byte, skip_input r ≠ [] →
    ∃ y, r = y ++ 0 :: skip_input r := by
  intro r
  induction r with
  | nil =>
    intro h
    simp [skip_input] at h
  | cons b t ih =>
    intro h
    by_cases hb : to_byte b = frame_delim
    · have hb0 : b = 0 := hb
      simp only [skip_input, hb, if_true]
      exact ⟨[], by simp [hb0]⟩
    · simp only [skip_input, hb, if_false] at h ⊢
      obtain ⟨y, hy⟩ := ih h
      exact ⟨b :: y, by
        rw [List.cons_append, ← hy]⟩

/-- Every outcome `invalid` belongs to a frame segment, starting at the start of
the input or right after a delimiter, that is cut by a 0x00 inside a declared
run whose code is at least 2. -/
theorem decode_outcomes_invalid (M : Nat) : ∀ (n : Nat) (input : List Byte),
    value_type.unexpected decode_error.invalid_cobs ∈ decode_outcomes M n input →
    ∃ s1 s2 r, input = s1 ++ s2 ∧ (s1 = [] ∨ s1.getLast? = some 0) ∧
      RunCutByDelimiter s2 r := by
  intro n
  induction n with
  | zero =>
    intro input h
    simp [decode_outcomes] at h
  | succ n ih =>
    intro input h
    have hafter : ∀ (p t : List Byte), input = p ++ 0 :: t →
        value_type.unexpected decode_error.invalid_cobs ∈ decode_outcomes M n t →
        ∃ s1 s2 r, input = s1 ++ s2 ∧ (s1 = [] ∨ s1.getLast? = some 0) ∧
          RunCutByDelimiter s2 r := by
      intro p t hp hmem
      obtain ⟨s1, s2, r, h1, h2, h3⟩ := ih t hmem
      refine ⟨p ++ 0 :: s1, s2, r, by simp [hp, h1], Or.inr ?_, h3⟩
      rcases h2 with h2 | h2
      · rw [h2]
        simp
      · have hne : s1 ≠ [] := by
          intro h4
          rw [h4] at h2
          simp at h2
        rw [last_of_suffix s1 (p ++ 0 :: s1) ⟨p ++ [0], by simp⟩ hne]
        exact h2
    have hsuf := decode_run_code_suffix M [] input
    cases hx : decode_run_code M [] input with
    | mk x rest =>
      rw [hx] at hsuf
      cases x with
      | finished => simp [decode_outcomes, hx] at h
      | complete bytes =>
        simp only [decode_outcomes, hx, List.mem_cons] at h
        rcases h with h | h
        · cases h
        · obtain ⟨y, hy⟩ := decode_run_code_complete_split M [] input bytes rest hx
          exact hafter y rest hy h
      | error e =>
        simp only [decode_outcomes, hx, List.mem_cons] at h
        rcases h with h | h
        · have he : e = decode_error.invalid_cobs := by
            injection h with h5
            exact h5.symm
          rw [he] at hx
          exact ⟨[], input, rest, rfl, Or.inl rfl, decode_run_code_invalid M [] input rest hx⟩
        · have hne : skip_input rest ≠ [] := by
            intro h4
            rw [h4] at h
            cases n <;> simp [decode_outcomes, decode_run_code] at h
          obtain ⟨y, hy⟩ := skip_input_split rest hne
          obtain ⟨q, hq⟩ := hsuf
          refine hafter (q ++ y) (skip_input rest) ?_ h
          rw [← hq, List.append_assoc, ← hy]

/-- C34. Where `invalid` can come from. `process_wait_for_code` reports no
error from any state: its result is `finished`, `frame_complete` or
`read_data_bytes` and it leaves the error member as it is (a zero byte ends the
frame before the test `code_ == 0`). In every reachable state that holds the
error `invalid`, the decoder is in `error_state` on an unread byte 0x00 inside
a declared run whose code is in `2 .. 255`; this holds of every iterator value
that dereferences to `invalid`. On the stream, every outcome `invalid` belongs
to a frame segment cut by a 0x00 inside such a run. -/
theorem C34_invalid_origin (M : Nat) (input : List Byte) :
    (∀ s : DecodeIterator,
      ((process_wait_for_code s).1 = decode_state.finished ∨
       (process_wait_for_code s).1 = decode_state.frame_complete ∨
       (process_wait_for_code s).1 = decode_state.read_data_bytes) ∧
      (process_wait_for_code s).2.current_error_ = s.current_error_) ∧
    (∀ s, DecodeReachable M input s →
      s.current_error_ = some decode_error.invalid_cobs →
      s.state_ = decode_state.error_state ∧ 2 ≤ s.code_ ∧ s.code_ ≤ 255 ∧
      s.bytes_read_ < s.code_ - 1 ∧ ∃ rest, s.input_ = 0x00 :: rest) ∧
    (∀ it, DecodeVisited M input it →
      it.deref = value_type.unexpected decode_error.invalid_cobs →
      2 ≤ it.code_ ∧ it.code_ ≤ 255 ∧ it.bytes_read_ < it.code_ - 1 ∧
      ∃ rest, it.input_ = 0x00 :: rest) ∧
    ∃ outs, decode M input = some outs ∧
      (value_type.unexpected decode_error.invalid_cobs ∈ outs →
        ∃ s1 s2 r, input = s1 ++ s2 ∧ (s1 = [] ∨ s1.getLast? = some 0x00) ∧
          RunCutByDelimiter s2 r) := by
  have hstate : ∀ s, DecodeReachable M input s →
      s.current_error_ = some decode_error.invalid_cobs →
      s.state_ = decode_state.error_state ∧ 2 ≤ s.code_ ∧ s.code_ ≤ 255 ∧
      s.bytes_read_ < s.code_ - 1 ∧ ∃ rest, s.input_ = 0x00 :: rest := by
    intro s hs he
    obtain ⟨k1, _, k3, k4⟩ := decode_reachable_error M input s hs
    obtain ⟨h1, h2, h3⟩ := k4 he
    exact ⟨k3 (by rw [he]; simp), h1, k1, h2, h3⟩
  refine ⟨process_wait_for_code_result, hstate, ?_, ?_⟩
  · intro it hv hd
    have he : it.current_error_ = some decode_error.invalid_cobs := by
      unfold DecodeIterator.deref at hd
      cases hc : it.current_error_ with
      | none =>
        rw [hc] at hd
        cases hd
      | some e =>
        rw [hc] at hd
        injection hd with h5
        rw [h5]
    exact (hstate it (decode_visited_reachable M input it hv) he).2
  · exact ⟨_, decode_eq_outcomes M input, decode_outcomes_invalid M input.length input⟩

theorem C34_invalid_origin_witness :
    decode 4096 [0x03, 0x11, 0x00] = some [value_type.unexpected decode_error.invalid_cobs] ∧
    ∃ outs, decode 4096 [0x03, 0x11, 0x00] = some outs ∧
      (value_type.unexpected decode_error.invalid_cobs ∈ outs →
        ∃ s1 s2 r, [(0x03 : Byte), 0x11, 0x00] = s1 ++ s2 ∧
          (s1 = [] ∨ s1.getLast? = some 0x00) ∧ RunCutByDelimiter s2 r) :=
  ⟨rfl, (C34_invalid_origin 4096 [0x03, 0x11, 0x00]).2.2.2⟩

end mamecobs
